import Mathlib

/-!
Undo/redo command sequencer.

A shallow embedding of `src/lib/component/controller/UndoRedoController.cpp`.

* `m_list` (a `std::list<Command>`) is a `List Command`.
* A list iterator is the position it points at: `0` is `m_list.begin()`,
  `m_list.length` is `m_list.end()`.
* Messages are owned by exactly one list node (every handler stores a fresh
  `make_shared` copy), so a message is embedded by value inside its command and
  the setters write the command in place.
* `dispatch()` and the calls on the view are recorded in an output trace.
* Moving an iterator before `begin()` and dereferencing `end()` are undefined
  in C++; the embedding reports them as a `Fault`.
* The second backward scan of the Undo handler (lines 282-286) runs before the
  test of line 293 and leaves the list when the target is the first command;
  the compiled code goes on to line 293. `handleMessageUndoStray` embeds the
  handler with these reads let through, their outcome unspecified.
-/

namespace UndoRedo

/-- The enumeration `Command::Order`. -/
inductive Order where
  | ORDER_ACTIVATE
  | ORDER_ADAPT
  | ORDER_VIEW
  deriving DecidableEq, Repr

/-- The result of `getType()`: one tag per message class. -/
inductive MessageType where
  | ActivateAll
  | ActivateLocalSymbols
  | ActivateTokens
  | ChangeFileView
  | GraphNodeBundleSplit
  | GraphNodeExpand
  | GraphNodeMove
  | ScrollCode
  | ScrollGraph
  | SearchFullText
  | ShowErrors
  | ShowReference
  | ShowScope
  deriving DecidableEq, Repr

/-- Modelled from the spec: the message classes are declared in headers that are
not part of the sources at hand. Each variant carries the members that the
controller reads or writes. -/
inductive Payload where
  | ActivateAll
  | ActivateLocalSymbols (symbolIds : List Nat)
  | ActivateTokens (tokenIds : List Nat) (tokenNames : List Nat) (searchMatches : List Nat)
      (isEdge isAggregation isFromSearch : Bool)
  | ChangeFileView
  | GraphNodeBundleSplit
  | GraphNodeExpand
  | GraphNodeMove
  | ScrollCode (value : Int)
  | ScrollGraph (xValue yValue : Int)
  | SearchFullText (searchTerm : String) (caseSensitive : Bool)
  | ShowErrors (errorId : Nat)
  | ShowReference (refIndex : Nat)
  | ShowScope
  deriving DecidableEq, Repr

/-- Modelled from the spec: `MessageBase` with its replay-state flags and the
keep-content flag, together with the members of the concrete class. -/
structure Message where
  payload : Payload
  m_isReplayed : Bool
  m_isLast : Bool
  m_isReplayCleared : Bool
  m_keepContent : Bool
  deriving DecidableEq, Repr

namespace Message

def getType (m : Message) : MessageType :=
  match m.payload with
  | .ActivateAll => .ActivateAll
  | .ActivateLocalSymbols _ => .ActivateLocalSymbols
  | .ActivateTokens _ _ _ _ _ _ => .ActivateTokens
  | .ChangeFileView => .ChangeFileView
  | .GraphNodeBundleSplit => .GraphNodeBundleSplit
  | .GraphNodeExpand => .GraphNodeExpand
  | .GraphNodeMove => .GraphNodeMove
  | .ScrollCode _ => .ScrollCode
  | .ScrollGraph _ _ => .ScrollGraph
  | .SearchFullText _ _ => .SearchFullText
  | .ShowErrors _ => .ShowErrors
  | .ShowReference _ => .ShowReference
  | .ShowScope => .ShowScope

def isReplayed (m : Message) : Bool := m.m_isReplayed

def keepContent (m : Message) : Bool := m.m_keepContent

def setIsReplayed (m : Message) (b : Bool) : Message := { m with m_isReplayed := b }

def setIsLast (m : Message) (b : Bool) : Message := { m with m_isLast := b }

def setIsReplayCleared (m : Message) (b : Bool) : Message := { m with m_isReplayCleared := b }

def setKeepContent (m : Message) (b : Bool) : Message := { m with m_keepContent := b }

end Message

/-- The class `UndoRedoController::Command`. -/
structure Command where
  message : Message
  order : Order
  replayLastOnly : Bool
  deriving DecidableEq, Repr

/-- The members `m_list` and `m_iterator` of the controller. -/
structure UndoRedoController where
  m_list : List Command
  m_iterator : Nat
  deriving DecidableEq, Repr

/-- What a handler sends out: dispatched messages and calls on the view. -/
inductive Effect where
  | dispatch (m : Message)
  | flushUpdates (keepContent : Bool)
  | searchAll
  | setUndoButtonEnabled (b : Bool)
  | setRedoButtonEnabled (b : Bool)
  deriving DecidableEq, Repr

/-- Undefined iterator operations. -/
inductive Fault where
  | beforeBegin
  | pastEnd
  deriving DecidableEq, Repr

/-- The iterator points into the list or at its end. -/
def UndoRedoController.WF (s : UndoRedoController) : Prop :=
  s.m_iterator ≤ s.m_list.length

instance (s : UndoRedoController) : Decidable s.WF := by
  unfold UndoRedoController.WF; infer_instance

/-- The constructor: an empty list, the iterator at its end. -/
def init : UndoRedoController := { m_list := [], m_iterator := 0 }

/-- The access `it->...` for an iterator `it`: dereferencing `end()` is a fault. -/
def deref (l : List Command) (it : Nat) : Except Fault Command :=
  match l[it]? with
  | some c => .ok c
  | none => .error .pastEnd

/-- The calls `std::prev(it)` and `std::advance(it, -1)`: undefined at `begin()`. -/
def prev (it : Nat) : Except Fault Nat :=
  match it with
  | 0 => .error .beforeBegin
  | n + 1 => .ok n

/-- The call `m_list.erase(first, last)`; the returned iterator is `first`. -/
def erase (l : List Command) (first last : Nat) : List Command :=
  l.take first ++ l.drop last

/-- The call `m_list.insert(pos, command)`: the element goes before `pos`. -/
def insert (l : List Command) (pos : Nat) (command : Command) : List Command :=
  l.take pos ++ command :: l.drop pos

/-- The function `clear()`. -/
def clear (_s : UndoRedoController) : UndoRedoController × List Effect :=
  ({ m_list := [], m_iterator := 0 },
    [.setUndoButtonEnabled false, .setRedoButtonEnabled false])

/-- The function `lastMessage()`: the message of `std::prev(m_iterator)`. -/
def lastMessage (s : UndoRedoController) : Option Message :=
  match s.m_iterator with
  | 0 => none
  | n + 1 => (s.m_list[n]?).map Command.message

/-- The function `sameMessageTypeAsLast(message)`. -/
def sameMessageTypeAsLast (s : UndoRedoController) (message : Message) : Bool :=
  if s.m_list.length = 0 ∨ s.m_iterator = 0 then false
  else
    match lastMessage s with
    | some m => decide (m.getType = message.getType)
    | none => false

/-- The loop of lines 412-420 of `processCommand`: starting at `end` (whose
remaining elements are the first argument), stop at the first command with
`ORDER_ACTIVATE` or at the end of the list. -/
def scanToActivate : List Command → Nat → Nat
  | [], e => e
  | c :: rest, e =>
    if c.order = .ORDER_ACTIVATE then e else scanToActivate rest (e + 1)

/-- The function `processCommand(command)`. -/
def processCommand (command : Command) (s : UndoRedoController) :
    UndoRedoController × List Effect :=
  if command.message.isReplayed then (s, [])
  else if command.order ≠ .ORDER_ACTIVATE ∧ s.m_iterator = 0 then (s, [])
  else
    let command : Command :=
      if command.order = .ORDER_ACTIVATE ∧ command.message.keepContent = true then
        { command with order := .ORDER_ADAPT }
      else command
    let erased : List Command × Nat :=
      if command.order = .ORDER_ACTIVATE then
        (erase s.m_list s.m_iterator s.m_list.length, s.m_iterator)
      else if command.order = .ORDER_ADAPT then
        (erase s.m_list s.m_iterator
          (scanToActivate (s.m_list.drop s.m_iterator) s.m_iterator), s.m_iterator)
      else (s.m_list, s.m_iterator)
    let m_list := insert erased.1 erased.2 command
    let m_iterator := erased.2 + 1
    let buttons : List Effect :=
      if command.order ≠ .ORDER_VIEW then
        (if 0 ≠ m_iterator - 1 then [Effect.setUndoButtonEnabled true] else []) ++
        (if m_list.length = m_iterator then [Effect.setRedoButtonEnabled false] else [])
      else []
    ({ m_list := m_list, m_iterator := m_iterator }, buttons)

/-- Writes through `lastMessage()`: apply `f` to the message of the command at
position `it`. -/
def updateMessage (l : List Command) (it : Nat) (f : Message → Message) : List Command :=
  match l[it]? with
  | some c => l.set it { c with message := f c.message }
  | none => l

/-- The overloads `handleMessage(MessageX* message)` of the logged message
classes; the class of `message` selects the overload. -/
def handleMessage (message : Message) (s : UndoRedoController) :
    UndoRedoController × List Effect :=
  match message.payload with
  | .ActivateAll =>
    if sameMessageTypeAsLast s message then (s, [])
    else processCommand { message := message, order := .ORDER_ACTIVATE, replayLastOnly := false } s
  | .ActivateLocalSymbols symbolIds =>
    if sameMessageTypeAsLast s message then
      ({ s with m_list := updateMessage s.m_list (s.m_iterator - 1) (fun m =>
          match m.payload with
          | .ActivateLocalSymbols _ => { m with payload := .ActivateLocalSymbols symbolIds }
          | _ => m) }, [])
    else processCommand { message := message, order := .ORDER_VIEW, replayLastOnly := true } s
  | .ActivateTokens tokenIds _ _ isEdge _ _ =>
    if sameMessageTypeAsLast s message &&
        (match (lastMessage s).map Message.payload with
          | some (.ActivateTokens lastIds _ _ _ _ _) => decide (lastIds = tokenIds)
          | _ => false) then (s, [])
    else processCommand
      { message := message,
        order := if isEdge then .ORDER_ADAPT else .ORDER_ACTIVATE,
        replayLastOnly := false } s
  | .ChangeFileView =>
    processCommand { message := message, order := .ORDER_VIEW, replayLastOnly := false } s
  | .GraphNodeBundleSplit =>
    processCommand { message := message, order := .ORDER_ADAPT, replayLastOnly := false } s
  | .GraphNodeExpand =>
    processCommand { message := message, order := .ORDER_VIEW, replayLastOnly := false } s
  | .GraphNodeMove =>
    processCommand { message := message, order := .ORDER_VIEW, replayLastOnly := false } s
  | .ScrollCode value =>
    if sameMessageTypeAsLast s message then
      ({ s with m_list := updateMessage s.m_list (s.m_iterator - 1) (fun m =>
          match m.payload with
          | .ScrollCode _ => { m with payload := .ScrollCode value }
          | _ => m) }, [])
    else processCommand { message := message, order := .ORDER_VIEW, replayLastOnly := true } s
  | .ScrollGraph xValue yValue =>
    if sameMessageTypeAsLast s message then
      ({ s with m_list := updateMessage s.m_list (s.m_iterator - 1) (fun m =>
          match m.payload with
          | .ScrollGraph _ _ => { m with payload := .ScrollGraph xValue yValue }
          | _ => m) }, [])
    else processCommand { message := message, order := .ORDER_VIEW, replayLastOnly := true } s
  | .SearchFullText searchTerm caseSensitive =>
    if sameMessageTypeAsLast s message &&
        (match (lastMessage s).map Message.payload with
          | some (.SearchFullText lastTerm lastCase) =>
            decide (lastTerm = searchTerm) && decide (lastCase = caseSensitive)
          | _ => false) then (s, [])
    else processCommand { message := message, order := .ORDER_ACTIVATE, replayLastOnly := false } s
  | .ShowErrors errorId =>
    if sameMessageTypeAsLast s message &&
        (match (lastMessage s).map Message.payload with
          | some (.ShowErrors lastId) => decide (lastId = errorId)
          | _ => false) then (s, [])
    else processCommand { message := message, order := .ORDER_ACTIVATE, replayLastOnly := false } s
  | .ShowReference refIndex =>
    if sameMessageTypeAsLast s message &&
        (match (lastMessage s).map Message.payload with
          | some (.ShowReference lastIndex) => decide (lastIndex = refIndex)
          | _ => false) then (s, [])
    else processCommand { message := message, order := .ORDER_VIEW, replayLastOnly := false } s
  | .ShowScope =>
    processCommand { message := message, order := .ORDER_VIEW, replayLastOnly := false } s

/-- The body of the loop of `handleMessage(MessageFinishedParsing*)` for one
command: `none` when the command is not copied to `newList`. -/
def finishedParsingCommand (command : Command) : Option Command :=
  if command.order = .ORDER_ACTIVATE then
    match command.message.payload with
    | .ActivateTokens tokenIds tokenNames searchMatches isEdge isAggregation _ =>
      if isAggregation then none
      else
        some { command with
          message := Message.setIsReplayCleared
            { command.message with
              payload := .ActivateTokens tokenIds tokenNames searchMatches isEdge isAggregation false }
            true }
    | _ => some { command with message := command.message.setIsReplayCleared true }
  else none

/-- The handler `handleMessage(MessageFinishedParsing*)`. -/
def handleMessageFinishedParsing (s : UndoRedoController) : UndoRedoController × List Effect :=
  let newList := s.m_list.filterMap finishedParsingCommand
  ({ m_list := newList, m_iterator := newList.length }, [])

/-- The message of `replayCommand(it)` as it is when `dispatch()` is called.
The argument `resolve` is `m_storageAccess->getNodeIdsForNameHierarchies`. -/
def replayedMessage (resolve : List Nat → List Nat) (m_iterator it : Nat) (m : Message) :
    Message :=
  let m := m.setIsReplayed true
  let m := m.setIsLast (decide (it + 1 = m_iterator))
  match m.payload with
  | .ActivateTokens tokenIds tokenNames searchMatches isEdge isAggregation isFromSearch =>
    if !isEdge && !isAggregation then
      { m with payload :=
          .ActivateTokens (resolve tokenNames) tokenNames [] isEdge isAggregation isFromSearch }
    else
      { m with payload :=
          .ActivateTokens tokenIds tokenNames searchMatches isEdge isAggregation isFromSearch }
  | _ => m

/-- The function `replayCommand(it)`. -/
def replayCommand (resolve : List Nat → List Nat) (it : Nat) (s : UndoRedoController) :
    Except Fault (UndoRedoController × List Effect) := do
  let c ← deref s.m_list it
  let m := replayedMessage resolve s.m_iterator it c.message
  .ok ({ s with m_list := s.m_list.set it { c with message := m.setIsReplayCleared false } },
    [.dispatch m])

/-- The local variables of `replayCommands(it)` together with the controller
and the output written so far. -/
structure ReplayState where
  ctrl : UndoRedoController
  out : List Effect
  viewCommands : List Nat
  keepsContent : Bool
  deriving DecidableEq, Repr

/-- The loop of lines 323-345. The first argument bounds the number of
iterations by the number of elements from `it` to the end of the list: when it
is used up and `it` is still not `m_iterator`, the loop dereferences `end()`. -/
def replayLoop (resolve : List Nat → List Nat) :
    Nat → Nat → ReplayState → Except Fault ReplayState
  | 0, it, st => if it = st.ctrl.m_iterator then .ok st else .error .pastEnd
  | fuel + 1, it, st =>
    if it = st.ctrl.m_iterator then .ok st
    else do
      let c ← deref st.ctrl.m_list it
      if c.order ≠ .ORDER_VIEW ∨ c.replayLastOnly = false then
        let (ctrl, out) ← replayCommand resolve it st.ctrl
        let c ← deref ctrl.m_list it
        let keepsContent := if !c.message.keepContent then false else st.keepsContent
        let viewCommands := if c.order ≠ .ORDER_VIEW then [] else st.viewCommands
        replayLoop resolve fuel (it + 1)
          { ctrl := ctrl, out := st.out ++ out, viewCommands := viewCommands,
            keepsContent := keepsContent }
      else
        replayLoop resolve fuel (it + 1) { st with viewCommands := st.viewCommands ++ [it] }

/-- The loop of lines 350-358 over `viewCommands` from its last element to its
first (the first argument is the part not yet visited, last element first),
with the set `messageTypes` and the vector `lastViewCommands`. -/
def collectLastViewCommands (l : List Command) :
    List Nat → List MessageType → List Nat → Except Fault (List Nat)
  | [], _, lastViewCommands => .ok lastViewCommands
  | it :: rest, messageTypes, lastViewCommands => do
    let c ← deref l it
    if c.message.getType ∈ messageTypes then
      collectLastViewCommands l rest messageTypes lastViewCommands
    else
      collectLastViewCommands l rest (c.message.getType :: messageTypes)
        (lastViewCommands ++ [it])

/-- The loop of lines 360-363: `replayCommand` on each iterator of the argument
in turn. -/
def replayEach (resolve : List Nat → List Nat) :
    List Nat → UndoRedoController × List Effect → Except Fault (UndoRedoController × List Effect)
  | [], acc => .ok acc
  | it :: rest, (ctrl, out) => do
    let (ctrl, out1) ← replayCommand resolve it ctrl
    replayEach resolve rest (ctrl, out ++ out1)

/-- The function `replayCommands(it)`. -/
def replayCommandsFrom (resolve : List Nat → List Nat) (it : Nat) (s : UndoRedoController) :
    Except Fault (UndoRedoController × List Effect) := do
  let st ← replayLoop resolve (s.m_list.length - it) it
    { ctrl := s, out := [], viewCommands := [], keepsContent := true }
  let lastViewCommands ← collectLastViewCommands st.ctrl.m_list st.viewCommands.reverse [] []
  let (ctrl, out) ← replayEach resolve lastViewCommands.reverse (st.ctrl, st.out)
  .ok (ctrl, out ++ [.flushUpdates st.keepsContent])

/-- The `do ... while` loop of lines 309-313 (and of lines 94-98): step back
once, then on until `begin()` or a command with `ORDER_ACTIVATE`. The argument
is the iterator before the first step. -/
def scanBackToActivate (l : List Command) : Nat → Except Fault Nat
  | 0 => .error .beforeBegin
  | n + 1 =>
    if n = 0 then .ok 0
    else do
      let c ← deref l n
      if c.order ≠ .ORDER_ACTIVATE then scanBackToActivate l n else .ok n

/-- The function `replayCommands()`. -/
def replayCommands (resolve : List Nat → List Nat) (s : UndoRedoController) :
    Except Fault (UndoRedoController × List Effect) := do
  let startIterator ← scanBackToActivate s.m_list s.m_iterator
  replayCommandsFrom resolve startIterator s

/-- The handler `handleMessage(MessageDeactivateEdge*)`. -/
def handleMessageDeactivateEdge (s : UndoRedoController) :
    Except Fault (UndoRedoController × List Effect) :=
  if s.m_iterator = 0 then .ok (s, [])
  else do
    let it ← scanBackToActivate s.m_list s.m_iterator
    let c ← deref s.m_list it
    let keepContent := c.message.keepContent
    let m := (c.message.setIsReplayed false).setKeepContent true
    .ok ({ s with m_list := s.m_list.set it { c with message := m.setKeepContent keepContent } },
      [.dispatch m])

/-- The loop of lines 165-168 of `handleMessage(MessageRedo*)`: the first
argument holds the elements from `m_iterator` to the end of the list. -/
def skipViewForward : List Command → Nat → Nat
  | [], it => it
  | c :: rest, it => if c.order = .ORDER_VIEW then skipViewForward rest (it + 1) else it

/-- The handler `handleMessage(MessageRedo*)`. -/
def handleMessageRedo (resolve : List Nat → List Nat) (s : UndoRedoController) :
    Except Fault (UndoRedoController × List Effect) :=
  if s.m_iterator = s.m_list.length then .ok (s, [])
  else do
    let oldIterator := s.m_iterator
    let m_iterator := skipViewForward (s.m_list.drop (s.m_iterator + 1)) (s.m_iterator + 1)
    let buttons : List Effect :=
      [Effect.setUndoButtonEnabled true] ++
      (if m_iterator = s.m_list.length then [Effect.setRedoButtonEnabled false] else [])
    let (ctrl, out) ← replayCommandsFrom resolve oldIterator { s with m_iterator := m_iterator }
    .ok (ctrl, buttons ++ out)

/-- The handler `handleMessage(MessageRefresh*)`. -/
def handleMessageRefresh (resolve : List Nat → List Nat) (uiOnly : Bool)
    (s : UndoRedoController) : Except Fault (UndoRedoController × List Effect) :=
  if !uiOnly then .ok (s, [])
  else if s.m_iterator = 0 then .ok (s, [.searchAll])
  else replayCommands resolve s

/-- The loop of lines 274-279 of `handleMessage(MessageUndo*)` followed by the
final step back: the argument is `it`, the result is `it` after line 279. -/
def undoTarget (l : List Command) : Nat → Except Fault Nat
  | 0 => .error .beforeBegin
  | n + 1 => do
    let c ← deref l n
    if c.order = .ORDER_VIEW then undoTarget l n else .ok n

/-- The loop of lines 283-286: the argument is `it2`. -/
def undoSkipView (l : List Command) : Nat → Except Fault Nat
  | 0 => do
    let c ← deref l 0
    if c.order = .ORDER_VIEW then .error .beforeBegin else .ok 0
  | n + 1 => do
    let c ← deref l (n + 1)
    if c.order = .ORDER_VIEW then undoSkipView l n else .ok (n + 1)

/-- The handler `handleMessage(MessageUndo*)`. -/
def handleMessageUndo (resolve : List Nat → List Nat) (s : UndoRedoController) :
    Except Fault (UndoRedoController × List Effect) :=
  if s.m_list.length = 0 then .ok (s, [])
  else do
    let it ← undoTarget s.m_list s.m_iterator
    let it2 ← prev it
    let it2 ← undoSkipView s.m_list it2
    let undoButton : List Effect :=
      if it2 = 0 then [Effect.setUndoButtonEnabled false] else []
    if it = 0 then .ok (s, undoButton)
    else do
      let (ctrl, out) ← replayCommands resolve { s with m_iterator := it }
      .ok (ctrl, undoButton ++ [Effect.setRedoButtonEnabled true] ++ out)

/-! ## Vocabulary of the statements -/

/-- The members that replaying a command never writes: a message with the
replay flags reset and, for a token activation that is neither an edge nor an
aggregation, the re-resolved members emptied. -/
def Message.eraseReplay (m : Message) : Message :=
  { payload :=
      match m.payload with
      | .ActivateTokens tokenIds tokenNames searchMatches isEdge isAggregation isFromSearch =>
        if !isEdge && !isAggregation then
          .ActivateTokens [] tokenNames [] isEdge isAggregation isFromSearch
        else .ActivateTokens tokenIds tokenNames searchMatches isEdge isAggregation isFromSearch
      | p => p
    m_isReplayed := false
    m_isLast := false
    m_isReplayCleared := false
    m_keepContent := m.m_keepContent }

/-- A command up to what replaying writes into its message. -/
def Command.eraseReplay (c : Command) : Command :=
  { c with message := c.message.eraseReplay }

/-- Both lists hold the same commands in the same order, up to what replaying
writes into their messages. -/
def sameCommands (l l' : List Command) : Prop :=
  l.map Command.eraseReplay = l'.map Command.eraseReplay

instance (l l' : List Command) : Decidable (sameCommands l l') := by
  unfold sameCommands; infer_instance

/-- The order of the command at position `k`, if there is one. -/
def orderAt (l : List Command) (k : Nat) : Option Order :=
  (l[k]?).map Command.order

/-- The test of line 325: the command is replayed at once in the main pass. -/
def Command.immediate (c : Command) : Prop :=
  c.order ≠ .ORDER_VIEW ∨ c.replayLastOnly = false

instance (c : Command) : Decidable c.immediate := by
  unfold Command.immediate; infer_instance

/-- The command as `replayCommand` leaves it in the list. -/
def Command.mark (resolve : List Nat → List Nat) (cursor k : Nat) (c : Command) : Command :=
  { c with message := (replayedMessage resolve cursor k c.message).setIsReplayCleared false }

/-- The message that replaying position `k` dispatches. -/
def replayedAt (resolve : List Nat → List Nat) (cursor : Nat) (l : List Command) (k : Nat) :
    Option Effect :=
  (l[k]?).map (fun c => Effect.dispatch (replayedMessage resolve cursor k c.message))

/-- The message that the main pass dispatches at position `k`, if any. -/
def immediateAt (resolve : List Nat → List Nat) (cursor : Nat) (l : List Command) (k : Nat) :
    Option Effect :=
  (l[k]?).bind (fun c =>
    if c.immediate then some (Effect.dispatch (replayedMessage resolve cursor k c.message))
    else none)

/-- What the main loop of `replayCommands(it)` has done when it is left, in
terms of the state `st` at its start: `st'` is the state at its end. -/
structure ReplayLoopPost (resolve : List Nat → List Nat) (it : Nat) (st st' : ReplayState) :
    Prop where
  cursor_eq : st'.ctrl.m_iterator = st.ctrl.m_iterator
  length_eq : st'.ctrl.m_list.length = st.ctrl.m_list.length
  list_eq : ∀ k c, st.ctrl.m_list[k]? = some c →
    st'.ctrl.m_list[k]? =
      some (if it ≤ k ∧ k < st.ctrl.m_iterator ∧ c.immediate
        then c.mark resolve st.ctrl.m_iterator k else c)
  out_eq : st'.out = st.out ++
    (List.range' it (st.ctrl.m_iterator - it)).filterMap
      (immediateAt resolve st.ctrl.m_iterator st.ctrl.m_list)
  keeps_iff : st'.keepsContent = true ↔
    (st.keepsContent = true ∧
      ∀ k c, it ≤ k → k < st.ctrl.m_iterator → st.ctrl.m_list[k]? = some c →
        c.immediate → c.message.keepContent = true)
  view_iff : ∀ k, k ∈ st'.viewCommands ↔
    ((k ∈ st.viewCommands ∧
        ∀ j c, it ≤ j → j < st.ctrl.m_iterator → st.ctrl.m_list[j]? = some c →
          c.order = .ORDER_VIEW) ∨
      (it ≤ k ∧ k < st.ctrl.m_iterator ∧
        (∃ c, st.ctrl.m_list[k]? = some c ∧ ¬ c.immediate) ∧
        ∀ j c, k < j → j < st.ctrl.m_iterator → st.ctrl.m_list[j]? = some c →
          c.order = .ORDER_VIEW))
  view_sorted : st.viewCommands.Pairwise (fun a b => a < b) →
    (∀ k ∈ st.viewCommands, k < it) → st'.viewCommands.Pairwise (fun a b => a < b)

/-- The message type of the command at position `k`, if there is one. -/
def typeAt (l : List Command) (k : Nat) : Option MessageType :=
  (l[k]?).map (fun c => c.message.getType)

/-- The state in which `replayCommands(it)` enters its main loop. -/
def replayStart (s : UndoRedoController) : ReplayState :=
  { ctrl := s, out := [], viewCommands := [], keepsContent := true }

/-- The command at position `k` exists and is replayed at once in the main
pass. -/
def isImmediateAt (l : List Command) (k : Nat) : Bool :=
  match l[k]? with
  | some c => decide c.immediate
  | none => false

/-- The message is a token activation with `isAggregation` set. -/
def Message.isAggregationTokens (m : Message) : Bool :=
  match m.payload with
  | .ActivateTokens _ _ _ _ isAggregation _ => isAggregation
  | _ => false

/-- The message with `isFromSearch` reset if it is a token activation. -/
def Message.clearFromSearch (m : Message) : Message :=
  match m.payload with
  | .ActivateTokens tokenIds tokenNames searchMatches isEdge isAggregation _ =>
    { m with payload :=
        .ActivateTokens tokenIds tokenNames searchMatches isEdge isAggregation false }
  | _ => m

/-- The command has `ORDER_ACTIVATE` and is not an aggregation token
activation. -/
def survivesParsing (c : Command) : Bool :=
  decide (c.order = .ORDER_ACTIVATE) && !c.message.isAggregationTokens

/-- The inbound events of the controller: a message of one of the logged
classes, the five other messages it handles, and the call of `clear()`. -/
inductive Event where
  | message (m : Message)
  | deactivateEdge
  | finishedParsing
  | redo
  | refresh (uiOnly : Bool)
  | undo
  | clear
  deriving DecidableEq, Repr

/-- The handler that an event reaches. -/
def handle (resolve : List Nat → List Nat) (e : Event) (s : UndoRedoController) :
    Except Fault (UndoRedoController × List Effect) :=
  match e with
  | .message m => .ok (handleMessage m s)
  | .deactivateEdge => handleMessageDeactivateEdge s
  | .finishedParsing => .ok (handleMessageFinishedParsing s)
  | .redo => handleMessageRedo resolve s
  | .refresh uiOnly => handleMessageRefresh resolve uiOnly s
  | .undo => handleMessageUndo resolve s
  | .clear => .ok (clear s)

/-- The events handled one after the other, each fully before the next. -/
def run (resolve : List Nat → List Nat) :
    List Event → UndoRedoController → Except Fault UndoRedoController
  | [], s => .ok s
  | e :: rest, s => do
    let (s', _) ← handle resolve e s
    run resolve rest s'

/-- The state is reached from the empty log by handling events. -/
def Reachable (resolve : List Nat → List Nat) (s : UndoRedoController) : Prop :=
  ∃ events, run resolve events init = .ok s

/-- The message is of a class whose handler makes a command with
`ORDER_ACTIVATE`: activate all, a token activation that is not an edge, a full
text search, show errors. -/
def isActivateEvent (m : Message) : Bool :=
  match m.payload with
  | .ActivateAll => true
  | .ActivateTokens _ _ _ isEdge _ _ => !isEdge
  | .SearchFullText _ _ => true
  | .ShowErrors _ => true
  | _ => false

/-- The message is of a class whose handler makes a command with `ORDER_VIEW`
or `ORDER_ADAPT`. -/
def isViewOrAdaptEvent (m : Message) : Bool :=
  match m.payload with
  | .ActivateAll => false
  | .ActivateTokens _ _ _ isEdge _ _ => isEdge
  | .SearchFullText _ _ => false
  | .ShowErrors _ => false
  | _ => true

/-- The message `cur` repeats the message `last`: the same class and, for a
token activation, the same token ids, for a full text search the same term and
case flag, for show errors the same error id. -/
def repeatsMessage (last cur : Message) : Bool :=
  match last.payload, cur.payload with
  | .ActivateAll, .ActivateAll => true
  | .ActivateTokens lastIds _ _ _ _ _, .ActivateTokens tokenIds _ _ _ _ _ =>
    decide (lastIds = tokenIds)
  | .SearchFullText lastTerm lastCase, .SearchFullText searchTerm caseSensitive =>
    decide (lastTerm = searchTerm) && decide (lastCase = caseSensitive)
  | .ShowErrors lastId, .ShowErrors errorId => decide (lastId = errorId)
  | _, _ => false

/-- The messages handled one after the other from a state. -/
def handleMessages (events : List Message) (s : UndoRedoController) : UndoRedoController :=
  events.foldl (fun s m => (handleMessage m s).1) s

/-- The cursor is in the list or at its end, the first command is not a view
command, and the cursor is not at the start of a list that has commands. -/
def Invariant (s : UndoRedoController) : Prop :=
  s.WF ∧ orderAt s.m_list 0 ≠ some .ORDER_VIEW ∧ (s.m_list ≠ [] → 0 < s.m_iterator)

/-- The cursor is not directly before a view command: the command at the
cursor, if there is one, has another order. -/
def CursorInvariant (s : UndoRedoController) : Prop :=
  orderAt s.m_list s.m_iterator ≠ some .ORDER_VIEW

/-- Lines 282-287 of `handleMessage(MessageUndo*)` as the compiled code runs
them: the scan from `std::prev(it)` and the comparison `it2 == m_list.begin()`.
A scan that leaves the list at its start is let run here: it is taken to end,
and `strayAtBegin` is what the comparison yields after it. -/
def undoScanAtBegin (strayAtBegin : Bool) (l : List Command) (it : Nat) : Except Fault Bool :=
  match prev it >>= undoSkipView l with
  | .ok it2 => .ok (decide (it2 = 0))
  | .error .beforeBegin => .ok strayAtBegin
  | .error f => .error f

/-- The handler `handleMessage(MessageUndo*)` with the reads of lines 282-286
before `begin()` let through (`undoScanAtBegin`) instead of reported as a
fault. With the scan inside the list this is `handleMessageUndo`. -/
def handleMessageUndoStray (strayAtBegin : Bool) (resolve : List Nat → List Nat)
    (s : UndoRedoController) : Except Fault (UndoRedoController × List Effect) :=
  if s.m_list.length = 0 then .ok (s, [])
  else do
    let it ← undoTarget s.m_list s.m_iterator
    let atBegin ← undoScanAtBegin strayAtBegin s.m_list it
    let undoButton : List Effect :=
      if atBegin then [Effect.setUndoButtonEnabled false] else []
    if it = 0 then .ok (s, undoButton)
    else do
      let (ctrl, out) ← replayCommands resolve { s with m_iterator := it }
      .ok (ctrl, undoButton ++ [Effect.setRedoButtonEnabled true] ++ out)

/-! ## Sample commands -/

/-- A message as an event handler receives it: no replay flag set. -/
def sampleMessage (payload : Payload) (keepContent : Bool) : Message :=
  { payload := payload, m_isReplayed := false, m_isLast := false, m_isReplayCleared := false,
    m_keepContent := keepContent }

/-- An activate command that does not keep content. -/
def sampleActivate (errorId : Nat) : Command :=
  { message := sampleMessage (.ShowErrors errorId) false, order := .ORDER_ACTIVATE,
    replayLastOnly := false }

/-- An adapt command that keeps content. -/
def sampleAdapt : Command :=
  { message := sampleMessage .GraphNodeBundleSplit true, order := .ORDER_ADAPT,
    replayLastOnly := false }

/-- A scroll command: a view command with `replayLastOnly`. -/
def sampleScroll (value : Int) : Command :=
  { message := sampleMessage (.ScrollCode value) false, order := .ORDER_VIEW,
    replayLastOnly := true }

/-- A name resolution that returns the names as ids. -/
def sampleResolve : List Nat → List Nat := fun tokenNames => tokenNames

/-! ## Appending a command -/

theorem scanToActivate_eq (t : List Command) (e : Nat) :
    scanToActivate t e =
      e + (t.takeWhile (fun c => decide (c.order ≠ .ORDER_ACTIVATE))).length := by
  induction t generalizing e with
  | nil => simp [scanToActivate]
  | cons c rest ih =>
    by_cases h : c.order = .ORDER_ACTIVATE
    · simp [scanToActivate, h, List.takeWhile]
    · simp [scanToActivate, h, List.takeWhile, ih]
      omega

theorem drop_takeWhile_length (p : Command → Bool) (t : List Command) :
    t.drop (t.takeWhile p).length = t.dropWhile p := by
  induction t with
  | nil => simp
  | cons c rest ih =>
    by_cases h : p c
    · simp [List.takeWhile, List.dropWhile, h, ih]
    · simp [List.takeWhile, List.dropWhile, h]

theorem drop_scanToActivate (l : List Command) (it : Nat) :
    l.drop (scanToActivate (l.drop it) it) =
      (l.drop it).dropWhile (fun c => decide (c.order ≠ .ORDER_ACTIVATE)) := by
  rw [scanToActivate_eq, ← drop_takeWhile_length, List.drop_drop]

theorem erase_to_end (l : List Command) (it : Nat) :
    erase l it l.length = l.take it := by
  simp [erase]

theorem insert_erase (l : List Command) (it last : Nat) (c : Command) (h : it ≤ l.length) :
    insert (erase l it last) it c = l.take it ++ c :: l.drop last := by
  have hlen : (l.take it).length = it := by simp [h]
  simp only [insert, erase]
  rw [List.take_append_eq_append_take, List.drop_append_eq_append_drop]
  simp [hlen, List.take_take, List.drop_take]

/-- C1: a command that is not replayed, comes with `ORDER_ACTIVATE` and does not
keep content replaces everything right of the cursor: afterwards the list is
the commands left of the cursor followed by the new command, and the cursor is
at the end of the list. -/
theorem processCommand_activate (command : Command) (s : UndoRedoController)
    (hwf : s.WF)
    (hrep : command.message.isReplayed = false)
    (hord : command.order = .ORDER_ACTIVATE)
    (hkeep : command.message.keepContent = false) :
    (processCommand command s).1.m_list = s.m_list.take s.m_iterator ++ [command] ∧
    (processCommand command s).1.m_iterator = s.m_iterator + 1 ∧
    (processCommand command s).1.m_iterator = (processCommand command s).1.m_list.length := by
  unfold UndoRedoController.WF at hwf
  simp [processCommand, hrep, hord, hkeep, insert_erase _ _ _ _ hwf]
  omega

/-- C1 on a list of three commands with the cursor after the first: the two
commands right of the cursor go, the new command comes last. -/
theorem processCommand_activate_witness :
    (processCommand
        { message := ⟨.ShowErrors 2, false, false, false, false⟩,
          order := .ORDER_ACTIVATE, replayLastOnly := false }
        { m_list :=
            [ { message := ⟨.ActivateAll, false, false, false, false⟩,
                order := .ORDER_ACTIVATE, replayLastOnly := false },
              { message := ⟨.ScrollCode 4, false, false, false, false⟩,
                order := .ORDER_VIEW, replayLastOnly := true },
              { message := ⟨.ShowErrors 1, false, false, false, false⟩,
                order := .ORDER_ACTIVATE, replayLastOnly := false } ],
          m_iterator := 1 }).1.m_list =
      [ { message := ⟨.ActivateAll, false, false, false, false⟩,
          order := .ORDER_ACTIVATE, replayLastOnly := false },
        { message := ⟨.ShowErrors 2, false, false, false, false⟩,
          order := .ORDER_ACTIVATE, replayLastOnly := false } ] :=
  (processCommand_activate
    { message := ⟨.ShowErrors 2, false, false, false, false⟩,
      order := .ORDER_ACTIVATE, replayLastOnly := false }
    { m_list :=
        [ { message := ⟨.ActivateAll, false, false, false, false⟩,
            order := .ORDER_ACTIVATE, replayLastOnly := false },
          { message := ⟨.ScrollCode 4, false, false, false, false⟩,
            order := .ORDER_VIEW, replayLastOnly := true },
          { message := ⟨.ShowErrors 1, false, false, false, false⟩,
            order := .ORDER_ACTIVATE, replayLastOnly := false } ],
      m_iterator := 1 }
    (by decide) rfl rfl rfl).1

/-- C2: a command that is not replayed and whose final order is `ORDER_ADAPT`
(it comes with `ORDER_ADAPT` while the cursor is not at the start, or it
comes with `ORDER_ACTIVATE` and keeps content) is put at the cursor with
`ORDER_ADAPT`; of the commands right of the cursor those from the first one with
`ORDER_ACTIVATE` on stay, the ones before it go; the cursor is just after the new
command. -/
theorem processCommand_adapt (command : Command) (s : UndoRedoController)
    (hwf : s.WF)
    (hrep : command.message.isReplayed = false)
    (hord : (command.order = .ORDER_ADAPT ∧ s.m_iterator ≠ 0) ∨
      (command.order = .ORDER_ACTIVATE ∧ command.message.keepContent = true)) :
    (processCommand command s).1.m_list =
      s.m_list.take s.m_iterator ++ [{ command with order := .ORDER_ADAPT }] ++
        (s.m_list.drop s.m_iterator).dropWhile (fun c => decide (c.order ≠ .ORDER_ACTIVATE)) ∧
    (processCommand command s).1.m_iterator = s.m_iterator + 1 := by
  unfold UndoRedoController.WF at hwf
  obtain ⟨message, order, replayLastOnly⟩ := command
  rcases hord with ⟨h1, h2⟩ | ⟨h1, h2⟩
  · simp only at h1
    subst h1
    simp [processCommand, hrep, h2, insert_erase _ _ _ _ hwf, drop_scanToActivate]
  · simp only at h1 h2
    subst h1
    simp only at hrep
    simp [processCommand, hrep, h2, insert_erase _ _ _ _ hwf, drop_scanToActivate]

/-- C2 on a list of four commands with the cursor after the first: the scroll
command right of the cursor goes, the activate command after it stays. -/
theorem processCommand_adapt_witness :
    (processCommand sampleAdapt
        { m_list := [sampleActivate 1, sampleScroll 1, sampleActivate 2, sampleScroll 2],
          m_iterator := 1 }).1.m_list =
      [sampleActivate 1, sampleAdapt, sampleActivate 2, sampleScroll 2] :=
  (processCommand_adapt sampleAdapt
    { m_list := [sampleActivate 1, sampleScroll 1, sampleActivate 2, sampleScroll 2],
      m_iterator := 1 } (by decide) rfl (Or.inl ⟨rfl, by decide⟩)).1.trans rfl

/-! ## The replay pass -/

/-- The function `replayCommand(it)` on a valid iterator: it writes the command
at `it` and dispatches its message. -/
theorem replayCommand_eq (resolve : List Nat → List Nat) (it : Nat) (s : UndoRedoController)
    (c : Command) (h : s.m_list[it]? = some c) :
    replayCommand resolve it s =
      .ok ({ m_list := s.m_list.set it (c.mark resolve s.m_iterator it), m_iterator := s.m_iterator },
        [Effect.dispatch (replayedMessage resolve s.m_iterator it c.message)]) := by
  simp [replayCommand, deref, h, Command.mark, bind, Except.bind]

/-- Replaying leaves the keep-content flag as it is. -/
theorem replayedMessage_keepContent (resolve : List Nat → List Nat) (cursor k : Nat) (m : Message) :
    (replayedMessage resolve cursor k m).keepContent = m.keepContent := by
  obtain ⟨p, a, b, c, d⟩ := m
  cases p <;> simp only [replayedMessage, Message.setIsReplayed, Message.setIsLast,
    Message.keepContent] <;> (try split_ifs) <;> rfl

/-- Replaying leaves the type of the message as it is. -/
theorem replayedMessage_getType (resolve : List Nat → List Nat) (cursor k : Nat) (m : Message) :
    (replayedMessage resolve cursor k m).getType = m.getType := by
  obtain ⟨p, a, b, c, d⟩ := m
  cases p <;> simp only [replayedMessage, Message.setIsReplayed, Message.setIsLast] <;>
    (try split_ifs) <;> rfl

/-- Replaying writes only the members that `Message.eraseReplay` resets. -/
theorem replayedMessage_eraseReplay (resolve : List Nat → List Nat) (cursor k : Nat) (m : Message) :
    ((replayedMessage resolve cursor k m).setIsReplayCleared false).eraseReplay = m.eraseReplay := by
  obtain ⟨p, a, b, c, d⟩ := m
  cases p <;> simp only [replayedMessage, Message.setIsReplayed, Message.setIsLast,
    Message.eraseReplay, Message.setIsReplayCleared] <;> (try split_ifs) <;> simp_all

theorem Command.mark_eraseReplay (resolve : List Nat → List Nat) (cursor k : Nat) (c : Command) :
    (c.mark resolve cursor k).eraseReplay = c.eraseReplay := by
  simp [Command.mark, Command.eraseReplay, replayedMessage_eraseReplay]

theorem Command.mark_order (resolve : List Nat → List Nat) (cursor k : Nat) (c : Command) :
    (c.mark resolve cursor k).order = c.order := rfl

theorem Command.mark_keepContent (resolve : List Nat → List Nat) (cursor k : Nat) (c : Command) :
    (c.mark resolve cursor k).message.keepContent = c.message.keepContent := by
  simp only [Command.mark]
  exact replayedMessage_keepContent resolve cursor k c.message

theorem Command.mark_getType (resolve : List Nat → List Nat) (cursor k : Nat) (c : Command) :
    (c.mark resolve cursor k).message.getType = c.message.getType := by
  simp only [Command.mark]
  exact replayedMessage_getType resolve cursor k c.message

/-- One round of the main loop on a command that is replayed at once. -/
theorem replayLoop_immediate (resolve : List Nat → List Nat) (fuel it : Nat) (st : ReplayState)
    (c : Command) (hit : it ≠ st.ctrl.m_iterator) (hc : st.ctrl.m_list[it]? = some c)
    (himm : c.immediate) :
    replayLoop resolve (fuel + 1) it st =
      replayLoop resolve fuel (it + 1)
        { ctrl :=
            { m_list := st.ctrl.m_list.set it (c.mark resolve st.ctrl.m_iterator it),
              m_iterator := st.ctrl.m_iterator },
          out := st.out ++ [Effect.dispatch (replayedMessage resolve st.ctrl.m_iterator it c.message)],
          viewCommands := if c.order ≠ .ORDER_VIEW then [] else st.viewCommands,
          keepsContent := if !c.message.keepContent then false else st.keepsContent } := by
  have hlt : it < st.ctrl.m_list.length := by
    rcases List.getElem?_eq_some.1 hc with ⟨h, _⟩
    exact h
  have himm2 : c.order ≠ .ORDER_VIEW ∨ c.replayLastOnly = false := himm
  rw [replayLoop]
  simp only [hit, if_false, deref, hc, bind, Except.bind, himm2, if_true,
    replayCommand_eq resolve it st.ctrl c hc, List.getElem?_set_self hlt]
  simp only [Command.mark_order, Command.mark_keepContent]

/-- One round of the main loop on a command that is buffered. -/
theorem replayLoop_buffer (resolve : List Nat → List Nat) (fuel it : Nat) (st : ReplayState)
    (c : Command) (hit : it ≠ st.ctrl.m_iterator) (hc : st.ctrl.m_list[it]? = some c)
    (himm : ¬ c.immediate) :
    replayLoop resolve (fuel + 1) it st =
      replayLoop resolve fuel (it + 1) { st with viewCommands := st.viewCommands ++ [it] } := by
  have himm2 : ¬ (c.order ≠ .ORDER_VIEW ∨ c.replayLastOnly = false) := himm
  rw [replayLoop]
  simp only [hit, if_false, deref, hc, bind, Except.bind, himm2]

theorem ReplayLoopPost.done (resolve : List Nat → List Nat) (it : Nat) (st : ReplayState)
    (h : it = st.ctrl.m_iterator) : ReplayLoopPost resolve it st st := by
  subst h
  refine ⟨rfl, rfl, ?_, ?_, ?_, ?_, ?_⟩
  · intro k c hk
    have : ¬ (st.ctrl.m_iterator ≤ k ∧ k < st.ctrl.m_iterator ∧ c.immediate) := by omega
    simp [hk, this]
  · simp
  · constructor
    · intro h
      exact ⟨h, fun k c h1 h2 => by omega⟩
    · intro h
      exact h.1
  · intro k
    constructor
    · intro h
      exact Or.inl ⟨h, fun j c h1 h2 => by omega⟩
    · rintro (h | h)
      · exact h.1
      · omega
  · intro h _
    exact h

theorem ReplayLoopPost.step_immediate (resolve : List Nat → List Nat) (it : Nat)
    (st st' : ReplayState) (c : Command)
    (hlt : it < st.ctrl.m_iterator) (hc : st.ctrl.m_list[it]? = some c) (himm : c.immediate)
    (P : ReplayLoopPost resolve (it + 1)
      { ctrl :=
          { m_list := st.ctrl.m_list.set it (c.mark resolve st.ctrl.m_iterator it),
            m_iterator := st.ctrl.m_iterator },
        out := st.out ++ [Effect.dispatch (replayedMessage resolve st.ctrl.m_iterator it c.message)],
        viewCommands := if c.order ≠ .ORDER_VIEW then [] else st.viewCommands,
        keepsContent := if !c.message.keepContent then false else st.keepsContent } st') :
    ReplayLoopPost resolve it st st' := by
  have hlen : it < st.ctrl.m_list.length := (List.getElem?_eq_some.1 hc).1
  have hne : ∀ k, k ≠ it →
      (st.ctrl.m_list.set it (c.mark resolve st.ctrl.m_iterator it))[k]? = st.ctrl.m_list[k]? := by
    intro k hk
    exact List.getElem?_set_ne (Ne.symm hk)
  refine ⟨P.cursor_eq, ?_, ?_, ?_, ?_, ?_, ?_⟩
  · have := P.length_eq
    simpa using this
  · intro k c0 hk
    by_cases hki : k = it
    · subst hki
      have hcc : c0 = c := by rw [hc] at hk; exact (Option.some.inj hk).symm
      subst hcc
      have h1 := P.list_eq k (c0.mark resolve st.ctrl.m_iterator k) (List.getElem?_set_self hlen)
      have h2 : ¬ (k + 1 ≤ k ∧ k < st.ctrl.m_iterator ∧
          (c0.mark resolve st.ctrl.m_iterator k).immediate) := by omega
      simp only [h2, if_false] at h1
      have h3 : k ≤ k ∧ k < st.ctrl.m_iterator ∧ c0.immediate := ⟨le_refl _, hlt, himm⟩
      simp only [h3, and_self, if_true]
      exact h1
    · have h1 := P.list_eq k c0 (by rw [hne k hki]; exact hk)
      have h2 : (it + 1 ≤ k ∧ k < st.ctrl.m_iterator ∧ c0.immediate) ↔
          (it ≤ k ∧ k < st.ctrl.m_iterator ∧ c0.immediate) := by
        constructor
        · rintro ⟨a, b, d⟩; exact ⟨by omega, b, d⟩
        · rintro ⟨a, b, d⟩; exact ⟨by omega, b, d⟩
      simp only [h2] at h1
      exact h1
  · have h1 := P.out_eq
    have h2 : st.ctrl.m_iterator - it = (st.ctrl.m_iterator - (it + 1)) + 1 := by omega
    rw [h2, List.range'_succ, List.filterMap_cons]
    have h3 : immediateAt resolve st.ctrl.m_iterator st.ctrl.m_list it =
        some (Effect.dispatch (replayedMessage resolve st.ctrl.m_iterator it c.message)) := by
      simp [immediateAt, hc, himm]
    rw [h3]
    simp only at h1
    rw [h1, List.append_assoc]
    congr 1
    simp only [List.singleton_append]
    congr 1
    apply List.filterMap_congr
    intro k hk
    have hk2 : k ≠ it := by
      have := List.mem_range'_1.1 hk
      omega
    simp only [immediateAt, hne k hk2]
  · rw [P.keeps_iff]
    simp only
    constructor
    · rintro ⟨h1, h2⟩
      have hk : c.message.keepContent = true := by
        by_contra hcon
        simp [hcon] at h1
      refine ⟨by simpa [hk] using h1, ?_⟩
      intro k c0 hk1 hk2 hk3 hk4
      by_cases hki : k = it
      · subst hki
        have hcc : c0 = c := by rw [hc] at hk3; exact (Option.some.inj hk3).symm
        rw [hcc]; exact hk
      · exact h2 k c0 (by omega) hk2 (by rw [hne k hki]; exact hk3) hk4
    · rintro ⟨h1, h2⟩
      have hk : c.message.keepContent = true := h2 it c (le_refl _) hlt hc himm
      refine ⟨by simpa [hk] using h1, ?_⟩
      intro k c0 hk1 hk2 hk3 hk4
      have hki : k ≠ it := by omega
      exact h2 k c0 (by omega) hk2 (by rw [← hne k hki]; exact hk3) hk4
  · intro k
    rw [P.view_iff]
    simp only
    have hfa : ∀ (a : Nat), it ≤ a →
        ((∀ j c0, a < j → j < st.ctrl.m_iterator →
          (st.ctrl.m_list.set it (c.mark resolve st.ctrl.m_iterator it))[j]? = some c0 →
            c0.order = .ORDER_VIEW) ↔
        (∀ j c0, a < j → j < st.ctrl.m_iterator → st.ctrl.m_list[j]? = some c0 →
            c0.order = .ORDER_VIEW)) := by
      intro a ha
      constructor
      · intro h j c0 h1 h2 h3
        exact h j c0 h1 h2 (by rw [hne j (by omega)]; exact h3)
      · intro h j c0 h1 h2 h3
        exact h j c0 h1 h2 (by rw [← hne j (by omega)]; exact h3)
    have hfa2 := hfa it (le_refl _)
    simp only [Nat.succ_le_iff] at *
    rw [hfa2]
    constructor
    · rintro (⟨h1, h2⟩ | ⟨h1, h2, ⟨c0, h3, h4⟩, h5⟩)
      · left
        by_cases ho : c.order = .ORDER_VIEW
        · simp only [ho, ne_eq, not_true_eq_false, if_false] at h1
          refine ⟨h1, ?_⟩
          intro j c0 hj1 hj2 hj3
          by_cases hji : j = it
          · subst hji
            have hcc : c0 = c := by rw [hc] at hj3; exact (Option.some.inj hj3).symm
            rw [hcc]; exact ho
          · exact h2 j c0 (by omega) hj2 hj3
        · simp [ho] at h1
      · right
        have hki : k ≠ it := by omega
        refine ⟨by omega, h2, ⟨c0, by rw [← hne k hki]; exact h3, h4⟩, ?_⟩
        exact (hfa k (by omega)).1 h5
    · rintro (⟨h1, h2⟩ | ⟨h1, h2, ⟨c0, h3, h4⟩, h5⟩)
      · left
        have ho : c.order = .ORDER_VIEW := h2 it c (le_refl _) hlt hc
        refine ⟨by simpa [ho] using h1, ?_⟩
        intro j c0 hj1 hj2 hj3
        exact h2 j c0 (by omega) hj2 hj3
      · right
        have hki : k ≠ it := by
          intro hki
          subst hki
          have hcc : c0 = c := by rw [hc] at h3; exact (Option.some.inj h3).symm
          rw [hcc] at h4
          exact h4 himm
        refine ⟨by omega, h2, ⟨c0, by rw [hne k hki]; exact h3, h4⟩, ?_⟩
        exact (hfa k (by omega)).2 h5
  · intro h1 h2
    apply P.view_sorted
    · simp only
      split_ifs
      · exact List.Pairwise.nil
      · exact h1
    · simp only
      intro k hk
      split_ifs at hk
      · simp at hk
      · have := h2 k hk
        omega

theorem ReplayLoopPost.step_buffer (resolve : List Nat → List Nat) (it : Nat)
    (st st' : ReplayState) (c : Command)
    (hlt : it < st.ctrl.m_iterator) (hc : st.ctrl.m_list[it]? = some c) (himm : ¬ c.immediate)
    (P : ReplayLoopPost resolve (it + 1) { st with viewCommands := st.viewCommands ++ [it] } st') :
    ReplayLoopPost resolve it st st' := by
  have hview : c.order = .ORDER_VIEW := by
    by_contra h
    exact himm (Or.inl h)
  refine ⟨P.cursor_eq, P.length_eq, ?_, ?_, ?_, ?_, ?_⟩
  · intro k c0 hk
    have h1 := P.list_eq k c0 hk
    by_cases hki : k = it
    · subst hki
      have hcc : c0 = c := by rw [hc] at hk; exact (Option.some.inj hk).symm
      subst hcc
      have h2 : ¬ (k + 1 ≤ k ∧ k < st.ctrl.m_iterator ∧ c0.immediate) := by omega
      have h3 : ¬ (k ≤ k ∧ k < st.ctrl.m_iterator ∧ c0.immediate) := fun h => himm h.2.2
      simp only [h2, if_false] at h1
      simp only [h3, if_false]
      exact h1
    · have h2 : (it + 1 ≤ k ∧ k < st.ctrl.m_iterator ∧ c0.immediate) ↔
          (it ≤ k ∧ k < st.ctrl.m_iterator ∧ c0.immediate) := by
        constructor
        · rintro ⟨a, b, d⟩; exact ⟨by omega, b, d⟩
        · rintro ⟨a, b, d⟩; exact ⟨by omega, b, d⟩
      simp only [h2] at h1
      exact h1
  · have h1 := P.out_eq
    have h2 : st.ctrl.m_iterator - it = (st.ctrl.m_iterator - (it + 1)) + 1 := by omega
    rw [h2, List.range'_succ, List.filterMap_cons]
    have h3 : immediateAt resolve st.ctrl.m_iterator st.ctrl.m_list it = none := by
      simp [immediateAt, hc, himm]
    rw [h3]
    exact h1
  · rw [P.keeps_iff]
    simp only
    constructor
    · rintro ⟨h1, h2⟩
      refine ⟨h1, ?_⟩
      intro k c0 hk1 hk2 hk3 hk4
      by_cases hki : k = it
      · subst hki
        have hcc : c0 = c := by rw [hc] at hk3; exact (Option.some.inj hk3).symm
        rw [hcc] at hk4
        exact absurd hk4 himm
      · exact h2 k c0 (by omega) hk2 hk3 hk4
    · rintro ⟨h1, h2⟩
      exact ⟨h1, fun k c0 hk1 hk2 hk3 hk4 => h2 k c0 (by omega) hk2 hk3 hk4⟩
  · intro k
    rw [P.view_iff]
    simp only [List.mem_append, List.mem_singleton, Nat.succ_le_iff]
    constructor
    · rintro (⟨h1 | h1, h2⟩ | ⟨h1, h2, h3, h5⟩)
      · left
        refine ⟨h1, ?_⟩
        intro j c0 hj1 hj2 hj3
        by_cases hji : j = it
        · subst hji
          have hcc : c0 = c := by rw [hc] at hj3; exact (Option.some.inj hj3).symm
          rw [hcc]; exact hview
        · exact h2 j c0 (by omega) hj2 hj3
      · right
        subst h1
        exact ⟨le_refl _, hlt, ⟨c, hc, himm⟩, h2⟩
      · right
        exact ⟨by omega, h2, h3, h5⟩
    · rintro (⟨h1, h2⟩ | ⟨h1, h2, h3, h5⟩)
      · left
        exact ⟨Or.inl h1, fun j c0 hj1 hj2 hj3 => h2 j c0 (by omega) hj2 hj3⟩
      · by_cases hki : k = it
        · left
          subst hki
          exact ⟨Or.inr rfl, h5⟩
        · right
          exact ⟨by omega, h2, h3, h5⟩
  · intro h1 h2
    apply P.view_sorted
    · simp only
      rw [List.pairwise_append]
      refine ⟨h1, List.pairwise_singleton _ _, ?_⟩
      intro a ha b hb
      simp only [List.mem_singleton] at hb
      subst hb
      exact h2 a ha
    · simp only [List.mem_append, List.mem_singleton]
      rintro k (hk | hk)
      · have := h2 k hk
        omega
      · omega

/-- The main loop of `replayCommands(it)` runs to its end when it starts at or
before the cursor. -/
theorem replayLoop_post (resolve : List Nat → List Nat) :
    ∀ (fuel it : Nat) (st : ReplayState),
      it ≤ st.ctrl.m_iterator → st.ctrl.m_iterator ≤ st.ctrl.m_list.length →
      st.ctrl.m_iterator - it ≤ fuel →
      ∃ st', replayLoop resolve fuel it st = .ok st' ∧ ReplayLoopPost resolve it st st' := by
  intro fuel
  induction fuel with
  | zero =>
    intro it st h1 _ h3
    have h : it = st.ctrl.m_iterator := by omega
    exact ⟨st, by simp [replayLoop, h], ReplayLoopPost.done resolve it st h⟩
  | succ n ih =>
    intro it st h1 h2 h3
    by_cases h : it = st.ctrl.m_iterator
    · exact ⟨st, by simp [replayLoop, h], ReplayLoopPost.done resolve it st h⟩
    · have hlt : it < st.ctrl.m_iterator := by omega
      have hlen : it < st.ctrl.m_list.length := by omega
      have hc : st.ctrl.m_list[it]? = some (st.ctrl.m_list[it]) := List.getElem?_eq_getElem hlen
      by_cases himm : (st.ctrl.m_list[it]).immediate
      · rw [replayLoop_immediate resolve n it st _ h hc himm]
        obtain ⟨st', hst, P⟩ := ih (it + 1)
          { ctrl :=
              { m_list := st.ctrl.m_list.set it
                  ((st.ctrl.m_list[it]).mark resolve st.ctrl.m_iterator it),
                m_iterator := st.ctrl.m_iterator },
            out := st.out ++
              [Effect.dispatch (replayedMessage resolve st.ctrl.m_iterator it
                (st.ctrl.m_list[it]).message)],
            viewCommands := if (st.ctrl.m_list[it]).order ≠ .ORDER_VIEW then [] else st.viewCommands,
            keepsContent :=
              if !(st.ctrl.m_list[it]).message.keepContent then false else st.keepsContent }
          hlt (by simpa using h2) (by simp only; omega)
        exact ⟨st', hst, ReplayLoopPost.step_immediate resolve it st st' _ hlt hc himm P⟩
      · rw [replayLoop_buffer resolve n it st _ h hc himm]
        obtain ⟨st', hst, P⟩ := ih (it + 1) { st with viewCommands := st.viewCommands ++ [it] }
          (show it + 1 ≤ st.ctrl.m_iterator from hlt) h2
          (show st.ctrl.m_iterator - (it + 1) ≤ n by omega)
        exact ⟨st', hst, ReplayLoopPost.step_buffer resolve it st st' _ hlt hc himm P⟩

/-- The second loop of `replayCommands(it)`, run over positions in falling
order: it adds a sublist of the positions it visits, namely each position whose
message type is not in `messageTypes` and is not met at a later position. -/
theorem collectLastViewCommands_post (l : List Command) :
    ∀ (ks : List Nat) (messageTypes : List MessageType) (acc : List Nat),
      (∀ k ∈ ks, k < l.length) →
      ∃ r, collectLastViewCommands l ks messageTypes acc = .ok (acc ++ r) ∧
        r.Sublist ks ∧
        (ks.Pairwise (fun a b => a > b) →
          ∀ k, k ∈ r ↔
            (k ∈ ks ∧ (∀ ty, typeAt l k = some ty → ty ∉ messageTypes) ∧
              ∀ j ∈ ks, typeAt l j = typeAt l k → j ≤ k)) := by
  intro ks
  induction ks with
  | nil =>
    intro messageTypes acc _
    exact ⟨[], by simp [collectLastViewCommands], List.Sublist.refl _, by simp⟩
  | cons a ks ih =>
    intro messageTypes acc hvalid
    have ha : a < l.length := hvalid a (List.mem_cons_self _ _)
    have hks : ∀ k ∈ ks, k < l.length := fun k hk => hvalid k (List.mem_cons_of_mem _ hk)
    have hc : l[a]? = some (l[a]) := List.getElem?_eq_getElem ha
    have hta : typeAt l a = some (l[a]).message.getType := by simp [typeAt, hc]
    by_cases hmem : (l[a]).message.getType ∈ messageTypes
    · obtain ⟨r, hr, hsub, hiff⟩ := ih messageTypes acc hks
      refine ⟨r, ?_, List.Sublist.cons _ hsub, ?_⟩
      · simp [collectLastViewCommands, deref, hc, hmem, bind, Except.bind, hr]
      · intro hpw k
        rw [List.pairwise_cons] at hpw
        rw [hiff hpw.2 k]
        constructor
        · rintro ⟨h1, h2, h3⟩
          refine ⟨List.mem_cons_of_mem _ h1, h2, ?_⟩
          intro j hj hty
          rcases List.mem_cons.1 hj with hj | hj
          · subst hj
            rw [hta] at hty
            exact absurd hmem (h2 _ hty.symm)
          · exact h3 j hj hty
        · rintro ⟨h1, h2, h3⟩
          rcases List.mem_cons.1 h1 with h1 | h1
          · subst h1
            exact absurd hmem (h2 _ hta)
          · exact ⟨h1, h2, fun j hj hty => h3 j (List.mem_cons_of_mem _ hj) hty⟩
    · obtain ⟨r, hr, hsub, hiff⟩ := ih ((l[a]).message.getType :: messageTypes) (acc ++ [a]) hks
      refine ⟨a :: r, ?_, List.Sublist.cons₂ _ hsub, ?_⟩
      · simp [collectLastViewCommands, deref, hc, hmem, bind, Except.bind, hr]
      · intro hpw k
        rw [List.pairwise_cons] at hpw
        rw [List.mem_cons, hiff hpw.2 k]
        constructor
        · rintro (h | ⟨h1, h2, h3⟩)
          · subst h
            refine ⟨List.mem_cons_self _ _, ?_, ?_⟩
            · intro ty hty
              rw [hta] at hty
              rw [← Option.some.inj hty]
              exact hmem
            · intro j hj _
              rcases List.mem_cons.1 hj with hj | hj
              · omega
              · have := hpw.1 j hj
                omega
          · have hne : typeAt l k ≠ typeAt l a := by
              intro heq
              rw [hta] at heq
              exact h2 _ heq (List.mem_cons_self _ _)
            refine ⟨List.mem_cons_of_mem _ h1, ?_, ?_⟩
            · intro ty hty hin
              exact h2 ty hty (List.mem_cons_of_mem _ hin)
            · intro j hj hty
              rcases List.mem_cons.1 hj with hj | hj
              · subst hj
                exact absurd hty.symm hne
              · exact h3 j hj hty
        · rintro ⟨h1, h2, h3⟩
          rcases List.mem_cons.1 h1 with h1 | h1
          · exact Or.inl h1
          · right
            have hlt : k < a := hpw.1 k h1
            have hne : typeAt l a ≠ typeAt l k := by
              intro heq
              have := h3 a (List.mem_cons_self _ _) heq
              omega
            refine ⟨h1, ?_, fun j hj hty => h3 j (List.mem_cons_of_mem _ hj) hty⟩
            intro ty hty hin
            rcases List.mem_cons.1 hin with hin | hin
            · apply hne
              rw [hta, hty, hin]
            · exact h2 ty hty hin

/-- The third loop of `replayCommands(it)` over distinct positions of the
list: each of them is replayed once, in turn. -/
theorem replayEach_post (resolve : List Nat → List Nat) :
    ∀ (ps : List Nat) (ctrl : UndoRedoController) (out : List Effect),
      ps.Nodup → (∀ k ∈ ps, k < ctrl.m_list.length) →
      ∃ ctrl', replayEach resolve ps (ctrl, out) =
          .ok (ctrl', out ++ ps.filterMap (replayedAt resolve ctrl.m_iterator ctrl.m_list)) ∧
        ctrl'.m_iterator = ctrl.m_iterator ∧
        ctrl'.m_list.length = ctrl.m_list.length ∧
        ∀ k c, ctrl.m_list[k]? = some c →
          ctrl'.m_list[k]? = some (if k ∈ ps then c.mark resolve ctrl.m_iterator k else c) := by
  intro ps
  induction ps with
  | nil =>
    intro ctrl out _ _
    exact ⟨ctrl, by simp [replayEach], rfl, rfl, by simp⟩
  | cons a ps ih =>
    intro ctrl out hnd hvalid
    have ha : a < ctrl.m_list.length := hvalid a (List.mem_cons_self _ _)
    have hc : ctrl.m_list[a]? = some (ctrl.m_list[a]) := List.getElem?_eq_getElem ha
    rw [List.nodup_cons] at hnd
    have hne : ∀ k, k ≠ a →
        (ctrl.m_list.set a ((ctrl.m_list[a]).mark resolve ctrl.m_iterator a))[k]? =
          ctrl.m_list[k]? := by
      intro k hk
      exact List.getElem?_set_ne (Ne.symm hk)
    obtain ⟨ctrl', h1, h2, h3, h4⟩ := ih
      { m_list := ctrl.m_list.set a ((ctrl.m_list[a]).mark resolve ctrl.m_iterator a),
        m_iterator := ctrl.m_iterator }
      (out ++ [Effect.dispatch (replayedMessage resolve ctrl.m_iterator a (ctrl.m_list[a]).message)])
      hnd.2 (by
        intro k hk
        simp only [List.length_set]
        exact hvalid k (List.mem_cons_of_mem _ hk))
    refine ⟨ctrl', ?_, h2, by simpa using h3, ?_⟩
    · simp only [replayEach, replayCommand_eq resolve a ctrl _ hc, bind, Except.bind]
      rw [h1]
      congr 2
      rw [List.append_assoc]
      congr 1
      rw [List.filterMap_cons]
      have hra : replayedAt resolve ctrl.m_iterator ctrl.m_list a =
          some (Effect.dispatch
            (replayedMessage resolve ctrl.m_iterator a (ctrl.m_list[a]).message)) := by
        simp [replayedAt, hc]
      rw [hra]
      simp only [List.singleton_append]
      congr 1
      apply List.filterMap_congr
      intro k hk
      have hka : k ≠ a := fun h => hnd.1 (h ▸ hk)
      simp only [replayedAt, hne k hka]
    · intro k c hk
      by_cases hka : k = a
      · subst hka
        have hcc : c = ctrl.m_list[k] := by rw [hc] at hk; exact (Option.some.inj hk).symm
        have := h4 k (c.mark resolve ctrl.m_iterator k) (by
          simp only
          rw [hcc]
          exact List.getElem?_set_self ha)
        simp only [hnd.1, if_false] at this
        simp only [List.mem_cons, true_or, if_true]
        exact this
      · have := h4 k c (by simp only; rw [hne k hka]; exact hk)
        simp only [List.mem_cons, hka, false_or]
        exact this

theorem ReplayLoopPost.typeAt_eq {resolve : List Nat → List Nat} {it : Nat}
    {st st' : ReplayState} (P : ReplayLoopPost resolve it st st') (k : Nat) :
    typeAt st'.ctrl.m_list k = typeAt st.ctrl.m_list k := by
  unfold typeAt
  cases hk : st.ctrl.m_list[k]? with
  | none =>
    have h1 : st.ctrl.m_list.length ≤ k := List.getElem?_eq_none_iff.1 hk
    have h2 : st'.ctrl.m_list[k]? = none :=
      List.getElem?_eq_none_iff.2 (by rw [P.length_eq]; exact h1)
    rw [h2]
  | some c =>
    rw [P.list_eq k c hk]
    split_ifs
    · simp [Command.mark_getType]
    · rfl

/-- A whole pass of `replayCommands(it)` from a position at or before the
cursor: the main loop `st`, the buffered commands that are replayed at the end
(`survivors`), the output and the list afterwards. -/
theorem replayCommandsFrom_post (resolve : List Nat → List Nat) (start : Nat)
    (s : UndoRedoController) (hstart : start ≤ s.m_iterator) (hwf : s.WF) :
    ∃ (st : ReplayState) (survivors : List Nat) (ctrl : UndoRedoController),
      replayLoop resolve (s.m_list.length - start) start (replayStart s) = .ok st ∧
      ReplayLoopPost resolve start (replayStart s) st ∧
      st.viewCommands.Pairwise (fun a b => a < b) ∧
      survivors.Sublist st.viewCommands ∧
      (∀ k, k ∈ survivors ↔
        (k ∈ st.viewCommands ∧
          ∀ j ∈ st.viewCommands, typeAt s.m_list j = typeAt s.m_list k → j ≤ k)) ∧
      replayCommandsFrom resolve start s =
        .ok (ctrl, st.out ++ survivors.filterMap (replayedAt resolve s.m_iterator s.m_list) ++
          [Effect.flushUpdates st.keepsContent]) ∧
      ctrl.m_iterator = s.m_iterator ∧
      ctrl.m_list.length = s.m_list.length ∧
      ∀ k c, s.m_list[k]? = some c →
        ctrl.m_list[k]? =
          some (if (start ≤ k ∧ k < s.m_iterator ∧ c.immediate) ∨ k ∈ survivors
            then c.mark resolve s.m_iterator k else c) := by
  unfold UndoRedoController.WF at hwf
  obtain ⟨st, hst, P⟩ := replayLoop_post resolve (s.m_list.length - start) start (replayStart s)
    hstart hwf (by simp only [replayStart]; omega)
  have hcur : st.ctrl.m_iterator = s.m_iterator := P.cursor_eq
  have hlen : st.ctrl.m_list.length = s.m_list.length := P.length_eq
  have hsorted : st.viewCommands.Pairwise (fun a b => a < b) :=
    P.view_sorted List.Pairwise.nil (by simp [replayStart])
  -- the buffered positions hold commands that the main loop has not touched
  have hbuf : ∀ k ∈ st.viewCommands,
      ∃ c, s.m_list[k]? = some c ∧ ¬ c.immediate ∧ st.ctrl.m_list[k]? = some c := by
    intro k hk
    rcases (P.view_iff k).1 hk with ⟨h, _⟩ | ⟨_, _, ⟨c, hc, himm⟩, _⟩
    · simp [replayStart] at h
    · refine ⟨c, hc, himm, ?_⟩
      have := P.list_eq k c hc
      have hn : ¬ (start ≤ k ∧ k < (replayStart s).ctrl.m_iterator ∧ c.immediate) :=
        fun h => himm h.2.2
      simpa only [hn, if_false] using this
  have hvalid : ∀ k ∈ st.viewCommands.reverse, k < st.ctrl.m_list.length := by
    intro k hk
    obtain ⟨c, _, _, hc⟩ := hbuf k (List.mem_reverse.1 hk)
    exact (List.getElem?_eq_some.1 hc).1
  obtain ⟨r, hr, hsub, hiff⟩ :=
    collectLastViewCommands_post st.ctrl.m_list st.viewCommands.reverse [] [] hvalid
  have hrsub : r.reverse.Sublist st.viewCommands := by
    have := hsub.reverse
    simpa using this
  have hnodup : r.reverse.Nodup := by
    have hp : r.reverse.Pairwise (fun a b => a < b) := List.Pairwise.sublist hrsub hsorted
    exact hp.imp (fun h => Nat.ne_of_lt h)
  have hvalid2 : ∀ k ∈ r.reverse, k < st.ctrl.m_list.length := by
    intro k hk
    exact hvalid k (List.mem_reverse.2 (hrsub.subset hk))
  obtain ⟨ctrl, hctrl, hc1, hc2, hc3⟩ := replayEach_post resolve r.reverse st.ctrl st.out
    hnodup hvalid2
  have hmem : ∀ k, k ∈ r.reverse ↔
      (k ∈ st.viewCommands ∧
        ∀ j ∈ st.viewCommands, typeAt s.m_list j = typeAt s.m_list k → j ≤ k) := by
    intro k
    have hpw : st.viewCommands.reverse.Pairwise (fun a b => a > b) := by
      rw [List.pairwise_reverse]
      exact hsorted
    rw [List.mem_reverse, hiff hpw k]
    simp only [List.mem_reverse, List.not_mem_nil, not_false_eq_true, implies_true, true_and,
      P.typeAt_eq]
    rfl
  refine ⟨st, r.reverse, ctrl, hst, P, hsorted, hrsub, hmem, ?_, by rw [hc1, hcur],
    by rw [hc2, hlen], ?_⟩
  · have hst2 : replayLoop resolve (s.m_list.length - start) start
        { ctrl := s, out := [], viewCommands := [], keepsContent := true } = .ok st := hst
    simp only [replayCommandsFrom, hst2, bind, Except.bind, hr, List.nil_append, hctrl]
    congr 3
    rw [hcur]
    congr 1
    apply List.filterMap_congr
    intro k hk
    obtain ⟨c, hc, _, hc'⟩ := hbuf k (hrsub.subset hk)
    simp only [replayedAt, hc, hc']
  · intro k c hk
    have h1 := P.list_eq k c hk
    simp only [replayStart] at h1
    by_cases hks : k ∈ r.reverse
    · obtain ⟨c0, hc0, himm, hc0'⟩ := hbuf k (hrsub.subset hks)
      have hcc : c0 = c := by rw [hk] at hc0; exact (Option.some.inj hc0).symm
      subst hcc
      have := hc3 k c0 hc0'
      simp only [hks, if_true, or_true] at this ⊢
      rw [this, hcur]
    · have := hc3 k _ h1
      simp only [hks, if_false, or_false] at this ⊢
      exact this

/-! ## The same commands -/

theorem orderAt_eq_some {l : List Command} {k : Nat} {o : Order} :
    orderAt l k = some o ↔ ∃ c, l[k]? = some c ∧ c.order = o := by
  simp [orderAt]

theorem orderAt_of_getElem? {l : List Command} {k : Nat} {c : Command} (h : l[k]? = some c) :
    orderAt l k = some c.order := by
  simp [orderAt, h]

theorem sameCommands_of_mark (resolve : List Nat → List Nat) (cursor : Nat)
    (l l' : List Command) (Q : Nat → Command → Prop) [∀ k c, Decidable (Q k c)]
    (hlen : l'.length = l.length)
    (h : ∀ k c, l[k]? = some c → l'[k]? = some (if Q k c then c.mark resolve cursor k else c)) :
    sameCommands l l' := by
  unfold sameCommands
  apply List.ext_getElem?
  intro k
  rw [List.getElem?_map, List.getElem?_map]
  cases hk : l[k]? with
  | none =>
    have h1 : l.length ≤ k := List.getElem?_eq_none_iff.1 hk
    have h2 : l'[k]? = none := List.getElem?_eq_none_iff.2 (by rw [hlen]; exact h1)
    rw [h2]
  | some c =>
    rw [h k c hk]
    split_ifs
    · simp [Command.mark_eraseReplay]
    · rfl

theorem sameCommands_orderAt {l l' : List Command} (h : sameCommands l l') (k : Nat) :
    orderAt l' k = orderAt l k := by
  unfold sameCommands at h
  have h1 : (l.map Command.eraseReplay)[k]? = (l'.map Command.eraseReplay)[k]? := by rw [h]
  rw [List.getElem?_map, List.getElem?_map] at h1
  unfold orderAt
  cases h2 : l[k]? with
  | none =>
    rw [h2] at h1
    cases h3 : l'[k]? with
    | none => rfl
    | some c => rw [h3] at h1; simp at h1
  | some c =>
    rw [h2] at h1
    cases h3 : l'[k]? with
    | none => rw [h3] at h1; simp at h1
    | some c' =>
      rw [h3] at h1
      simp only [Option.map_some', Option.some.injEq] at h1 ⊢
      have := congrArg Command.order h1
      simpa [Command.eraseReplay] using this.symm

theorem sameCommands_length {l l' : List Command} (h : sameCommands l l') :
    l'.length = l.length := by
  unfold sameCommands at h
  have := congrArg List.length h
  simpa using this.symm

theorem sameCommands_refl (l : List Command) : sameCommands l l := rfl

theorem sameCommands_trans {l l' l'' : List Command} (h : sameCommands l l')
    (h' : sameCommands l' l'') : sameCommands l l'' := by
  unfold sameCommands at *
  rw [h, h']

/-! ## The scans of undo, redo and replay -/

/-- The first backward scan of `handleMessage(MessageUndo*)` ends just before
the last command left of `it` that is not a view command. -/
theorem undoTarget_eq (l : List Command) (p : Nat) :
    ∀ it, p < it → it ≤ l.length →
      orderAt l p ≠ some .ORDER_VIEW →
      (∀ k, p < k → k < it → orderAt l k = some .ORDER_VIEW) →
      undoTarget l it = .ok p := by
  intro it
  induction it with
  | zero => intro h; omega
  | succ n ih =>
    intro h1 h2 h3 h4
    have hn : n < l.length := by omega
    have hc : l[n]? = some (l[n]) := List.getElem?_eq_getElem hn
    by_cases hnp : n = p
    · subst hnp
      have : ¬ (l[n]).order = .ORDER_VIEW := by
        intro h
        apply h3
        rw [orderAt_of_getElem? hc, h]
      simp [undoTarget, deref, hc, bind, Except.bind, this]
    · have hv : (l[n]).order = .ORDER_VIEW := by
        have := h4 n (by omega) (by omega)
        rw [orderAt_of_getElem? hc] at this
        exact Option.some.inj this
      simp only [undoTarget, deref, hc, bind, Except.bind, hv, if_true]
      exact ih (by omega) (by omega) h3 (fun k hk1 hk2 => h4 k hk1 (by omega))

/-- When the first backward scan of `handleMessage(MessageUndo*)` ends, it ends
just before the last command left of `it` that is not a view command. -/
theorem undoTarget_inv (l : List Command) :
    ∀ it p, undoTarget l it = .ok p →
      p < it ∧ p < l.length ∧ orderAt l p ≠ some .ORDER_VIEW ∧
      (∀ k, p < k → k < it → orderAt l k = some .ORDER_VIEW) := by
  intro it
  induction it with
  | zero => intro p h; simp [undoTarget] at h
  | succ n ih =>
    intro p h
    simp only [undoTarget, deref, bind, Except.bind] at h
    cases hc : l[n]? with
    | none => rw [hc] at h; simp at h
    | some c =>
      rw [hc] at h
      simp only at h
      have hn : n < l.length := (List.getElem?_eq_some.1 hc).1
      by_cases hv : c.order = .ORDER_VIEW
      · simp only [hv, if_true] at h
        obtain ⟨h1, h2, h3, h4⟩ := ih p h
        refine ⟨by omega, h2, h3, ?_⟩
        intro k hk1 hk2
        by_cases hkn : k = n
        · subst hkn
          rw [orderAt_of_getElem? hc, hv]
        · exact h4 k hk1 (by omega)
      · simp only [hv, if_false] at h
        have hpn : n = p := by
          injection h
        subst hpn
        refine ⟨by omega, hn, ?_, fun k hk1 hk2 => by omega⟩
        rw [orderAt_of_getElem? hc]
        intro h'
        exact hv (Option.some.inj h')

/-- The second backward scan of `handleMessage(MessageUndo*)` ends when there
is a command at or before `it2` that is not a view command. -/
theorem undoSkipView_post (l : List Command) :
    ∀ it2, it2 < l.length → (∃ q, q ≤ it2 ∧ orderAt l q ≠ some .ORDER_VIEW) →
      ∃ r, undoSkipView l it2 = .ok r ∧ r ≤ it2 ∧ orderAt l r ≠ some .ORDER_VIEW ∧
        ∀ k, r < k → k ≤ it2 → orderAt l k = some .ORDER_VIEW := by
  intro it2
  induction it2 with
  | zero =>
    rintro h1 ⟨q, hq1, hq2⟩
    have hq : q = 0 := by omega
    subst hq
    have hc : l[0]? = some (l[0]) := List.getElem?_eq_getElem h1
    have hv : ¬ (l[0]).order = .ORDER_VIEW := by
      intro h
      apply hq2
      rw [orderAt_of_getElem? hc, h]
    exact ⟨0, by simp [undoSkipView, deref, hc, bind, Except.bind, hv], le_refl _, hq2,
      fun k hk1 hk2 => by omega⟩
  | succ n ih =>
    rintro h1 ⟨q, hq1, hq2⟩
    have hc : l[n + 1]? = some (l[n + 1]) := List.getElem?_eq_getElem h1
    by_cases hv : (l[n + 1]).order = .ORDER_VIEW
    · have hqn : q ≤ n := by
        by_contra hcon
        have : q = n + 1 := by omega
        subst this
        apply hq2
        rw [orderAt_of_getElem? hc, hv]
      obtain ⟨r, hr1, hr2, hr3, hr4⟩ := ih (by omega) ⟨q, hqn, hq2⟩
      refine ⟨r, ?_, by omega, hr3, ?_⟩
      · simp only [undoSkipView, deref, hc, bind, Except.bind, hv, if_true]
        exact hr1
      · intro k hk1 hk2
        by_cases hkn : k = n + 1
        · subst hkn
          rw [orderAt_of_getElem? hc, hv]
        · exact hr4 k hk1 (by omega)
    · refine ⟨n + 1, ?_, le_refl _, ?_, fun k hk1 hk2 => by omega⟩
      · simp [undoSkipView, deref, hc, bind, Except.bind, hv]
      · rw [orderAt_of_getElem? hc]
        intro h'
        exact hv (Option.some.inj h')

/-- The backward scan of `replayCommands()` ends at the nearest command left
of `it` with `ORDER_ACTIVATE`, or at the start of the list. -/
theorem scanBackToActivate_post (l : List Command) :
    ∀ it, 0 < it → it ≤ l.length →
      ∃ start, scanBackToActivate l it = .ok start ∧ start < it ∧
        (start = 0 ∨ orderAt l start = some .ORDER_ACTIVATE) ∧
        ∀ k, start < k → k < it → orderAt l k ≠ some .ORDER_ACTIVATE := by
  intro it
  induction it with
  | zero => intro h; omega
  | succ n ih =>
    intro _ h2
    by_cases hn : n = 0
    · subst hn
      exact ⟨0, by simp [scanBackToActivate], by omega, Or.inl rfl, fun k hk1 hk2 => by omega⟩
    · have hlen : n < l.length := by omega
      have hc : l[n]? = some (l[n]) := List.getElem?_eq_getElem hlen
      by_cases ha : (l[n]).order = .ORDER_ACTIVATE
      · refine ⟨n, ?_, by omega, Or.inr ?_, fun k hk1 hk2 => by omega⟩
        · simp [scanBackToActivate, hn, deref, hc, bind, Except.bind, ha]
        · rw [orderAt_of_getElem? hc, ha]
      · obtain ⟨start, hs1, hs2, hs3, hs4⟩ := ih (by omega) (by omega)
        refine ⟨start, ?_, by omega, hs3, ?_⟩
        · simp only [scanBackToActivate, hn, if_false, deref, hc, bind, Except.bind, ne_eq, ha,
            not_false_eq_true, if_true]
          exact hs1
        · intro k hk1 hk2
          by_cases hkn : k = n
          · subst hkn
            rw [orderAt_of_getElem? hc]
            intro h'
            exact ha (Option.some.inj h')
          · exact hs4 k hk1 (by omega)

/-! ## Undo and redo -/

/-- A pass of `replayCommands()` with the cursor inside a well-formed list and
not at its start. -/
theorem replayCommands_post (resolve : List Nat → List Nat) (s : UndoRedoController)
    (hpos : 0 < s.m_iterator) (hwf : s.WF) :
    ∃ (start : Nat) (ctrl : UndoRedoController) (out : List Effect),
      replayCommands resolve s = .ok (ctrl, out) ∧
      replayCommandsFrom resolve start s = .ok (ctrl, out) ∧
      start < s.m_iterator ∧
      (start = 0 ∨ orderAt s.m_list start = some .ORDER_ACTIVATE) ∧
      (∀ k, start < k → k < s.m_iterator → orderAt s.m_list k ≠ some .ORDER_ACTIVATE) ∧
      sameCommands s.m_list ctrl.m_list ∧ ctrl.m_iterator = s.m_iterator := by
  obtain ⟨start, h1, h2, h3, h4⟩ := scanBackToActivate_post s.m_list s.m_iterator hpos hwf
  obtain ⟨st, survivors, ctrl, _, _, _, _, _, h5, h6, h7, h8⟩ :=
    replayCommandsFrom_post resolve start s (by omega) hwf
  refine ⟨start, ctrl, _, ?_, h5, h2, h3, h4, ?_, h6⟩
  · simp only [replayCommands, h1, bind, Except.bind]
    exact h5
  · exact sameCommands_of_mark resolve s.m_iterator s.m_list ctrl.m_list _ h7 h8

/-- In a state whose last command left of the cursor that is not a view command
has an earlier command that is not a view command either,
`handleMessage(MessageUndo*)` keeps the commands, puts the cursor just before
that last command and replays from the nearest command left of the new cursor
with `ORDER_ACTIVATE` (or from the start of the list) up to the new cursor. -/
theorem handleMessageUndo_moves (resolve : List Nat → List Nat) (s : UndoRedoController)
    (p q : Nat) (hwf : s.WF)
    (hp : p < s.m_iterator)
    (hpo : orderAt s.m_list p ≠ some .ORDER_VIEW)
    (hlast : ∀ k, p < k → k < s.m_iterator → orderAt s.m_list k = some .ORDER_VIEW)
    (hq : q < p)
    (hqo : orderAt s.m_list q ≠ some .ORDER_VIEW) :
    ∃ (start : Nat) (ctrl : UndoRedoController) (buttons out : List Effect),
      handleMessageUndo resolve s =
        .ok (ctrl, buttons ++ [Effect.setRedoButtonEnabled true] ++ out) ∧
      (∀ e ∈ buttons, e = Effect.setUndoButtonEnabled false) ∧
      sameCommands s.m_list ctrl.m_list ∧
      ctrl.m_iterator = p ∧
      start < p ∧
      (start = 0 ∨ orderAt s.m_list start = some .ORDER_ACTIVATE) ∧
      (∀ k, start < k → k < p → orderAt s.m_list k ≠ some .ORDER_ACTIVATE) ∧
      replayCommandsFrom resolve start { s with m_iterator := p } = .ok (ctrl, out) := by
  have hwf' : s.m_iterator ≤ s.m_list.length := hwf
  have hlen : ¬ s.m_list.length = 0 := by omega
  have h1 := undoTarget_eq s.m_list p s.m_iterator hp hwf' hpo hlast
  obtain ⟨p', hp'⟩ : ∃ p', p = p' + 1 := ⟨p - 1, by omega⟩
  obtain ⟨r, hr1, _, _, _⟩ := undoSkipView_post s.m_list p' (by omega) ⟨q, by omega, hqo⟩
  obtain ⟨start, ctrl, out, hc1, hc2, hc3, hc4, hc5, hc6, hc7⟩ :=
    replayCommands_post resolve { s with m_iterator := p } (by simp only; omega)
      (show p ≤ s.m_list.length by omega)
  refine ⟨start, ctrl, if r = 0 then [Effect.setUndoButtonEnabled false] else [], out,
    ?_, ?_, hc6, hc7, hc3, hc4, hc5, hc2⟩
  · subst hp'
    simp only [handleMessageUndo, hlen, if_false, h1, bind, Except.bind, prev, hr1,
      Nat.succ_ne_zero, hc1]
  · intro e he
    split_ifs at he
    · simpa using he
    · simp at he

/-- A list that starts with a view command, which no run of events produces:
with an activate command after it and the cursor at the end, the second
backward scan of `handleMessage(MessageUndo*)` finds no command to stop at and
steps back from `begin()`. -/
theorem handleMessageUndo_view_first_faults :
    UndoRedoController.WF { m_list := [sampleScroll 1, sampleActivate 1], m_iterator := 2 } ∧
    (0 < 1 ∧ 1 < 2 ∧ orderAt [sampleScroll 1, sampleActivate 1] 1 = some .ORDER_ACTIVATE) ∧
    handleMessageUndo sampleResolve
        { m_list := [sampleScroll 1, sampleActivate 1], m_iterator := 2 } =
      .error .beforeBegin :=
  ⟨by decide, by decide, rfl⟩

/-- The forward scan of `handleMessage(MessageRedo*)` over the elements `t`
that follow position `it`. -/
theorem skipViewForward_suffix :
    ∀ (t : List Command) (it : Nat),
      it ≤ skipViewForward t it ∧ skipViewForward t it ≤ it + t.length ∧
      (∀ k, k < skipViewForward t it - it → (t[k]?).map Command.order = some .ORDER_VIEW) ∧
      (skipViewForward t it = it + t.length ∨
        ∃ c, t[skipViewForward t it - it]? = some c ∧ c.order ≠ .ORDER_VIEW) := by
  intro t
  induction t with
  | nil => intro it; simp [skipViewForward]
  | cons c rest ih =>
    intro it
    by_cases hv : c.order = .ORDER_VIEW
    · obtain ⟨h1, h2, h3, h4⟩ := ih (it + 1)
      simp only [skipViewForward, hv, if_true, List.length_cons]
      refine ⟨by omega, by omega, ?_, ?_⟩
      · intro k hk
        cases k with
        | zero => simp [hv]
        | succ k =>
          simp only [List.getElem?_cons_succ]
          exact h3 k (by omega)
      · rcases h4 with h4 | ⟨c0, h4, h5⟩
        · left; omega
        · right
          refine ⟨c0, ?_, h5⟩
          have : skipViewForward rest (it + 1) - it = (skipViewForward rest (it + 1) - (it + 1)) + 1 := by
            omega
          rw [this, List.getElem?_cons_succ]
          exact h4
    · simp only [skipViewForward, hv, if_false, List.length_cons]
      refine ⟨le_refl _, by omega, fun k hk => by omega, Or.inr ⟨c, by simp, hv⟩⟩

/-- The forward scan of `handleMessage(MessageRedo*)` from position `it` stops
at the first command at or after `it` that is not a view command, or at
the end of the list. -/
theorem skipViewForward_post (l : List Command) (it : Nat) (h : it ≤ l.length) :
    it ≤ skipViewForward (l.drop it) it ∧ skipViewForward (l.drop it) it ≤ l.length ∧
    (∀ k, it ≤ k → k < skipViewForward (l.drop it) it → orderAt l k = some .ORDER_VIEW) ∧
    (skipViewForward (l.drop it) it = l.length ∨
      (orderAt l (skipViewForward (l.drop it) it)).isSome ∧
        orderAt l (skipViewForward (l.drop it) it) ≠ some .ORDER_VIEW) := by
  obtain ⟨h1, h2, h3, h4⟩ := skipViewForward_suffix (l.drop it) it
  have hlen : (l.drop it).length = l.length - it := by simp
  refine ⟨h1, by omega, ?_, ?_⟩
  · intro k hk1 hk2
    have := h3 (k - it) (by omega)
    rw [List.getElem?_drop] at this
    have hk : it + (k - it) = k := by omega
    rw [hk] at this
    exact this
  · rcases h4 with h4 | ⟨c, h4, h5⟩
    · left; omega
    · right
      rw [List.getElem?_drop] at h4
      have hk : it + (skipViewForward (l.drop it) it - it) = skipViewForward (l.drop it) it := by
        omega
      rw [hk] at h4
      rw [orderAt_of_getElem? h4]
      exact ⟨rfl, fun h' => h5 (Option.some.inj h')⟩

/-- There is one position only at which a forward scan over view commands that
starts at `it` can stop. -/
theorem first_non_view_unique (l : List Command) (it j j' : Nat)
    (hj : j ≤ l.length) (hj' : j' ≤ l.length) (h1 : it ≤ j) (h1' : it ≤ j')
    (h2 : ∀ k, it ≤ k → k < j → orderAt l k = some .ORDER_VIEW)
    (h2' : ∀ k, it ≤ k → k < j' → orderAt l k = some .ORDER_VIEW)
    (h3 : j = l.length ∨ orderAt l j ≠ some .ORDER_VIEW)
    (h3' : j' = l.length ∨ orderAt l j' ≠ some .ORDER_VIEW) : j = j' := by
  rcases Nat.lt_trichotomy j j' with h | h | h
  · rcases h3 with h3 | h3
    · omega
    · exact absurd (h2' j h1 h) h3
  · exact h
  · rcases h3' with h3' | h3'
    · omega
    · exact absurd (h2 j' h1' h) h3'

theorem immediateAt_eq (resolve : List Nat → List Nat) (cursor : Nat) (l : List Command) :
    immediateAt resolve cursor l =
      fun k => if isImmediateAt l k = true then replayedAt resolve cursor l k else none := by
  funext k
  unfold immediateAt isImmediateAt replayedAt
  cases l[k]? with
  | none => simp
  | some c => by_cases h : c.immediate <;> simp [h]

/-- A pass of `replayCommands(it)` dispatches messages of commands between `it`
and the cursor only, followed by one flush, and writes no command outside this
range. -/
theorem replayCommandsFrom_frame (resolve : List Nat → List Nat) (start : Nat)
    (s : UndoRedoController) (hstart : start ≤ s.m_iterator) (hwf : s.WF) :
    ∃ (ctrl : UndoRedoController) (ps : List Nat) (b : Bool),
      replayCommandsFrom resolve start s =
        .ok (ctrl, ps.filterMap (replayedAt resolve s.m_iterator s.m_list) ++
          [Effect.flushUpdates b]) ∧
      (∀ k ∈ ps, start ≤ k ∧ k < s.m_iterator) ∧
      ctrl.m_iterator = s.m_iterator ∧
      sameCommands s.m_list ctrl.m_list ∧
      (∀ k, k < start ∨ s.m_iterator ≤ k → ctrl.m_list[k]? = s.m_list[k]?) ∧
      (b = true ↔
        ∀ k c, start ≤ k → k < s.m_iterator → s.m_list[k]? = some c →
          c.immediate → c.message.keepContent = true) := by
  obtain ⟨st, survivors, ctrl, _, P, _, hsub, _, h5, h6, h7, h8⟩ :=
    replayCommandsFrom_post resolve start s hstart hwf
  have hsurv : ∀ k ∈ survivors, start ≤ k ∧ k < s.m_iterator := by
    intro k hk
    rcases (P.view_iff k).1 (hsub.subset hk) with ⟨h, _⟩ | ⟨h1, h2, _, _⟩
    · simp [replayStart] at h
    · exact ⟨h1, h2⟩
  refine ⟨ctrl,
    (List.range' start (s.m_iterator - start)).filter (isImmediateAt s.m_list) ++ survivors,
    st.keepsContent, ?_, ?_, h6,
    sameCommands_of_mark resolve s.m_iterator s.m_list ctrl.m_list _ h7 h8, ?_, ?_⟩
  · rw [h5, P.out_eq, List.filterMap_append, List.filterMap_filter, immediateAt_eq]
    simp [replayStart]
  · intro k hk
    rcases List.mem_append.1 hk with hk | hk
    · have := List.mem_range'_1.1 (List.mem_filter.1 hk).1
      omega
    · exact hsurv k hk
  · intro k hk
    cases hc : s.m_list[k]? with
    | none =>
      have h1 : s.m_list.length ≤ k := List.getElem?_eq_none_iff.1 hc
      exact List.getElem?_eq_none_iff.2 (by rw [h7]; exact h1)
    | some c =>
      rw [h8 k c hc]
      have hn : ¬ ((start ≤ k ∧ k < s.m_iterator ∧ c.immediate) ∨ k ∈ survivors) := by
        rintro (h | h)
        · omega
        · have := hsurv k h
          omega
      simp only [hn, if_false]
  · rw [P.keeps_iff]
    simp [replayStart]

/-- The handler `handleMessage(MessageRedo*)` with the cursor not at the end of the
list: where the cursor goes and what is replayed. -/
theorem handleMessageRedo_post (resolve : List Nat → List Nat) (s : UndoRedoController)
    (hwf : s.WF) (hne : s.m_iterator ≠ s.m_list.length) :
    ∃ (j : Nat) (ctrl : UndoRedoController) (out : List Effect),
      s.m_iterator < j ∧ j ≤ s.m_list.length ∧
      (∀ k, s.m_iterator < k → k < j → orderAt s.m_list k = some .ORDER_VIEW) ∧
      (j = s.m_list.length ∨
        ((orderAt s.m_list j).isSome ∧ orderAt s.m_list j ≠ some .ORDER_VIEW)) ∧
      handleMessageRedo resolve s =
        .ok (ctrl, [Effect.setUndoButtonEnabled true] ++
          (if j = s.m_list.length then [Effect.setRedoButtonEnabled false] else []) ++ out) ∧
      replayCommandsFrom resolve s.m_iterator { s with m_iterator := j } = .ok (ctrl, out) ∧
      ctrl.m_iterator = j ∧
      sameCommands s.m_list ctrl.m_list ∧
      (∀ k, k < s.m_iterator ∨ j ≤ k → ctrl.m_list[k]? = s.m_list[k]?) ∧
      ∃ (ps : List Nat) (b : Bool),
        (∀ k ∈ ps, s.m_iterator ≤ k ∧ k < j) ∧
        out = ps.filterMap (replayedAt resolve j s.m_list) ++ [Effect.flushUpdates b] := by
  have hwf' : s.m_iterator ≤ s.m_list.length := hwf
  obtain ⟨h1, h2, h3, h4⟩ := skipViewForward_post s.m_list (s.m_iterator + 1) (by omega)
  obtain ⟨ctrl, ps, b, hr1, hr2, hr3, hr4, hr5, _⟩ :=
    replayCommandsFrom_frame resolve s.m_iterator
      { s with m_iterator := skipViewForward (s.m_list.drop (s.m_iterator + 1)) (s.m_iterator + 1) }
      (by simp only; omega) h2
  refine ⟨skipViewForward (s.m_list.drop (s.m_iterator + 1)) (s.m_iterator + 1), ctrl, _,
    by omega, h2, fun k hk1 hk2 => h3 k (by omega) hk2, h4, ?_, hr1, hr3, hr4, hr5,
    ps, b, hr2, rfl⟩
  simp only [handleMessageRedo, hne, if_false, bind, Except.bind, hr1]

/-- C4: with the cursor `c` not at the end of the list,
`handleMessage(MessageRedo*)` keeps the commands and puts the cursor at the
first position `j` after `c` whose command is not a view command, or at the end
of the list; the pass it starts is the one from `c` with the cursor at `j`, which
dispatches messages of positions from `c` up to `j` only and writes no command
outside this range. -/
theorem handleMessageRedo_moves (resolve : List Nat → List Nat) (s : UndoRedoController)
    (hwf : s.WF) (hne : s.m_iterator ≠ s.m_list.length) :
    ∃ (j : Nat) (ctrl : UndoRedoController) (out : List Effect),
      s.m_iterator < j ∧ j ≤ s.m_list.length ∧
      (∀ k, s.m_iterator < k → k < j → orderAt s.m_list k = some .ORDER_VIEW) ∧
      (j = s.m_list.length ∨
        ((orderAt s.m_list j).isSome ∧ orderAt s.m_list j ≠ some .ORDER_VIEW)) ∧
      handleMessageRedo resolve s =
        .ok (ctrl, [Effect.setUndoButtonEnabled true] ++
          (if j = s.m_list.length then [Effect.setRedoButtonEnabled false] else []) ++ out) ∧
      replayCommandsFrom resolve s.m_iterator { s with m_iterator := j } = .ok (ctrl, out) ∧
      ctrl.m_iterator = j ∧
      sameCommands s.m_list ctrl.m_list ∧
      (∀ k, k < s.m_iterator ∨ j ≤ k → ctrl.m_list[k]? = s.m_list[k]?) ∧
      ∃ (ps : List Nat) (b : Bool),
        (∀ k ∈ ps, s.m_iterator ≤ k ∧ k < j) ∧
        out = ps.filterMap (replayedAt resolve j s.m_list) ++ [Effect.flushUpdates b] :=
  handleMessageRedo_post resolve s hwf hne

/-- C4 on the list of two activate commands and two scroll commands with the
cursor just after the first command: the cursor goes to the end. -/
theorem handleMessageRedo_moves_witness :
    ∃ ctrl out,
      handleMessageRedo sampleResolve
          { m_list := [sampleActivate 1, sampleActivate 2, sampleScroll 1, sampleScroll 2],
            m_iterator := 1 } = .ok (ctrl, out) ∧
      ctrl.m_iterator = 4 := by
  obtain ⟨j, ctrl, out, h1, h2, h3, h4, h5, _, h7, _⟩ :=
    handleMessageRedo_moves sampleResolve
      { m_list := [sampleActivate 1, sampleActivate 2, sampleScroll 1, sampleScroll 2],
        m_iterator := 1 } (by decide) (by decide)
  have h1' : 1 < j := h1
  have h2' : j ≤ 4 := h2
  refine ⟨ctrl, _, h5, ?_⟩
  rw [h7]
  rcases h4 with h4 | ⟨_, h4⟩
  · exact h4
  · interval_cases j
    · exact absurd rfl h4
    · exact absurd rfl h4
    · rfl

/-- When `handleMessage(MessageUndo*)` returns with the cursor moved, the new
cursor is just before the last command left of the old cursor that is not a
view command, and the commands are the same. -/
theorem handleMessageUndo_inv (resolve : List Nat → List Nat) (s s1 : UndoRedoController)
    (out1 : List Effect) (hwf : s.WF)
    (hundo : handleMessageUndo resolve s = .ok (s1, out1))
    (hmoved : s1.m_iterator ≠ s.m_iterator) :
    0 < s1.m_iterator ∧ s1.m_iterator < s.m_iterator ∧
    orderAt s.m_list s1.m_iterator ≠ some .ORDER_VIEW ∧
    (∀ k, s1.m_iterator < k → k < s.m_iterator → orderAt s.m_list k = some .ORDER_VIEW) ∧
    sameCommands s.m_list s1.m_list := by
  have hwf' : s.m_iterator ≤ s.m_list.length := hwf
  unfold handleMessageUndo at hundo
  by_cases hlen : s.m_list.length = 0
  · simp only [hlen, if_true, Except.ok.injEq, Prod.mk.injEq] at hundo
    exact absurd (congrArg UndoRedoController.m_iterator hundo.1.symm) hmoved
  · simp only [hlen, if_false, bind, Except.bind] at hundo
    cases ht : undoTarget s.m_list s.m_iterator with
    | error e => rw [ht] at hundo; simp at hundo
    | ok p =>
      rw [ht] at hundo
      simp only at hundo
      obtain ⟨hp1, hp2, hp3, hp4⟩ := undoTarget_inv s.m_list s.m_iterator p ht
      cases p with
      | zero => simp [prev] at hundo
      | succ p' =>
        simp only [prev] at hundo
        cases hr : undoSkipView s.m_list p' with
        | error e => rw [hr] at hundo; simp at hundo
        | ok r =>
          rw [hr] at hundo
          simp only [Nat.succ_ne_zero, if_false] at hundo
          obtain ⟨start, ctrl, out, hc1, _, _, _, _, hc6, hc7⟩ :=
            replayCommands_post resolve { s with m_iterator := p' + 1 } (by simp only; omega)
              (show p' + 1 ≤ s.m_list.length by omega)
          rw [hc1] at hundo
          simp only [Except.ok.injEq, Prod.mk.injEq] at hundo
          obtain ⟨h1, _⟩ := hundo
          subst h1
          rw [hc7]
          exact ⟨by omega, hp1, hp3, hp4, hc6⟩

/-- C5: when the cursor is at the end of the list or directly before a command
that is not a view command, and `handleMessage(MessageUndo*)` moves the cursor,
then `handleMessage(MessageRedo*)` on the resulting state puts the cursor back,
keeps the commands and replays the commands between the two cursor
positions. -/
theorem undo_redo_roundtrip (resolve : List Nat → List Nat) (s s1 : UndoRedoController)
    (out1 : List Effect) (hwf : s.WF)
    (hcur : s.m_iterator = s.m_list.length ∨
      orderAt s.m_list s.m_iterator ≠ some .ORDER_VIEW)
    (hundo : handleMessageUndo resolve s = .ok (s1, out1))
    (hmoved : s1.m_iterator ≠ s.m_iterator) :
    ∃ (s2 : UndoRedoController) (out2 : List Effect),
      handleMessageRedo resolve s1 =
        .ok (s2, [Effect.setUndoButtonEnabled true] ++
          (if s.m_iterator = s.m_list.length then [Effect.setRedoButtonEnabled false] else []) ++
          out2) ∧
      s2.m_iterator = s.m_iterator ∧
      sameCommands s.m_list s2.m_list ∧
      replayCommandsFrom resolve s1.m_iterator { s1 with m_iterator := s.m_iterator } =
        .ok (s2, out2) ∧
      ∃ (ps : List Nat) (b : Bool),
        (∀ k ∈ ps, s1.m_iterator ≤ k ∧ k < s.m_iterator) ∧
        out2 = ps.filterMap (replayedAt resolve s.m_iterator s1.m_list) ++
          [Effect.flushUpdates b] := by
  have hwf' : s.m_iterator ≤ s.m_list.length := hwf
  obtain ⟨h0, h1, _, h3, h4⟩ := handleMessageUndo_inv resolve s s1 out1 hwf hundo hmoved
  have hlen : s1.m_list.length = s.m_list.length := sameCommands_length h4
  have hord : ∀ k, orderAt s1.m_list k = orderAt s.m_list k := sameCommands_orderAt h4
  obtain ⟨j, s2, out2, r1, r2, r3, r4, r5, r6, r7, r8, _, ps, b, r10, r11⟩ :=
    handleMessageRedo_post resolve s1 (show s1.m_iterator ≤ s1.m_list.length by omega)
      (by omega)
  have hj : j = s.m_iterator := by
    apply first_non_view_unique s.m_list (s1.m_iterator + 1) j s.m_iterator (by omega) hwf'
      (by omega) (by omega)
    · intro k hk1 hk2
      rw [← hord]
      exact r3 k (by omega) hk2
    · intro k hk1 hk2
      exact h3 k (by omega) hk2
    · rcases r4 with r4 | ⟨_, r4⟩
      · left; omega
      · right; rw [← hord]; exact r4
    · exact hcur
  subst hj
  refine ⟨s2, out2, ?_, r7, sameCommands_trans h4 r8, r6, ps, b, r10, r11⟩
  rw [r5, hlen]

/-- C5 on the list of two activate commands and two scroll commands with the
cursor at the end: undo puts the cursor just after the first command, redo puts
it back at the end. -/
theorem undo_redo_roundtrip_witness :
    ∃ s1 out1 s2 out2,
      handleMessageUndo sampleResolve
          { m_list := [sampleActivate 1, sampleActivate 2, sampleScroll 1, sampleScroll 2],
            m_iterator := 4 } = .ok (s1, out1) ∧
      s1.m_iterator = 1 ∧
      handleMessageRedo sampleResolve s1 = .ok (s2, out2) ∧
      s2.m_iterator = 4 := by
  have hundo : handleMessageUndo sampleResolve
      { m_list := [sampleActivate 1, sampleActivate 2, sampleScroll 1, sampleScroll 2],
        m_iterator := 4 } =
      .ok ({ m_list :=
              [ { message := ⟨.ShowErrors 1, true, true, false, false⟩,
                  order := .ORDER_ACTIVATE, replayLastOnly := false },
                sampleActivate 2, sampleScroll 1, sampleScroll 2 ],
             m_iterator := 1 },
        [ Effect.setUndoButtonEnabled false, Effect.setRedoButtonEnabled true,
          Effect.dispatch ⟨.ShowErrors 1, true, true, false, false⟩,
          Effect.flushUpdates false ]) := rfl
  obtain ⟨s2, out2, h1, h2, _⟩ :=
    undo_redo_roundtrip sampleResolve _ _ _ (by decide) (Or.inl rfl) hundo (by decide)
  exact ⟨_, _, s2, _, hundo, rfl, h1, h2⟩

/-- The handler `handleMessage(MessageRedo*)` with the cursor at the end of the list. -/
theorem handleMessageRedo_at_end (resolve : List Nat → List Nat) (s : UndoRedoController)
    (h : s.m_iterator = s.m_list.length) : handleMessageRedo resolve s = .ok (s, []) := by
  simp [handleMessageRedo, h]

/-- The handler `handleMessage(MessageUndo*)` on an empty list. -/
theorem handleMessageUndo_empty (resolve : List Nat → List Nat) (s : UndoRedoController)
    (h : s.m_list = []) : handleMessageUndo resolve s = .ok (s, []) := by
  simp [handleMessageUndo, h]

/-- The handler `handleMessage(MessageUndo*)` when the last command left of the cursor that
is not a view command is the first command of the list: line 282 steps back
from `begin()`. -/
theorem handleMessageUndo_at_first (resolve : List Nat → List Nat) (s : UndoRedoController)
    (hwf : s.WF) (hpos : 0 < s.m_iterator)
    (hfirst : orderAt s.m_list 0 ≠ some .ORDER_VIEW)
    (hlast : ∀ k, 0 < k → k < s.m_iterator → orderAt s.m_list k = some .ORDER_VIEW) :
    handleMessageUndo resolve s = .error .beforeBegin := by
  have hwf' : s.m_iterator ≤ s.m_list.length := hwf
  have hlen : ¬ s.m_list.length = 0 := by omega
  have h1 := undoTarget_eq s.m_list 0 s.m_iterator hpos hwf' hfirst hlast
  simp only [handleMessageUndo, hlen, if_false, h1, bind, Except.bind, prev]

/-- On the list of one activate command with the cursor at the end, line 282
of `handleMessage(MessageUndo*)` steps back from `begin()` before the test of
line 293 is reached. -/
theorem handleMessageUndo_single_command_faults :
    handleMessageUndo sampleResolve { m_list := [sampleActivate 1], m_iterator := 1 } =
      .error .beforeBegin := rfl

/-- C7: in a pass of `replayCommands(it)`, the buffered commands when the main
loop ends (`st.viewCommands`) are the view commands with `replayLastOnly` of the
range that no other kind of command follows, in list order; of these the pass
then replays `survivors`: for each message type the last buffered command of
that type and no other, in list order. -/
theorem replayCommandsFrom_lastOnly (resolve : List Nat → List Nat) (start : Nat)
    (s : UndoRedoController) (hstart : start ≤ s.m_iterator) (hwf : s.WF) :
    ∃ (st : ReplayState) (survivors : List Nat) (ctrl : UndoRedoController),
      replayLoop resolve (s.m_list.length - start) start (replayStart s) = .ok st ∧
      replayCommandsFrom resolve start s =
        .ok (ctrl, st.out ++ survivors.filterMap (replayedAt resolve s.m_iterator s.m_list) ++
          [Effect.flushUpdates st.keepsContent]) ∧
      st.viewCommands.Pairwise (fun a b => a < b) ∧
      (∀ k, k ∈ st.viewCommands ↔
        (start ≤ k ∧ k < s.m_iterator ∧
          (∃ c, s.m_list[k]? = some c ∧ c.order = .ORDER_VIEW ∧ c.replayLastOnly = true) ∧
          ∀ j, k < j → j < s.m_iterator → orderAt s.m_list j = some .ORDER_VIEW)) ∧
      survivors.Sublist st.viewCommands ∧
      (∀ k ∈ survivors, (replayedAt resolve s.m_iterator s.m_list k).isSome) ∧
      (∀ k, k ∈ survivors ↔
        (k ∈ st.viewCommands ∧
          ∀ j ∈ st.viewCommands, typeAt s.m_list j = typeAt s.m_list k → j ≤ k)) ∧
      (∀ j ∈ st.viewCommands, ∃ k ∈ survivors, typeAt s.m_list k = typeAt s.m_list j ∧
        ∀ k' ∈ survivors, typeAt s.m_list k' = typeAt s.m_list j → k' = k) := by
  obtain ⟨st, survivors, ctrl, h1, P, h3, h4, h5, h6, _, _, _⟩ :=
    replayCommandsFrom_post resolve start s hstart hwf
  have hwf' : s.m_iterator ≤ s.m_list.length := hwf
  have hbuf : ∀ k, k ∈ st.viewCommands ↔
      (start ≤ k ∧ k < s.m_iterator ∧
        (∃ c, s.m_list[k]? = some c ∧ c.order = .ORDER_VIEW ∧ c.replayLastOnly = true) ∧
        ∀ j, k < j → j < s.m_iterator → orderAt s.m_list j = some .ORDER_VIEW) := by
    intro k
    rw [P.view_iff k]
    simp only [replayStart, List.not_mem_nil, false_and, false_or]
    constructor
    · rintro ⟨a, b, ⟨c, hc, himm⟩, hv⟩
      refine ⟨a, b, ⟨c, hc, ?_, ?_⟩, ?_⟩
      · by_contra h
        exact himm (Or.inl h)
      · by_contra h
        exact himm (Or.inr (by simpa using h))
      · intro j hj1 hj2
        have hj : j < s.m_list.length := by omega
        have hcj : s.m_list[j]? = some (s.m_list[j]) := List.getElem?_eq_getElem hj
        rw [orderAt_of_getElem? hcj, hv j _ hj1 hj2 hcj]
    · rintro ⟨a, b, ⟨c, hc, h1, h2⟩, hv⟩
      refine ⟨a, b, ⟨c, hc, ?_⟩, ?_⟩
      · rintro (h | h)
        · exact h h1
        · rw [h2] at h
          exact Bool.noConfusion h
      · intro j c0 hj1 hj2 hcj
        have := hv j hj1 hj2
        rw [orderAt_of_getElem? hcj] at this
        exact Option.some.inj this
  refine ⟨st, survivors, ctrl, h1, h6, h3, hbuf, h4, ?_, h5, ?_⟩
  · intro k hk
    obtain ⟨_, _, ⟨c, hc, _⟩, _⟩ := (hbuf k).1 (h4.subset hk)
    simp [replayedAt, hc]
  · intro j hj
    have hne : (st.viewCommands.filter
        (fun i => decide (typeAt s.m_list i = typeAt s.m_list j))).toFinset.Nonempty :=
      ⟨j, by simp [hj]⟩
    obtain ⟨k, hk, hmax⟩ := Finset.exists_max_image _ (fun i : Nat => i) hne
    simp only [List.mem_toFinset, List.mem_filter, decide_eq_true_eq] at hk hmax
    refine ⟨k, (h5 k).2 ⟨hk.1, ?_⟩, hk.2, ?_⟩
    · intro i hi hty
      exact hmax i ⟨hi, hty.trans hk.2⟩
    · intro k' hk' hty
      have hk'' := (h5 k').1 hk'
      have a1 : k' ≤ k := hmax k' ⟨hk''.1, hty⟩
      have a2 : k ≤ k' := hk''.2 k hk.1 (hk.2.trans hty.symm)
      omega

/-- C7 on an activate command followed by three scroll commands: of the scroll
commands only the third is dispatched. -/
theorem replayCommandsFrom_lastOnly_witness :
    ∃ ctrl,
      replayCommandsFrom sampleResolve 0
          { m_list := [sampleActivate 1, sampleScroll 1, sampleScroll 2, sampleScroll 3],
            m_iterator := 4 } =
        .ok (ctrl,
          [ Effect.dispatch ⟨.ShowErrors 1, true, false, false, false⟩,
            Effect.dispatch ⟨.ScrollCode 3, true, true, false, false⟩,
            Effect.flushUpdates false ]) := by
  obtain ⟨st, survivors, ctrl, _, h, _⟩ :=
    replayCommandsFrom_lastOnly sampleResolve 0
      { m_list := [sampleActivate 1, sampleScroll 1, sampleScroll 2, sampleScroll 3],
        m_iterator := 4 } (by decide) (by decide)
  have hcomp : replayCommandsFrom sampleResolve 0
      { m_list := [sampleActivate 1, sampleScroll 1, sampleScroll 2, sampleScroll 3],
        m_iterator := 4 } =
      .ok ({ m_list :=
              [ { message := ⟨.ShowErrors 1, true, false, false, false⟩,
                  order := .ORDER_ACTIVATE, replayLastOnly := false },
                sampleScroll 1, sampleScroll 2,
                { message := ⟨.ScrollCode 3, true, true, false, false⟩,
                  order := .ORDER_VIEW, replayLastOnly := true } ],
             m_iterator := 4 },
        [ Effect.dispatch ⟨.ShowErrors 1, true, false, false, false⟩,
          Effect.dispatch ⟨.ScrollCode 3, true, true, false, false⟩,
          Effect.flushUpdates false ]) := rfl
  have he := h.symm.trans hcomp
  simp only [Except.ok.injEq, Prod.mk.injEq] at he
  exact ⟨ctrl, by rw [h, he.2]⟩

/-- C8 as stated fails: a pass over a command that keeps content and a buffered
scroll command that does not dispatches both and flushes with `true`. -/
theorem replayCommandsFrom_flush_ignores_buffered :
    replayCommandsFrom sampleResolve 1
        { m_list := [sampleActivate 1, sampleAdapt, sampleScroll 1], m_iterator := 3 } =
      .ok ({ m_list :=
              [ sampleActivate 1,
                { message := ⟨.GraphNodeBundleSplit, true, false, false, true⟩,
                  order := .ORDER_ADAPT, replayLastOnly := false },
                { message := ⟨.ScrollCode 1, true, true, false, false⟩,
                  order := .ORDER_VIEW, replayLastOnly := true } ],
             m_iterator := 3 },
        [ Effect.dispatch ⟨.GraphNodeBundleSplit, true, false, false, true⟩,
          Effect.dispatch ⟨.ScrollCode 1, true, true, false, false⟩,
          Effect.flushUpdates true ]) ∧
    Message.keepContent ⟨.ScrollCode 1, true, true, false, false⟩ = false :=
  ⟨rfl, rfl⟩

/-- C8, amended: a pass of `replayCommands(it)` dispatches messages and then one
flush, whose flag is `false` exactly when a command of the range that the main
loop replays at once (not a view command, or `replayLastOnly` not set) does not
keep content. -/
theorem replayCommandsFrom_flush (resolve : List Nat → List Nat) (start : Nat)
    (s : UndoRedoController) (hstart : start ≤ s.m_iterator) (hwf : s.WF) :
    ∃ (ctrl : UndoRedoController) (ps : List Nat) (b : Bool),
      replayCommandsFrom resolve start s =
        .ok (ctrl, ps.filterMap (replayedAt resolve s.m_iterator s.m_list) ++
          [Effect.flushUpdates b]) ∧
      (b = false ↔
        ∃ k c, start ≤ k ∧ k < s.m_iterator ∧ s.m_list[k]? = some c ∧
          (c.order ≠ .ORDER_VIEW ∨ c.replayLastOnly = false) ∧
          c.message.keepContent = false) := by
  obtain ⟨ctrl, ps, b, h1, _, _, _, _, h6⟩ := replayCommandsFrom_frame resolve start s hstart hwf
  refine ⟨ctrl, ps, b, h1, ?_⟩
  constructor
  · intro hb
    by_contra hcon
    have : b = true := by
      rw [h6]
      intro k c hk1 hk2 hc himm
      by_contra hkc
      exact hcon ⟨k, c, hk1, hk2, hc, himm, by simpa using hkc⟩
    rw [hb] at this
    exact Bool.noConfusion this
  · rintro ⟨k, c, hk1, hk2, hc, himm, hkc⟩
    by_contra hb
    have hb' : b = true := by simpa using hb
    have := h6.1 hb' k c hk1 hk2 hc himm
    rw [hkc] at this
    exact Bool.noConfusion this

/-- C8, amended, on a pass over an activate command that does not keep content
and a scroll command: the flag is `false`. -/
theorem replayCommandsFrom_flush_witness :
    ∃ ctrl ps,
      replayCommandsFrom sampleResolve 1
          { m_list := [sampleActivate 1, sampleActivate 2, sampleScroll 1], m_iterator := 3 } =
        .ok (ctrl, List.filterMap
          (replayedAt sampleResolve 3 [sampleActivate 1, sampleActivate 2, sampleScroll 1]) ps ++
          [Effect.flushUpdates false]) := by
  obtain ⟨ctrl, ps, b, h1, h2⟩ :=
    replayCommandsFrom_flush sampleResolve 1
      { m_list := [sampleActivate 1, sampleActivate 2, sampleScroll 1], m_iterator := 3 }
      (by decide) (by decide)
  have hb : b = false := h2.2 ⟨1, sampleActivate 2, by decide, by decide, rfl, by decide, rfl⟩
  subst hb
  exact ⟨ctrl, ps, h1⟩

/-! ## Parsing finished -/

theorem finishedParsingCommand_eq (c : Command) :
    finishedParsingCommand c =
      if survivesParsing c = true then
        some { c with message := c.message.clearFromSearch.setIsReplayCleared true }
      else none := by
  obtain ⟨⟨p, a, b, d, e⟩, o, r⟩ := c
  by_cases ho : o = .ORDER_ACTIVATE
  · cases p with
    | ActivateTokens tokenIds tokenNames searchMatches isEdge isAggregation isFromSearch =>
      cases isAggregation <;>
        simp [finishedParsingCommand, survivesParsing, ho, Message.isAggregationTokens,
          Message.clearFromSearch, Message.setIsReplayCleared]
    | _ =>
      simp [finishedParsingCommand, survivesParsing, ho, Message.isAggregationTokens,
        Message.clearFromSearch, Message.setIsReplayCleared]
  · simp [finishedParsingCommand, survivesParsing, ho]

/-- C9: `handleMessage(MessageFinishedParsing*)` keeps, in their order, the
commands with `ORDER_ACTIVATE` that are not aggregation token activations, sets
`isReplayCleared` on each of them and resets `isFromSearch` on the token
activations among them, and puts the cursor at the end. -/
theorem handleMessageFinishedParsing_rewrite (s : UndoRedoController) :
    (handleMessageFinishedParsing s).1.m_list =
      (s.m_list.filter survivesParsing).map
        (fun c => { c with message := c.message.clearFromSearch.setIsReplayCleared true }) ∧
    (handleMessageFinishedParsing s).1.m_iterator =
      (handleMessageFinishedParsing s).1.m_list.length ∧
    (∀ c ∈ (handleMessageFinishedParsing s).1.m_list,
      c.order = .ORDER_ACTIVATE ∧ c.message.m_isReplayCleared = true ∧
      ∀ tokenIds tokenNames searchMatches isEdge isAggregation isFromSearch,
        c.message.payload =
            .ActivateTokens tokenIds tokenNames searchMatches isEdge isAggregation isFromSearch →
          isAggregation = false ∧ isFromSearch = false) ∧
    (handleMessageFinishedParsing s).2 = [] := by
  have hlist : (handleMessageFinishedParsing s).1.m_list =
      (s.m_list.filter survivesParsing).map
        (fun c => { c with message := c.message.clearFromSearch.setIsReplayCleared true }) := by
    simp only [handleMessageFinishedParsing]
    induction s.m_list with
    | nil => rfl
    | cons c rest ih =>
      rw [List.filterMap_cons, finishedParsingCommand_eq, List.filter_cons]
      by_cases h : survivesParsing c = true
      · simp only [h, if_true, List.map_cons, ih]
      · simp only [h, if_false, ih]
        rfl
  refine ⟨hlist, rfl, ?_, rfl⟩
  rw [hlist]
  intro c hc
  obtain ⟨c0, hc0, rfl⟩ := List.mem_map.1 hc
  have hs : survivesParsing c0 = true := (List.mem_filter.1 hc0).2
  obtain ⟨⟨p, a, b, d, e⟩, o, r⟩ := c0
  simp only [survivesParsing, Bool.and_eq_true, decide_eq_true_eq, Bool.not_eq_true'] at hs
  refine ⟨hs.1, rfl, ?_⟩
  cases p <;>
    simp_all [Message.clearFromSearch, Message.setIsReplayCleared, Message.isAggregationTokens]

/-- C9 on an aggregation activation, a plain activation, a view command and an
adapt command: the plain activation alone stays. -/
theorem handleMessageFinishedParsing_witness :
    (handleMessageFinishedParsing
        { m_list :=
            [ { message := sampleMessage (.ActivateTokens [1] [1] [] false true true) false,
                order := .ORDER_ACTIVATE, replayLastOnly := false },
              { message := sampleMessage (.ActivateTokens [2] [2] [] false false true) false,
                order := .ORDER_ACTIVATE, replayLastOnly := false },
              sampleScroll 1, sampleAdapt ],
          m_iterator := 2 }).1.m_list =
      [ { message := ⟨.ActivateTokens [2] [2] [] false false false, false, false, true, false⟩,
          order := .ORDER_ACTIVATE, replayLastOnly := false } ] :=
  (handleMessageFinishedParsing_rewrite _).1.trans rfl

/-! ## Replayed events -/

/-- A replayed event of a kind that does not coalesce leaves the controller as
it is. -/
theorem handleMessage_replayed (message : Message) (s : UndoRedoController)
    (h : message.isReplayed = true)
    (hty : message.getType ≠ .ScrollCode ∧ message.getType ≠ .ScrollGraph ∧
      message.getType ≠ .ActivateLocalSymbols) :
    handleMessage message s = (s, []) := by
  obtain ⟨p, a, b, d, e⟩ := message
  cases p <;> simp_all [handleMessage, processCommand, Message.isReplayed, Message.getType]

/-- C10: a replayed `MessageScrollCode` with value 7 that arrives when the
command left of the cursor is a scroll command with value 3 overwrites that
value: the test on line 200 comes before the test of `isReplayed()` in
`processCommand`. -/
theorem handleMessage_replayed_scroll_overwrites :
    handleMessage ⟨.ScrollCode 7, true, false, false, false⟩
        { m_list := [sampleActivate 1, sampleScroll 3], m_iterator := 2 } =
      ({ m_list := [sampleActivate 1, sampleScroll 7], m_iterator := 2 }, []) := by
  decide

/-! ## Events and reachable states -/

/-- The element after a prefix `l` is at position `l.length`. -/
theorem getElem?_middle (l rest : List Command) (c : Command) :
    (l ++ c :: rest)[l.length]? = some c := by
  induction l with
  | nil => simp
  | cons a l ih => simpa using ih

/-- Writing the element after a prefix `l`. -/
theorem set_middle (l rest : List Command) (c c' : Command) :
    (l ++ c :: rest).set l.length c' = l ++ c' :: rest := by
  induction l with
  | nil => simp
  | cons a l ih => simpa using ih

/-- The message left of the cursor after a command was put in. -/
theorem lastMessage_insert (l rest : List Command) (c : Command) :
    lastMessage { m_list := l ++ c :: rest, m_iterator := l.length + 1 } = some c.message := by
  simp only [lastMessage, getElem?_middle, Option.map_some']

/-- The handler of a scroll event that is not replayed, when the cursor is not
at the start and the command left of it is not a scroll command: a new view
command with `replayLastOnly` goes in at the cursor. -/
theorem handleMessage_scrollCode_append (e : Message) (v : Int) (s : UndoRedoController)
    (hpos : 0 < s.m_iterator)
    (hlast : ∀ m, lastMessage s = some m → m.getType ≠ .ScrollCode)
    (he : e.payload = .ScrollCode v) (hrep : e.isReplayed = false) :
    handleMessage e s =
      ({ m_list := s.m_list.take s.m_iterator ++
            { message := e, order := .ORDER_VIEW, replayLastOnly := true } ::
              s.m_list.drop s.m_iterator,
         m_iterator := s.m_iterator + 1 }, []) := by
  have hty : e.getType = .ScrollCode := by simp [Message.getType, he]
  have hsame : sameMessageTypeAsLast s e = false := by
    unfold sameMessageTypeAsLast
    split_ifs
    · rfl
    · cases hl : lastMessage s with
      | none => rfl
      | some m =>
        have := hlast m hl
        simp [hty, this]
  have hne : s.m_iterator ≠ 0 := by omega
  simp [handleMessage, he, hsame, processCommand, hrep, hne, insert]

/-- C11: with the cursor not at the start and the command left of it not a
scroll command, two scroll events that are not replayed, with values `v1` and
then `v2`, leave one new command in the list: a view command with
`replayLastOnly`, made from the first event and holding the value `v2`, just
left of the cursor; the commands that were left and right of the cursor stay as
they are. -/
theorem handleMessage_scrollCode_twice (e1 e2 : Message) (v1 v2 : Int)
    (s : UndoRedoController) (hwf : s.WF)
    (hpos : 0 < s.m_iterator)
    (hlast : ∀ m, lastMessage s = some m → m.getType ≠ .ScrollCode)
    (he1 : e1.payload = .ScrollCode v1) (hrep1 : e1.isReplayed = false)
    (he2 : e2.payload = .ScrollCode v2) (_hrep2 : e2.isReplayed = false) :
    (handleMessage e2 (handleMessage e1 s).1).1 =
      { m_list := s.m_list.take s.m_iterator ++
          { message := { e1 with payload := .ScrollCode v2 }, order := .ORDER_VIEW,
            replayLastOnly := true } :: s.m_list.drop s.m_iterator,
        m_iterator := s.m_iterator + 1 } := by
  have hwf' : s.m_iterator ≤ s.m_list.length := hwf
  have hlen : (s.m_list.take s.m_iterator).length = s.m_iterator := by simp [hwf']
  rw [handleMessage_scrollCode_append e1 v1 s hpos hlast he1 hrep1]
  have hl : lastMessage
      { m_list := s.m_list.take s.m_iterator ++
          { message := e1, order := .ORDER_VIEW, replayLastOnly := true } ::
            s.m_list.drop s.m_iterator,
        m_iterator := s.m_iterator + 1 } = some e1 := by
    have := lastMessage_insert (s.m_list.take s.m_iterator) (s.m_list.drop s.m_iterator)
      { message := e1, order := .ORDER_VIEW, replayLastOnly := true }
    rw [hlen] at this
    exact this
  have hty1 : e1.getType = .ScrollCode := by simp [Message.getType, he1]
  have hty2 : e2.getType = .ScrollCode := by simp [Message.getType, he2]
  have hsame : sameMessageTypeAsLast
      { m_list := s.m_list.take s.m_iterator ++
          { message := e1, order := .ORDER_VIEW, replayLastOnly := true } ::
            s.m_list.drop s.m_iterator,
        m_iterator := s.m_iterator + 1 } e2 = true := by
    unfold sameMessageTypeAsLast
    rw [hl]
    simp [hty1, hty2]
  have hget := getElem?_middle (s.m_list.take s.m_iterator) (s.m_list.drop s.m_iterator)
    { message := e1, order := .ORDER_VIEW, replayLastOnly := true }
  have hset := set_middle (s.m_list.take s.m_iterator) (s.m_list.drop s.m_iterator)
    { message := e1, order := .ORDER_VIEW, replayLastOnly := true }
    { message := { e1 with payload := .ScrollCode v2 }, order := .ORDER_VIEW,
      replayLastOnly := true }
  rw [hlen] at hget hset
  simp only [handleMessage, he2, hsame, if_true, Nat.add_sub_cancel, updateMessage, hget, he1,
    hset]

/-- The command that `processCommand` puts into the list for a message that
came with `ORDER_ACTIVATE`. -/
theorem processCommand_activate_at_end (m : Message) (s : UndoRedoController)
    (hend : s.m_iterator = s.m_list.length) (hrep : m.isReplayed = false) :
    (processCommand { message := m, order := .ORDER_ACTIVATE, replayLastOnly := false } s).1 =
      { m_list := s.m_list ++
          [{ message := m,
             order := if m.keepContent = true then .ORDER_ADAPT else .ORDER_ACTIVATE,
             replayLastOnly := false }],
        m_iterator := s.m_list.length + 1 } := by
  obtain ⟨l, it⟩ := s
  simp only at hend
  subst hend
  by_cases hk : m.keepContent = true
  · simp [processCommand, hrep, hk, erase, insert, scanToActivate]
  · simp [processCommand, hrep, hk, erase, insert]

/-- When `sameMessageTypeAsLast` holds there is a message left of the cursor
and it has the type of the argument. -/
theorem sameMessageTypeAsLast_true (s : UndoRedoController) (m : Message)
    (h : sameMessageTypeAsLast s m = true) :
    ∃ last, lastMessage s = some last ∧ last.getType = m.getType := by
  unfold sameMessageTypeAsLast at h
  split_ifs at h
  cases hl : lastMessage s with
  | none => rw [hl] at h; exact absurd h (by simp)
  | some last => rw [hl] at h; exact ⟨last, rfl, by simpa using h⟩

theorem repeatsMessage_activateAll (last : Message) (a b d e : Bool)
    (h : last.getType = .ActivateAll) :
    repeatsMessage last ⟨.ActivateAll, a, b, d, e⟩ = true := by
  obtain ⟨lp, la, lb, ld, le⟩ := last
  cases lp <;> simp [Message.getType] at h
  rfl

theorem repeatsMessage_activateTokens (last : Message) (tokenIds tokenNames searchMatches : List Nat)
    (isEdge isAggregation isFromSearch a b d e : Bool)
    (h : (match Option.map Message.payload (some last) with
      | some (.ActivateTokens lastIds _ _ _ _ _) => decide (lastIds = tokenIds)
      | _ => false) = true) :
    repeatsMessage last
      ⟨.ActivateTokens tokenIds tokenNames searchMatches isEdge isAggregation isFromSearch,
        a, b, d, e⟩ = true := by
  obtain ⟨lp, la, lb, ld, le⟩ := last
  cases lp <;> simp at h
  simp [repeatsMessage, h]

theorem repeatsMessage_searchFullText (last : Message) (searchTerm : String)
    (caseSensitive a b d e : Bool)
    (h : (match Option.map Message.payload (some last) with
      | some (.SearchFullText lastTerm lastCase) =>
        decide (lastTerm = searchTerm) && decide (lastCase = caseSensitive)
      | _ => false) = true) :
    repeatsMessage last ⟨.SearchFullText searchTerm caseSensitive, a, b, d, e⟩ = true := by
  obtain ⟨lp, la, lb, ld, le⟩ := last
  cases lp <;> simp at h
  simp [repeatsMessage, h]

theorem repeatsMessage_showErrors (last : Message) (errorId : Nat) (a b d e : Bool)
    (h : (match Option.map Message.payload (some last) with
      | some (.ShowErrors lastId) => decide (lastId = errorId)
      | _ => false) = true) :
    repeatsMessage last ⟨.ShowErrors errorId, a, b, d, e⟩ = true := by
  obtain ⟨lp, la, lb, ld, le⟩ := last
  cases lp <;> simp at h
  simp [repeatsMessage, h]

/-- A message of an activating class that does not repeat the message left of
the cursor goes to `processCommand`. -/
theorem handleMessage_activate_fresh (m : Message) (s : UndoRedoController)
    (hact : isActivateEvent m = true)
    (hfresh : ∀ last, lastMessage s = some last → repeatsMessage last m = false) :
    handleMessage m s =
      processCommand { message := m, order := .ORDER_ACTIVATE, replayLastOnly := false } s := by
  obtain ⟨p, a, b, d, e⟩ := m
  cases p with
  | ActivateAll =>
    simp only [handleMessage]
    rw [if_neg]
    intro hcond
    obtain ⟨last, hl, hty⟩ := sameMessageTypeAsLast_true s _ hcond
    have := repeatsMessage_activateAll last a b d e hty
    rw [hfresh last hl] at this
    exact Bool.noConfusion this
  | ActivateTokens tokenIds tokenNames searchMatches isEdge isAggregation isFromSearch =>
    have he : isEdge = false := by simpa [isActivateEvent] using hact
    subst he
    simp only [handleMessage, Bool.false_eq_true, if_false]
    rw [if_neg]
    intro hcond
    simp only [Bool.and_eq_true] at hcond
    obtain ⟨last, hl, _⟩ := sameMessageTypeAsLast_true s _ hcond.1
    rw [hl] at hcond
    have := repeatsMessage_activateTokens last tokenIds tokenNames searchMatches false
      isAggregation isFromSearch a b d e hcond.2
    rw [hfresh last hl] at this
    exact Bool.noConfusion this
  | SearchFullText searchTerm caseSensitive =>
    simp only [handleMessage]
    rw [if_neg]
    intro hcond
    simp only [Bool.and_eq_true] at hcond
    obtain ⟨last, hl, _⟩ := sameMessageTypeAsLast_true s _ hcond.1
    rw [hl] at hcond
    have := repeatsMessage_searchFullText last searchTerm caseSensitive a b d e
      (by simpa only [Bool.and_eq_true] using hcond.2)
    rw [hfresh last hl] at this
    exact Bool.noConfusion this
  | ShowErrors errorId =>
    simp only [handleMessage]
    rw [if_neg]
    intro hcond
    simp only [Bool.and_eq_true] at hcond
    obtain ⟨last, hl, _⟩ := sameMessageTypeAsLast_true s _ hcond.1
    rw [hl] at hcond
    have := repeatsMessage_showErrors last errorId a b d e hcond.2
    rw [hfresh last hl] at this
    exact Bool.noConfusion this
  | _ => exact absurd hact (by simp [isActivateEvent])

/-- A message of an activating class is dropped or goes to `processCommand`. -/
theorem handleMessage_activate_any (m : Message) (s : UndoRedoController)
    (hact : isActivateEvent m = true) :
    handleMessage m s = (s, []) ∨
    handleMessage m s =
      processCommand { message := m, order := .ORDER_ACTIVATE, replayLastOnly := false } s := by
  obtain ⟨p, a, b, d, e⟩ := m
  cases p with
  | ActivateAll =>
    simp only [handleMessage]
    split_ifs
    · exact Or.inl rfl
    · exact Or.inr rfl
  | ActivateTokens tokenIds tokenNames searchMatches isEdge isAggregation isFromSearch =>
    have he : isEdge = false := by simpa [isActivateEvent] using hact
    subst he
    simp only [handleMessage, Bool.false_eq_true, if_false]
    split_ifs
    · exact Or.inl rfl
    · exact Or.inr rfl
  | SearchFullText searchTerm caseSensitive =>
    simp only [handleMessage]
    split_ifs
    · exact Or.inl rfl
    · exact Or.inr rfl
  | ShowErrors errorId =>
    simp only [handleMessage]
    split_ifs
    · exact Or.inl rfl
    · exact Or.inr rfl
  | _ => exact absurd hact (by simp [isActivateEvent])

/-- Activating events that are not replayed, handled from a state with the
cursor at the end: the cursor stays at the end, each event adds at most one
command, and exactly one when no event repeats the one before it. -/
theorem handleMessages_activate :
    ∀ (events : List Message) (s : UndoRedoController),
      s.m_iterator = s.m_list.length →
      (∀ m ∈ events, isActivateEvent m = true ∧ m.isReplayed = false) →
      (handleMessages events s).m_iterator = (handleMessages events s).m_list.length ∧
      (handleMessages events s).m_list.length ≤ s.m_list.length + events.length ∧
      (events.Chain' (fun a b => repeatsMessage a b = false) →
        (∀ m last, events.head? = some m → lastMessage s = some last →
          repeatsMessage last m = false) →
        (handleMessages events s).m_list.length = s.m_list.length + events.length) := by
  intro events
  induction events with
  | nil =>
    intro s hend _
    exact ⟨hend, le_refl _, fun _ _ => rfl⟩
  | cons m rest ih =>
    intro s hend hall
    have hm := hall m (List.mem_cons_self _ _)
    have hrest : ∀ m' ∈ rest, isActivateEvent m' = true ∧ m'.isReplayed = false :=
      fun m' h => hall m' (List.mem_cons_of_mem _ h)
    have hstep : handleMessages (m :: rest) s = handleMessages rest (handleMessage m s).1 := rfl
    have happ := processCommand_activate_at_end m s hend hm.2
    rw [hstep]
    rcases handleMessage_activate_any m s hm.1 with h | h
    · rw [h]
      obtain ⟨i1, i2, _⟩ := ih s hend hrest
      refine ⟨i1, ?_, ?_⟩
      · simp only [List.length_cons]
        omega
      · intro _ hhead
        have hfresh : ∀ last, lastMessage s = some last → repeatsMessage last m = false :=
          fun last hl => hhead m last rfl hl
        have h2 := handleMessage_activate_fresh m s hm.1 hfresh
        rw [h] at h2
        have h3 := congrArg (fun r => r.1.m_list.length) h2
        simp only [happ, List.length_append, List.length_singleton] at h3
        omega
    · rw [h, happ]
      obtain ⟨i1, i2, i3⟩ := ih
        { m_list := s.m_list ++
            [{ message := m,
               order := if m.keepContent = true then .ORDER_ADAPT else .ORDER_ACTIVATE,
               replayLastOnly := false }],
          m_iterator := s.m_list.length + 1 } (by simp) hrest
      refine ⟨i1, ?_, ?_⟩
      · simp only [List.length_append, List.length_cons, List.length_nil] at i2 ⊢
        omega
      · intro hchain _
        have hlast : ∀ last, lastMessage
            { m_list := s.m_list ++
                [{ message := m,
                   order := if m.keepContent = true then .ORDER_ADAPT else .ORDER_ACTIVATE,
                   replayLastOnly := false }],
              m_iterator := s.m_list.length + 1 } = some last → last = m := by
          intro last hl
          rw [lastMessage_insert] at hl
          exact (Option.some.inj hl).symm
        have := i3 (List.Chain'.tail hchain) (by
          intro m2 last hm2 hl
          rw [hlast last hl]
          cases rest with
          | nil => simp at hm2
          | cons x xs =>
            simp only [List.head?_cons, Option.some.injEq] at hm2
            subst hm2
            exact (List.chain'_cons.1 hchain).1)
        simp only [List.length_append, List.length_cons, List.length_nil] at this ⊢
        omega

/-- C12 as stated fails: of two activate all events handled from the empty log
the second is dropped, so the log holds one command. -/
theorem activate_events_repeat_dropped :
    (∀ m ∈ [sampleMessage .ActivateAll false, sampleMessage .ActivateAll false],
      isActivateEvent m = true ∧ m.isReplayed = false) ∧
    (handleMessages [sampleMessage .ActivateAll false, sampleMessage .ActivateAll false]
      init).m_list.length = 1 := by
  decide

/-- C12, amended: after activating events that are not replayed, handled from the
empty log, the cursor is at the end of the log and the log holds at most as
many commands as there were events, and exactly as many when no event repeats
the event before it. -/
theorem activate_events_count (events : List Message)
    (h : ∀ m ∈ events, isActivateEvent m = true ∧ m.isReplayed = false) :
    (handleMessages events init).m_iterator = (handleMessages events init).m_list.length ∧
    (handleMessages events init).m_list.length ≤ events.length ∧
    (events.Chain' (fun a b => repeatsMessage a b = false) →
      (handleMessages events init).m_list.length = events.length) := by
  obtain ⟨h1, h2, h3⟩ := handleMessages_activate events init rfl h
  refine ⟨h1, by simpa [init] using h2, fun hc => ?_⟩
  have := h3 hc (by intro m last _ hl; simp [lastMessage, init] at hl)
  simpa [init] using this

/-- C12, amended, on three activating events of which none repeats the one
before it: three commands. -/
theorem activate_events_count_witness :
    (handleMessages [sampleMessage .ActivateAll false, sampleMessage (.ShowErrors 1) false,
      sampleMessage (.ShowErrors 2) true] init).m_list.length = 3 :=
  (activate_events_count
    [sampleMessage .ActivateAll false, sampleMessage (.ShowErrors 1) false,
      sampleMessage (.ShowErrors 2) true] (by decide)).2.2
    (by simp [repeatsMessage, sampleMessage])

/-- C13 as stated fails: an adapt command put in with the cursor after the first
of four commands removes the scroll command right of the cursor, and the
activate command after it and the scroll command that follows stay. -/
theorem processCommand_adapt_keeps_activate :
    (1 ≠ [sampleActivate 1, sampleScroll 1, sampleActivate 2, sampleScroll 2].length ∧
      sampleAdapt.message.isReplayed = false ∧ sampleAdapt.order = .ORDER_ADAPT) ∧
    (processCommand sampleAdapt
        { m_list := [sampleActivate 1, sampleScroll 1, sampleActivate 2, sampleScroll 2],
          m_iterator := 1 }).1 =
      { m_list := [sampleActivate 1, sampleAdapt, sampleActivate 2, sampleScroll 2],
        m_iterator := 2 } := by
  decide

/-- The state after `processCommand` on a command whose final order is
`ORDER_ACTIVATE`. -/
theorem processCommand_final_activate (message : Message) (replayLastOnly : Bool)
    (s : UndoRedoController) (hwf : s.m_iterator ≤ s.m_list.length)
    (hrep : message.isReplayed = false) (hkeep : message.keepContent = false) :
    (processCommand ⟨message, .ORDER_ACTIVATE, replayLastOnly⟩ s).1 =
      ⟨s.m_list.take s.m_iterator ++ ⟨message, .ORDER_ACTIVATE, replayLastOnly⟩ :: [],
        s.m_iterator + 1⟩ := by
  simp [processCommand, hrep, hkeep, insert_erase _ _ _ _ hwf]

/-- The state after `processCommand` on a command whose final order is
`ORDER_ADAPT`. -/
theorem processCommand_final_adapt (message : Message) (order : Order) (replayLastOnly : Bool)
    (s : UndoRedoController) (hwf : s.m_iterator ≤ s.m_list.length)
    (hrep : message.isReplayed = false)
    (hord : (order = .ORDER_ADAPT ∧ s.m_iterator ≠ 0) ∨
      (order = .ORDER_ACTIVATE ∧ message.keepContent = true)) :
    (processCommand ⟨message, order, replayLastOnly⟩ s).1 =
      ⟨s.m_list.take s.m_iterator ++ ⟨message, .ORDER_ADAPT, replayLastOnly⟩ ::
          (s.m_list.drop s.m_iterator).dropWhile (fun c => decide (c.order ≠ .ORDER_ACTIVATE)),
        s.m_iterator + 1⟩ := by
  rcases hord with ⟨h1, h2⟩ | ⟨h1, h2⟩
  · subst h1
    simp [processCommand, hrep, h2, insert_erase _ _ _ _ hwf, drop_scanToActivate]
  · subst h1
    simp [processCommand, hrep, h2, insert_erase _ _ _ _ hwf, drop_scanToActivate]

/-- C13, amended: after `processCommand` on a command that is not replayed and
whose final order is not `ORDER_VIEW`, the commands left of the new cursor are
the ones that were left of the cursor and the new command; right of the new
cursor there is nothing when the final order is `ORDER_ACTIVATE`, and when it is
`ORDER_ADAPT` there are the commands that were right of the cursor from the
first one with `ORDER_ACTIVATE` on. -/
theorem processCommand_right_of_cursor (command : Command) (s : UndoRedoController)
    (hwf : s.WF)
    (hrep : command.message.isReplayed = false)
    (hord : (command.order = .ORDER_ACTIVATE ∧ command.message.keepContent = false) ∨
      (command.order = .ORDER_ADAPT ∧ s.m_iterator ≠ 0) ∨
      (command.order = .ORDER_ACTIVATE ∧ command.message.keepContent = true)) :
    (processCommand command s).1.m_iterator = s.m_iterator + 1 ∧
    (processCommand command s).1.m_list.take (s.m_iterator + 1) =
      s.m_list.take s.m_iterator ++
        [{ command with
            order := if command.order = .ORDER_ACTIVATE ∧ command.message.keepContent = false
              then .ORDER_ACTIVATE else .ORDER_ADAPT }] ∧
    (processCommand command s).1.m_list.drop (s.m_iterator + 1) =
      if command.order = .ORDER_ACTIVATE ∧ command.message.keepContent = false then []
      else (s.m_list.drop s.m_iterator).dropWhile (fun c => decide (c.order ≠ .ORDER_ACTIVATE)) := by
  have hwf' : s.m_iterator ≤ s.m_list.length := hwf
  have hlen : (s.m_list.take s.m_iterator).length = s.m_iterator := by simp [hwf']
  obtain ⟨message, order, replayLastOnly⟩ := command
  simp only at hrep hord ⊢
  have hsplit : ∀ (c : Command) (rest : List Command),
      (s.m_list.take s.m_iterator ++ c :: rest).take (s.m_iterator + 1) =
        s.m_list.take s.m_iterator ++ [c] ∧
      (s.m_list.take s.m_iterator ++ c :: rest).drop (s.m_iterator + 1) = rest := by
    intro c rest
    constructor
    · rw [List.take_append_eq_append_take, hlen]
      simp [List.take_take]
    · rw [List.drop_append_eq_append_drop, hlen]
      simp [List.drop_take]
  rcases hord with ⟨h1, h2⟩ | hord
  · subst h1
    rw [processCommand_final_activate message replayLastOnly s hwf' hrep h2]
    simp only [h2, and_self, if_true]
    exact ⟨trivial, (hsplit _ _).1, (hsplit _ _).2⟩
  · rw [processCommand_final_adapt message order replayLastOnly s hwf' hrep hord]
    have hn : ¬ (order = .ORDER_ACTIVATE ∧ message.keepContent = false) := by
      rcases hord with ⟨h1, _⟩ | ⟨_, h2⟩
      · rw [h1]; simp
      · rw [h2]; simp
    simp only [hn, if_false]
    exact ⟨trivial, (hsplit _ _).1, (hsplit _ _).2⟩

/-- C13, amended, on an activate command put in with the cursor after the first
of four commands: nothing is right of the new cursor. -/
theorem processCommand_right_of_cursor_witness :
    (processCommand (sampleActivate 3)
        { m_list := [sampleActivate 1, sampleScroll 1, sampleActivate 2, sampleScroll 2],
          m_iterator := 1 }).1.m_list.drop 2 = [] :=
  (processCommand_right_of_cursor (sampleActivate 3)
    { m_list := [sampleActivate 1, sampleScroll 1, sampleActivate 2, sampleScroll 2],
      m_iterator := 1 } (by decide) rfl (Or.inl ⟨rfl, rfl⟩)).2.2.trans rfl

theorem Message.restoreKeepContent (m : Message) :
    ((m.setIsReplayed false).setKeepContent true).setKeepContent m.keepContent =
      m.setIsReplayed false := by
  obtain ⟨p, a, b, d, e⟩ := m
  rfl

theorem sameCommands_set_isReplayed (l : List Command) (it : Nat) (c : Command)
    (hc : l[it]? = some c) (b : Bool) :
    sameCommands l (l.set it { c with message := c.message.setIsReplayed b }) := by
  unfold sameCommands
  apply List.ext_getElem?
  intro k
  rw [List.getElem?_map, List.getElem?_map]
  by_cases hk : it = k
  · subst hk
    rw [List.getElem?_set_self (List.getElem?_eq_some.1 hc).1, hc]
    rfl
  · rw [List.getElem?_set_ne hk]

/-- The handler `handleMessage(MessageDeactivateEdge*)` on a state whose cursor is
in the list or at its end. -/
theorem handleMessageDeactivateEdge_post (s : UndoRedoController) (hwf : s.WF) :
    (s.m_iterator = 0 → handleMessageDeactivateEdge s = .ok (s, [])) ∧
    (0 < s.m_iterator →
      ∃ (it : Nat) (c : Command) (m : Message) (ctrl : UndoRedoController),
        it < s.m_iterator ∧
        (it = 0 ∨ orderAt s.m_list it = some .ORDER_ACTIVATE) ∧
        (∀ k, it < k → k < s.m_iterator → orderAt s.m_list k ≠ some .ORDER_ACTIVATE) ∧
        s.m_list[it]? = some c ∧
        handleMessageDeactivateEdge s = .ok (ctrl, [Effect.dispatch m]) ∧
        m = (c.message.setIsReplayed false).setKeepContent true ∧
        m.payload = c.message.payload ∧ m.isReplayed = false ∧ m.keepContent = true ∧
        ctrl.m_iterator = s.m_iterator ∧
        ctrl.m_list = s.m_list.set it { c with message := c.message.setIsReplayed false } ∧
        sameCommands s.m_list ctrl.m_list ∧
        (∀ c', ctrl.m_list[it]? = some c' →
          c'.message.keepContent = c.message.keepContent)) := by
  constructor
  · intro h
    simp [handleMessageDeactivateEdge, h]
  · intro hpos
    obtain ⟨it, h1, h2, h3, h4⟩ := scanBackToActivate_post s.m_list s.m_iterator hpos hwf
    have hwf' : s.m_iterator ≤ s.m_list.length := hwf
    have hlen : it < s.m_list.length := by omega
    have hc : s.m_list[it]? = some (s.m_list[it]) := List.getElem?_eq_getElem hlen
    have hne : ¬ s.m_iterator = 0 := by omega
    refine ⟨it, s.m_list[it], ((s.m_list[it]).message.setIsReplayed false).setKeepContent true,
      ⟨s.m_list.set it { s.m_list[it] with
        message := (s.m_list[it]).message.setIsReplayed false }, s.m_iterator⟩,
      h2, h3, h4, hc, ?_, rfl, rfl, rfl, rfl, rfl, rfl,
      sameCommands_set_isReplayed s.m_list it _ hc false, ?_⟩
    · simp only [handleMessageDeactivateEdge, hne, if_false, h1, bind, Except.bind, deref, hc,
        Message.restoreKeepContent]
    · intro c' hc'
      simp only [List.getElem?_set_self hlen, Option.some.injEq] at hc'
      rw [← hc']
      rfl

/-- C14: `handleMessage(MessageDeactivateEdge*)` does nothing when the cursor is at
the start; otherwise it dispatches one message, that of the nearest command
left of the cursor with `ORDER_ACTIVATE` (or of the first command), not
replayed and keeping content; commands and cursor stay, and the keep-content
flag of that command is afterwards what it was. -/
theorem handleMessageDeactivateEdge_peek (s : UndoRedoController) (hwf : s.WF) :
    (s.m_iterator = 0 → handleMessageDeactivateEdge s = .ok (s, [])) ∧
    (0 < s.m_iterator →
      ∃ (it : Nat) (c : Command) (m : Message) (ctrl : UndoRedoController),
        it < s.m_iterator ∧
        (it = 0 ∨ orderAt s.m_list it = some .ORDER_ACTIVATE) ∧
        (∀ k, it < k → k < s.m_iterator → orderAt s.m_list k ≠ some .ORDER_ACTIVATE) ∧
        s.m_list[it]? = some c ∧
        handleMessageDeactivateEdge s = .ok (ctrl, [Effect.dispatch m]) ∧
        m = (c.message.setIsReplayed false).setKeepContent true ∧
        m.payload = c.message.payload ∧ m.isReplayed = false ∧ m.keepContent = true ∧
        ctrl.m_iterator = s.m_iterator ∧
        ctrl.m_list = s.m_list.set it { c with message := c.message.setIsReplayed false } ∧
        sameCommands s.m_list ctrl.m_list ∧
        (∀ c', ctrl.m_list[it]? = some c' →
          c'.message.keepContent = c.message.keepContent)) :=
  handleMessageDeactivateEdge_post s hwf

/-- C14 on a list of four commands with the cursor after the third: the message
of the second command, an activate command, is dispatched. -/
theorem handleMessageDeactivateEdge_peek_witness :
    ∃ ctrl,
      handleMessageDeactivateEdge
          { m_list := [sampleActivate 1, sampleActivate 2, sampleScroll 1, sampleActivate 3],
            m_iterator := 3 } =
        .ok (ctrl, [Effect.dispatch ⟨.ShowErrors 2, false, false, false, true⟩]) ∧
      ctrl.m_iterator = 3 := by
  obtain ⟨_, hmove⟩ := handleMessageDeactivateEdge_peek
    { m_list := [sampleActivate 1, sampleActivate 2, sampleScroll 1, sampleActivate 3],
      m_iterator := 3 } (by decide)
  obtain ⟨it, c, m, ctrl, _, _, _, _, h5, _, _, _, _, h10, _⟩ := hmove (by decide)
  have hcomp : handleMessageDeactivateEdge
      { m_list := [sampleActivate 1, sampleActivate 2, sampleScroll 1, sampleActivate 3],
        m_iterator := 3 } =
      .ok ({ m_list := [sampleActivate 1, sampleActivate 2, sampleScroll 1, sampleActivate 3],
             m_iterator := 3 },
        [Effect.dispatch ⟨.ShowErrors 2, false, false, false, true⟩]) := rfl
  have he := h5.symm.trans hcomp
  simp only [Except.ok.injEq, Prod.mk.injEq] at he
  exact ⟨ctrl, by rw [h5, he.2], h10⟩

/-- C15: the state reached from the empty log by an activate all event and a
scroll event holds an activate command and a view command with the cursor at
the end; there the second backward scan of `handleMessage(MessageUndo*)` steps
back from `begin()`. -/
theorem undo_reads_before_begin :
    ∃ s,
      run sampleResolve
          [Event.message (sampleMessage .ActivateAll false),
            Event.message (sampleMessage (.ScrollCode 1) false)] init = .ok s ∧
      s.m_list.map Command.order = [.ORDER_ACTIVATE, .ORDER_VIEW] ∧
      s.m_iterator = 2 ∧
      handleMessageUndo sampleResolve s = .error .beforeBegin :=
  ⟨_, rfl, rfl, rfl, rfl⟩

/-- C19: an event of a class whose command has `ORDER_VIEW` or `ORDER_ADAPT`,
handled with the cursor at the start of the list, changes nothing. -/
theorem handleMessage_at_start_discards (message : Message) (s : UndoRedoController)
    (hstart : s.m_iterator = 0) (hkind : isViewOrAdaptEvent message = true) :
    handleMessage message s = (s, []) := by
  have hsame : ∀ m', sameMessageTypeAsLast s m' = false := by
    intro m'
    simp [sameMessageTypeAsLast, hstart]
  obtain ⟨p, a, b, d, e⟩ := message
  cases p <;>
    simp_all [handleMessage, processCommand, isViewOrAdaptEvent]

/-- C19 on a scroll event with the cursor at the start. -/
theorem handleMessage_at_start_discards_witness :
    handleMessage (sampleMessage (.ScrollCode 5) false)
        { m_list := [sampleActivate 1], m_iterator := 0 } =
      ({ m_list := [sampleActivate 1], m_iterator := 0 }, []) :=
  handleMessage_at_start_discards (sampleMessage (.ScrollCode 5) false)
    { m_list := [sampleActivate 1], m_iterator := 0 } rfl rfl

theorem isImmediateAt_iff (l : List Command) (k : Nat) :
    isImmediateAt l k = true ↔
      ∃ c, l[k]? = some c ∧ (c.order ≠ .ORDER_VIEW ∨ c.replayLastOnly = false) := by
  unfold isImmediateAt
  cases l[k]? with
  | none => simp
  | some c => simp [Command.immediate]

theorem replayedMessage_isReplayed (resolve : List Nat → List Nat) (cursor k : Nat) (m : Message) :
    (replayedMessage resolve cursor k m).isReplayed = true := by
  obtain ⟨p, a, b, c, d⟩ := m
  cases p <;> simp only [replayedMessage, Message.setIsReplayed, Message.setIsLast,
    Message.isReplayed] <;> (try split_ifs) <;> rfl

theorem replayedMessage_isLast (resolve : List Nat → List Nat) (cursor k : Nat) (m : Message) :
    (replayedMessage resolve cursor k m).m_isLast = decide (k + 1 = cursor) := by
  obtain ⟨p, a, b, c, d⟩ := m
  cases p <;> simp only [replayedMessage, Message.setIsReplayed, Message.setIsLast] <;>
    (try split_ifs) <;> rfl

/-- The positions that a pass of `replayCommands(it)` replays: first `imm`, the
positions of the range whose command the main loop replays at once, then
`survivors`, buffered view commands that no other kind of command follows. -/
theorem replayCommandsFrom_positions (resolve : List Nat → List Nat) (start : Nat)
    (s : UndoRedoController) (hstart : start ≤ s.m_iterator) (hwf : s.WF) :
    ∃ (imm survivors : List Nat) (ctrl : UndoRedoController) (b : Bool),
      replayCommandsFrom resolve start s =
        .ok (ctrl, imm.filterMap (replayedAt resolve s.m_iterator s.m_list) ++
          survivors.filterMap (replayedAt resolve s.m_iterator s.m_list) ++
          [Effect.flushUpdates b]) ∧
      imm.Pairwise (fun a b => a < b) ∧
      (∀ k, k ∈ imm ↔
        (start ≤ k ∧ k < s.m_iterator ∧
          ∃ c, s.m_list[k]? = some c ∧ (c.order ≠ .ORDER_VIEW ∨ c.replayLastOnly = false))) ∧
      survivors.Pairwise (fun a b => a < b) ∧
      (∀ k ∈ survivors, start ≤ k ∧ k < s.m_iterator ∧
        (∃ c, s.m_list[k]? = some c ∧ c.order = .ORDER_VIEW ∧ c.replayLastOnly = true) ∧
        ∀ j, k < j → j < s.m_iterator → orderAt s.m_list j = some .ORDER_VIEW) ∧
      (start < s.m_iterator → s.m_iterator - 1 ∈ imm ++ survivors) ∧
      ctrl.m_iterator = s.m_iterator ∧
      (∀ k c, s.m_list[k]? = some c →
        ctrl.m_list[k]? =
          some (if k ∈ imm ++ survivors then c.mark resolve s.m_iterator k else c)) := by
  have hwf' : s.m_iterator ≤ s.m_list.length := hwf
  obtain ⟨st, survivors, ctrl, _, P, hsorted, hsub, hmem, hres, hcur, _, hlist⟩ :=
    replayCommandsFrom_post resolve start s hstart hwf
  have himm : ∀ k, k ∈ (List.range' start (s.m_iterator - start)).filter (isImmediateAt s.m_list) ↔
      (start ≤ k ∧ k < s.m_iterator ∧
        ∃ c, s.m_list[k]? = some c ∧ (c.order ≠ .ORDER_VIEW ∨ c.replayLastOnly = false)) := by
    intro k
    rw [List.mem_filter, List.mem_range'_1, isImmediateAt_iff]
    constructor
    · rintro ⟨⟨a, b⟩, c⟩
      exact ⟨a, by omega, c⟩
    · rintro ⟨a, b, c⟩
      exact ⟨⟨a, by omega⟩, c⟩
  have hview : ∀ k, k ∈ st.viewCommands ↔
      (start ≤ k ∧ k < s.m_iterator ∧
        (∃ c, s.m_list[k]? = some c ∧ ¬ c.immediate) ∧
        ∀ j c, k < j → j < s.m_iterator → s.m_list[j]? = some c → c.order = .ORDER_VIEW) := by
    intro k
    rw [P.view_iff k]
    simp only [replayStart, List.not_mem_nil, false_and, false_or]
  have hsurv : ∀ k ∈ survivors, start ≤ k ∧ k < s.m_iterator ∧
      (∃ c, s.m_list[k]? = some c ∧ c.order = .ORDER_VIEW ∧ c.replayLastOnly = true) ∧
      ∀ j, k < j → j < s.m_iterator → orderAt s.m_list j = some .ORDER_VIEW := by
    intro k hk
    obtain ⟨a, b, ⟨c, hc, hni⟩, hv⟩ := (hview k).1 (hsub.subset hk)
    refine ⟨a, b, ⟨c, hc, ?_, ?_⟩, ?_⟩
    · by_contra h
      exact hni (Or.inl h)
    · by_contra h
      exact hni (Or.inr (by simpa using h))
    · intro j hj1 hj2
      have hj : j < s.m_list.length := by omega
      have hcj : s.m_list[j]? = some (s.m_list[j]) := List.getElem?_eq_getElem hj
      rw [orderAt_of_getElem? hcj, hv j _ hj1 hj2 hcj]
  refine ⟨(List.range' start (s.m_iterator - start)).filter (isImmediateAt s.m_list), survivors,
    ctrl, st.keepsContent, ?_, ?_, himm, List.Pairwise.sublist hsub hsorted, hsurv, ?_, hcur, ?_⟩
  · rw [hres, P.out_eq, List.filterMap_filter, immediateAt_eq]
    simp [replayStart]
  · exact List.Pairwise.filter _ (List.pairwise_lt_range' _ _)
  · intro hlt
    have hk : s.m_iterator - 1 < s.m_list.length := by omega
    have hc : s.m_list[s.m_iterator - 1]? = some (s.m_list[s.m_iterator - 1]) :=
      List.getElem?_eq_getElem hk
    rw [List.mem_append]
    by_cases hi : (s.m_list[s.m_iterator - 1]).immediate
    · left
      exact (himm _).2 ⟨by omega, by omega, _, hc, hi⟩
    · right
      have hv : s.m_iterator - 1 ∈ st.viewCommands :=
        (hview _).2 ⟨by omega, by omega, ⟨_, hc, hi⟩, fun j c h1 h2 => by omega⟩
      refine (hmem _).2 ⟨hv, ?_⟩
      intro j hj _
      have := ((hview j).1 hj).2.1
      omega
  · intro k c hk
    rw [hlist k c hk]
    have hiff : ((start ≤ k ∧ k < s.m_iterator ∧ c.immediate) ∨ k ∈ survivors) ↔
        k ∈ (List.range' start (s.m_iterator - start)).filter (isImmediateAt s.m_list) ++
          survivors := by
      rw [List.mem_append, himm k]
      constructor
      · rintro (⟨a, b, d⟩ | h)
        · exact Or.inl ⟨a, b, c, hk, d⟩
        · exact Or.inr h
      · rintro (⟨a, b, c0, hc0, d⟩ | h)
        · have : c0 = c := by rw [hk] at hc0; exact (Option.some.inj hc0).symm
          subst this
          exact Or.inl ⟨a, b, d⟩
        · exact Or.inr h
    by_cases h : (start ≤ k ∧ k < s.m_iterator ∧ c.immediate) ∨ k ∈ survivors
    · rw [if_pos h, if_pos (hiff.1 h)]
    · rw [if_neg h, if_neg (fun x => h (hiff.2 x))]

/-- C16: a pass of `replayCommands(it)` dispatches first, in list order and once
each, the commands of the range that are not view commands or have
`replayLastOnly` not set (`imm`), then buffered commands (`survivors`); a view
command with `replayLastOnly` that a command of another order follows in the
range is not dispatched. -/
theorem replayCommandsFrom_order (resolve : List Nat → List Nat) (start : Nat)
    (s : UndoRedoController) (hstart : start ≤ s.m_iterator) (hwf : s.WF) :
    ∃ (imm survivors : List Nat) (ctrl : UndoRedoController) (b : Bool),
      replayCommandsFrom resolve start s =
        .ok (ctrl, imm.filterMap (replayedAt resolve s.m_iterator s.m_list) ++
          survivors.filterMap (replayedAt resolve s.m_iterator s.m_list) ++
          [Effect.flushUpdates b]) ∧
      imm.Pairwise (fun a b => a < b) ∧
      (∀ k, k ∈ imm ↔
        (start ≤ k ∧ k < s.m_iterator ∧
          ∃ c, s.m_list[k]? = some c ∧ (c.order ≠ .ORDER_VIEW ∨ c.replayLastOnly = false))) ∧
      (imm ++ survivors).Nodup ∧
      (∀ k ∈ imm ++ survivors, (replayedAt resolve s.m_iterator s.m_list k).isSome) ∧
      (∀ k ∈ survivors,
        ∃ c, s.m_list[k]? = some c ∧ c.order = .ORDER_VIEW ∧ c.replayLastOnly = true) ∧
      (∀ k c j, s.m_list[k]? = some c → c.order = .ORDER_VIEW → c.replayLastOnly = true →
        k < j → j < s.m_iterator → orderAt s.m_list j ≠ some .ORDER_VIEW →
        k ∉ imm ++ survivors) := by
  obtain ⟨imm, survivors, ctrl, b, h1, h2, h3, h4, h5, _, _, _⟩ :=
    replayCommandsFrom_positions resolve start s hstart hwf
  have hdisj : ∀ k, k ∈ imm → k ∈ survivors → False := by
    intro k hi hs
    obtain ⟨_, _, c, hc, hcimm⟩ := (h3 k).1 hi
    obtain ⟨_, _, ⟨c', hc', hv, hr⟩, _⟩ := h5 k hs
    have : c' = c := by rw [hc] at hc'; exact (Option.some.inj hc').symm
    subst this
    rcases hcimm with h | h
    · exact h hv
    · rw [hr] at h
      exact Bool.noConfusion h
  refine ⟨imm, survivors, ctrl, b, h1, h2, h3, ?_, ?_, ?_, ?_⟩
  · rw [List.nodup_append]
    exact ⟨h2.imp (fun h => Nat.ne_of_lt h), h4.imp (fun h => Nat.ne_of_lt h),
      fun k hi hs => hdisj k hi hs⟩
  · intro k hk
    rcases List.mem_append.1 hk with hk | hk
    · obtain ⟨_, _, c, hc, _⟩ := (h3 k).1 hk
      simp [replayedAt, hc]
    · obtain ⟨_, _, ⟨c, hc, _⟩, _⟩ := h5 k hk
      simp [replayedAt, hc]
  · intro k hk
    exact (h5 k hk).2.2.1
  · intro k c j hc hv hr hkj hj hnv hk
    rcases List.mem_append.1 hk with hk | hk
    · obtain ⟨_, _, c', hc', hcimm⟩ := (h3 k).1 hk
      have : c' = c := by rw [hc] at hc'; exact (Option.some.inj hc').symm
      subst this
      rcases hcimm with h | h
      · exact h hv
      · rw [hr] at h
        exact Bool.noConfusion h
    · exact hnv ((h5 k hk).2.2.2 j hkj hj)

/-- C16 on an activate command, a scroll command, an adapt command and a scroll
command: the first scroll command is not dispatched. -/
theorem replayCommandsFrom_order_witness :
    ∃ ctrl,
      replayCommandsFrom sampleResolve 0
          { m_list := [sampleActivate 1, sampleScroll 1, sampleAdapt, sampleScroll 2],
            m_iterator := 4 } =
        .ok (ctrl,
          [ Effect.dispatch ⟨.ShowErrors 1, true, false, false, false⟩,
            Effect.dispatch ⟨.GraphNodeBundleSplit, true, false, false, true⟩,
            Effect.dispatch ⟨.ScrollCode 2, true, true, false, false⟩,
            Effect.flushUpdates false ]) := by
  obtain ⟨imm, survivors, ctrl, b, h, _⟩ :=
    replayCommandsFrom_order sampleResolve 0
      { m_list := [sampleActivate 1, sampleScroll 1, sampleAdapt, sampleScroll 2],
        m_iterator := 4 } (by decide) (by decide)
  have hcomp : replayCommandsFrom sampleResolve 0
      { m_list := [sampleActivate 1, sampleScroll 1, sampleAdapt, sampleScroll 2],
        m_iterator := 4 } =
      .ok ({ m_list :=
              [ { message := ⟨.ShowErrors 1, true, false, false, false⟩,
                  order := .ORDER_ACTIVATE, replayLastOnly := false },
                sampleScroll 1,
                { message := ⟨.GraphNodeBundleSplit, true, false, false, true⟩,
                  order := .ORDER_ADAPT, replayLastOnly := false },
                { message := ⟨.ScrollCode 2, true, true, false, false⟩,
                  order := .ORDER_VIEW, replayLastOnly := true } ],
             m_iterator := 4 },
        [ Effect.dispatch ⟨.ShowErrors 1, true, false, false, false⟩,
          Effect.dispatch ⟨.GraphNodeBundleSplit, true, false, false, true⟩,
          Effect.dispatch ⟨.ScrollCode 2, true, true, false, false⟩,
          Effect.flushUpdates false ]) := rfl
  have he := h.symm.trans hcomp
  simp only [Except.ok.injEq, Prod.mk.injEq] at he
  exact ⟨ctrl, by rw [h, he.2]⟩

/-- C17: in a pass of `replayCommands(it)` over a range that is not empty, the
dispatched positions `ps` are distinct and hold the position just left of the
cursor; a dispatched message has `isLast` set exactly at that position, has
`isReplayed` set, and its command has `isReplayCleared` reset afterwards. -/
theorem replayCommandsFrom_isLast (resolve : List Nat → List Nat) (start : Nat)
    (s : UndoRedoController) (hstart : start < s.m_iterator) (hwf : s.WF) :
    ∃ (ps : List Nat) (ctrl : UndoRedoController) (b : Bool),
      replayCommandsFrom resolve start s =
        .ok (ctrl, ps.filterMap (replayedAt resolve s.m_iterator s.m_list) ++
          [Effect.flushUpdates b]) ∧
      ps.Nodup ∧
      s.m_iterator - 1 ∈ ps ∧
      ps.count (s.m_iterator - 1) = 1 ∧
      ∀ k ∈ ps, ∃ c c',
        s.m_list[k]? = some c ∧
        replayedAt resolve s.m_iterator s.m_list k =
          some (Effect.dispatch (replayedMessage resolve s.m_iterator k c.message)) ∧
        (replayedMessage resolve s.m_iterator k c.message).isReplayed = true ∧
        ((replayedMessage resolve s.m_iterator k c.message).m_isLast = true ↔
          k = s.m_iterator - 1) ∧
        ctrl.m_list[k]? = some c' ∧
        c'.message.m_isReplayCleared = false := by
  obtain ⟨imm, survivors, ctrl, b, h1, h2, h3, h4, h5, h6, _, h8⟩ :=
    replayCommandsFrom_positions resolve start s (Nat.le_of_lt hstart) hwf
  have hnodup : (imm ++ survivors).Nodup := by
    rw [List.nodup_append]
    refine ⟨h2.imp (fun h => Nat.ne_of_lt h), h4.imp (fun h => Nat.ne_of_lt h), ?_⟩
    intro k hi hs
    obtain ⟨_, _, c, hc, hcimm⟩ := (h3 k).1 hi
    obtain ⟨_, _, ⟨c', hc', hv, hr⟩, _⟩ := h5 k hs
    have : c' = c := by rw [hc] at hc'; exact (Option.some.inj hc').symm
    subst this
    rcases hcimm with h | h
    · exact h hv
    · rw [hr] at h
      exact Bool.noConfusion h
  refine ⟨imm ++ survivors, ctrl, b, ?_, hnodup, h6 hstart,
    List.count_eq_one_of_mem hnodup (h6 hstart), ?_⟩
  · rw [h1, List.filterMap_append]
  · intro k hk
    have hc : ∃ c, s.m_list[k]? = some c := by
      rcases List.mem_append.1 hk with hk | hk
      · obtain ⟨_, _, c, hc, _⟩ := (h3 k).1 hk
        exact ⟨c, hc⟩
      · obtain ⟨_, _, ⟨c, hc, _⟩, _⟩ := h5 k hk
        exact ⟨c, hc⟩
    obtain ⟨c, hc⟩ := hc
    refine ⟨c, c.mark resolve s.m_iterator k, hc, by simp [replayedAt, hc],
      replayedMessage_isReplayed _ _ _ _, ?_, ?_, rfl⟩
    · rw [replayedMessage_isLast]
      simp only [decide_eq_true_eq]
      omega
    · rw [h8 k c hc, if_pos hk]

/-- C17 on an activate command and a scroll command: the scroll command, just
left of the cursor, is the one dispatched with `isLast`. -/
theorem replayCommandsFrom_isLast_witness :
    ∃ ctrl,
      replayCommandsFrom sampleResolve 0
          { m_list := [sampleActivate 1, sampleScroll 1], m_iterator := 2 } =
        .ok (ctrl,
          [ Effect.dispatch ⟨.ShowErrors 1, true, false, false, false⟩,
            Effect.dispatch ⟨.ScrollCode 1, true, true, false, false⟩,
            Effect.flushUpdates false ]) := by
  obtain ⟨ps, ctrl, b, h, _⟩ :=
    replayCommandsFrom_isLast sampleResolve 0
      { m_list := [sampleActivate 1, sampleScroll 1], m_iterator := 2 } (by decide) (by decide)
  have hcomp : replayCommandsFrom sampleResolve 0
      { m_list := [sampleActivate 1, sampleScroll 1], m_iterator := 2 } =
      .ok ({ m_list :=
              [ { message := ⟨.ShowErrors 1, true, false, false, false⟩,
                  order := .ORDER_ACTIVATE, replayLastOnly := false },
                { message := ⟨.ScrollCode 1, true, true, false, false⟩,
                  order := .ORDER_VIEW, replayLastOnly := true } ],
             m_iterator := 2 },
        [ Effect.dispatch ⟨.ShowErrors 1, true, false, false, false⟩,
          Effect.dispatch ⟨.ScrollCode 1, true, true, false, false⟩,
          Effect.flushUpdates false ]) := rfl
  have he := h.symm.trans hcomp
  simp only [Except.ok.injEq, Prod.mk.injEq] at he
  exact ⟨ctrl, by rw [h, he.2]⟩

/-- The ways in which `handleMessage(MessageUndo*)` returns: on the empty list
with nothing done, or with the cursor moved back to a position that is not the
start of the list. Then `r` is the position where the second backward scan
stops: the undo button is disabled when `r` is the first position. -/
theorem handleMessageUndo_ok (resolve : List Nat → List Nat) (s s1 : UndoRedoController)
    (out1 : List Effect) (hwf : s.WF)
    (hundo : handleMessageUndo resolve s = .ok (s1, out1)) :
    (s1 = s ∧ out1 = [] ∧ s.m_list = []) ∨
    (0 < s1.m_iterator ∧ s1.m_iterator < s.m_iterator ∧
      orderAt s.m_list s1.m_iterator ≠ some .ORDER_VIEW ∧
      (∀ k, s1.m_iterator < k → k < s.m_iterator → orderAt s.m_list k = some .ORDER_VIEW) ∧
      sameCommands s.m_list s1.m_list ∧
      ∃ (r : Nat) (ps : List Nat) (b : Bool),
        r < s1.m_iterator ∧ orderAt s.m_list r ≠ some .ORDER_VIEW ∧
        (∀ k, r < k → k < s1.m_iterator → orderAt s.m_list k = some .ORDER_VIEW) ∧
        out1 = (if r = 0 then [Effect.setUndoButtonEnabled false] else []) ++
          [Effect.setRedoButtonEnabled true] ++
          (ps.filterMap (replayedAt resolve s1.m_iterator s.m_list) ++
            [Effect.flushUpdates b])) := by
  have hwf' : s.m_iterator ≤ s.m_list.length := hwf
  unfold handleMessageUndo at hundo
  by_cases hlen : s.m_list.length = 0
  · simp only [hlen, if_true, Except.ok.injEq, Prod.mk.injEq] at hundo
    exact Or.inl ⟨hundo.1.symm, hundo.2.symm, List.length_eq_zero.1 hlen⟩
  · right
    simp only [hlen, if_false, bind, Except.bind] at hundo
    cases ht : undoTarget s.m_list s.m_iterator with
    | error e => rw [ht] at hundo; simp at hundo
    | ok p =>
      rw [ht] at hundo
      simp only at hundo
      obtain ⟨hp1, hp2, hp3, hp4⟩ := undoTarget_inv s.m_list s.m_iterator p ht
      cases p with
      | zero => simp [prev] at hundo
      | succ p' =>
        simp only [prev] at hundo
        cases hr : undoSkipView s.m_list p' with
        | error e => rw [hr] at hundo; simp at hundo
        | ok r =>
          rw [hr] at hundo
          simp only [Nat.succ_ne_zero, if_false] at hundo
          have hq : ∃ q, q ≤ p' ∧ orderAt s.m_list q ≠ some .ORDER_VIEW := by
            by_contra hcon
            have hall : ∀ k, k ≤ p' → orderAt s.m_list k = some .ORDER_VIEW := by
              intro k hk
              by_contra h
              exact hcon ⟨k, hk, h⟩
            have hfault : ∀ n, n ≤ p' → undoSkipView s.m_list n = .error .beforeBegin := by
              intro n
              induction n with
              | zero =>
                intro _
                have h0 : 0 < s.m_list.length := by omega
                have hc : s.m_list[0]? = some (s.m_list[0]) := List.getElem?_eq_getElem h0
                have hv := hall 0 (Nat.zero_le _)
                rw [orderAt_of_getElem? hc] at hv
                simp [undoSkipView, deref, hc, bind, Except.bind, Option.some.inj hv]
              | succ n ih =>
                intro hn
                have h0 : n + 1 < s.m_list.length := by omega
                have hc : s.m_list[n + 1]? = some (s.m_list[n + 1]) :=
                  List.getElem?_eq_getElem h0
                have hv := hall (n + 1) hn
                rw [orderAt_of_getElem? hc] at hv
                simp only [undoSkipView, deref, hc, bind, Except.bind, Option.some.inj hv,
                  if_true]
                exact ih (by omega)
            rw [hfault p' (le_refl _)] at hr
            exact Except.noConfusion hr
          obtain ⟨r', hr1, hr2, hr3, hr4⟩ := undoSkipView_post s.m_list p' (by omega) hq
          rw [hr] at hr1
          have hrr : r = r' := by injection hr1
          subst hrr
          obtain ⟨start, ctrl, out, hc1, hc2, hc3, _, _, hc6, hc7⟩ :=
            replayCommands_post resolve { s with m_iterator := p' + 1 } (by simp only; omega)
              (show p' + 1 ≤ s.m_list.length by omega)
          have hc3' : start < p' + 1 := hc3
          have hc7' : ctrl.m_iterator = p' + 1 := hc7
          obtain ⟨ctrl', ps, b, hf1, _⟩ :=
            replayCommandsFrom_frame resolve start { s with m_iterator := p' + 1 }
              (show start ≤ p' + 1 by omega) (show p' + 1 ≤ s.m_list.length by omega)
          rw [hc1] at hundo
          rw [hc2] at hf1
          simp only [Except.ok.injEq, Prod.mk.injEq] at hundo hf1
          obtain ⟨h1, h2⟩ := hundo
          subst h1
          rw [hc7']
          refine ⟨by omega, hp1, hp3, hp4, hc6, r, ps, b, by omega, hr3,
            fun k hk1 hk2 => hr4 k hk1 (by omega), ?_⟩
          rw [← h2, hf1.2]

/-- On two activate commands with the cursor at the end,
`handleMessage(MessageUndo*)` moves the cursor after the first command and
disables the undo button; handled again on the resulting state, line 282 steps
back from `begin()` before the test of line 293 is reached. -/
theorem undo_disabled_then_undo_faults :
    handleMessageUndo sampleResolve
        { m_list := [sampleActivate 1, sampleActivate 2], m_iterator := 2 } =
      .ok ({ m_list :=
              [ { message := ⟨.ShowErrors 1, true, true, false, false⟩,
                  order := .ORDER_ACTIVATE, replayLastOnly := false },
                sampleActivate 2 ],
             m_iterator := 1 },
        [ Effect.setUndoButtonEnabled false, Effect.setRedoButtonEnabled true,
          Effect.dispatch ⟨.ShowErrors 1, true, true, false, false⟩,
          Effect.flushUpdates false ]) ∧
    handleMessageUndo sampleResolve
        { m_list :=
            [ { message := ⟨.ShowErrors 1, true, true, false, false⟩,
                order := .ORDER_ACTIVATE, replayLastOnly := false },
              sampleActivate 2 ],
          m_iterator := 1 } = .error .beforeBegin :=
  ⟨rfl, rfl⟩

/-- The invariant holds in the state after construction. -/
theorem Invariant.init : Invariant init := by
  refine ⟨by decide, by decide, ?_⟩
  intro h
  exact absurd rfl h

/-- The invariant goes over to a state with the same commands whose cursor is
not at the start, or is where it was. -/
theorem Invariant.of_sameCommands {s s1 : UndoRedoController} (h : Invariant s)
    (hs : sameCommands s.m_list s1.m_list) (hle : s1.m_iterator ≤ s.m_list.length)
    (hpos : 0 < s1.m_iterator ∨ s1.m_iterator = s.m_iterator) : Invariant s1 := by
  obtain ⟨h1, h2, h3⟩ := h
  have hlen := sameCommands_length hs
  refine ⟨?_, ?_, ?_⟩
  · show s1.m_iterator ≤ s1.m_list.length
    omega
  · rw [sameCommands_orderAt hs]
    exact h2
  · intro hne
    rcases hpos with hpos | hpos
    · exact hpos
    · rw [hpos]
      apply h3
      intro hnil
      apply hne
      apply List.length_eq_zero.1
      rw [hlen, hnil]
      rfl

theorem updateMessage_length (l : List Command) (it : Nat) (f : Message → Message) :
    (updateMessage l it f).length = l.length := by
  unfold updateMessage
  split <;> simp

theorem updateMessage_orderAt (l : List Command) (it : Nat) (f : Message → Message) (k : Nat) :
    orderAt (updateMessage l it f) k = orderAt l k := by
  unfold updateMessage orderAt
  cases hc : l[it]? with
  | none => rfl
  | some c =>
    simp only
    by_cases hk : it = k
    · subst hk
      rw [List.getElem?_set_self (List.getElem?_eq_some.1 hc).1, hc]
      rfl
    · rw [List.getElem?_set_ne hk]

theorem Invariant.updateMessage {s : UndoRedoController} (h : Invariant s) (it : Nat)
    (f : Message → Message) :
    Invariant { s with m_list := updateMessage s.m_list it f } := by
  obtain ⟨h1, h2, h3⟩ := h
  refine ⟨?_, ?_, ?_⟩
  · show s.m_iterator ≤ (UndoRedo.updateMessage s.m_list it f).length
    rw [updateMessage_length]
    exact h1
  · show orderAt (UndoRedo.updateMessage s.m_list it f) 0 ≠ _
    rw [updateMessage_orderAt]
    exact h2
  · intro hne
    apply h3
    intro hnil
    apply hne
    show UndoRedo.updateMessage s.m_list it f = []
    apply List.length_eq_zero.1
    rw [updateMessage_length, hnil]
    rfl

/-- The list after `processCommand` has put a command in: the commands left of
the cursor, the command, and a part of the commands right of the cursor. -/
theorem processCommand_shape (command : Command) (s : UndoRedoController)
    (hwf : s.m_iterator ≤ s.m_list.length)
    (hrep : command.message.isReplayed = false)
    (hgo : ¬ (command.order ≠ .ORDER_ACTIVATE ∧ s.m_iterator = 0)) :
    ∃ (c : Command) (rest : List Command),
      (processCommand command s).1 =
        ⟨s.m_list.take s.m_iterator ++ c :: rest, s.m_iterator + 1⟩ ∧
      (command.order = .ORDER_ACTIVATE → c.order ≠ .ORDER_VIEW) := by
  obtain ⟨message, order, replayLastOnly⟩ := command
  simp only at hrep hgo
  cases order with
  | ORDER_ACTIVATE =>
    by_cases hk : message.keepContent = true
    · exact ⟨_, _, processCommand_final_adapt message _ replayLastOnly s hwf hrep
        (Or.inr ⟨rfl, hk⟩), fun _ => by simp⟩
    · exact ⟨_, _, processCommand_final_activate message replayLastOnly s hwf hrep
        (by simpa using hk), fun _ => by simp⟩
  | ORDER_ADAPT =>
    have hne : s.m_iterator ≠ 0 := by
      intro h
      exact hgo ⟨by simp, h⟩
    exact ⟨_, _, processCommand_final_adapt message _ replayLastOnly s hwf hrep
      (Or.inl ⟨rfl, hne⟩), fun h => by simp at h⟩
  | ORDER_VIEW =>
    have hne : s.m_iterator ≠ 0 := by
      intro h
      exact hgo ⟨by simp, h⟩
    refine ⟨⟨message, .ORDER_VIEW, replayLastOnly⟩, s.m_list.drop s.m_iterator, ?_,
      fun h => by simp at h⟩
    simp [processCommand, hrep, hne, insert]

/-- The function `processCommand` leaves the invariant in place. -/
theorem Invariant.processCommand {s : UndoRedoController} (h : Invariant s)
    (command : Command) : Invariant (processCommand command s).1 := by
  obtain ⟨h1, h2, h3⟩ := h
  have hwf : s.m_iterator ≤ s.m_list.length := h1
  by_cases hrep : command.message.isReplayed = true
  · simp only [UndoRedo.processCommand, hrep, if_true]
    exact ⟨h1, h2, h3⟩
  · have hrep' : command.message.isReplayed = false := by simpa using hrep
    by_cases hgo : command.order ≠ .ORDER_ACTIVATE ∧ s.m_iterator = 0
    · have hp : UndoRedo.processCommand command s = (s, []) := by
        unfold UndoRedo.processCommand
        rw [if_neg hrep, if_pos hgo]
      rw [hp]
      exact ⟨h1, h2, h3⟩
    · obtain ⟨c, rest, hp, hc⟩ := processCommand_shape command s hwf hrep' hgo
      rw [hp]
      have hlen : (s.m_list.take s.m_iterator).length = s.m_iterator := by simp [hwf]
      refine ⟨?_, ?_, ?_⟩
      · show s.m_iterator + 1 ≤ (s.m_list.take s.m_iterator ++ c :: rest).length
        rw [List.length_append, hlen, List.length_cons]
        omega
      · show orderAt (s.m_list.take s.m_iterator ++ c :: rest) 0 ≠ _
        by_cases h0 : s.m_iterator = 0
        · have ho : command.order = .ORDER_ACTIVATE := by
            by_contra hcon
            exact hgo ⟨hcon, h0⟩
          simp only [h0, List.take_zero, List.nil_append, orderAt, List.getElem?_cons_zero,
            Option.map_some', ne_eq, Option.some.injEq]
          exact hc ho
        · have hpos : 0 < (s.m_list.take s.m_iterator).length := by omega
          have : (s.m_list.take s.m_iterator ++ c :: rest)[0]? = s.m_list[0]? := by
            rw [List.getElem?_append_left hpos, List.getElem?_take]
            simp [Nat.pos_of_ne_zero h0]
          unfold orderAt
          rw [this]
          exact h2
      · intro _
        show 0 < s.m_iterator + 1
        omega

/-- The handlers of the logged messages leave the invariant in place. -/
theorem Invariant.handleMessage {s : UndoRedoController} (h : Invariant s) (m : Message) :
    Invariant (handleMessage m s).1 := by
  obtain ⟨p, a, b, d, e⟩ := m
  cases p <;> simp only [UndoRedo.handleMessage] <;> (try split_ifs) <;>
    first
      | exact h
      | exact Invariant.processCommand h _
      | exact Invariant.updateMessage h _ _

/-- The rewrite when parsing has finished leaves the invariant in place. -/
theorem Invariant.finishedParsing (s : UndoRedoController) :
    Invariant (handleMessageFinishedParsing s).1 := by
  refine ⟨le_refl _, ?_, ?_⟩
  · simp only [handleMessageFinishedParsing, orderAt]
    cases hc : (s.m_list.filterMap finishedParsingCommand)[0]? with
    | none => simp
    | some c =>
      have hmem : c ∈ s.m_list.filterMap finishedParsingCommand :=
        List.mem_iff_getElem?.2 ⟨0, hc⟩
      obtain ⟨c0, _, hc0⟩ := List.mem_filterMap.1 hmem
      have ho : c.order = .ORDER_ACTIVATE := by
        unfold finishedParsingCommand at hc0
        split_ifs at hc0 with h1
        split at hc0
        · split_ifs at hc0
          rw [← Option.some.inj hc0]
          exact h1
        · rw [← Option.some.inj hc0]
          exact h1
      simp [ho]
  · intro hne
    simp only [handleMessageFinishedParsing] at hne ⊢
    exact List.length_pos.2 hne

/-- The function `clear()` leaves the invariant in place. -/
theorem Invariant.clear (s : UndoRedoController) : Invariant (clear s).1 := by
  refine ⟨by simp [UndoRedo.clear, UndoRedoController.WF], by simp [UndoRedo.clear, orderAt], ?_⟩
  intro h
  exact absurd rfl h

/-- Every handler that returns leaves the invariant in place. -/
theorem Invariant.handle (resolve : List Nat → List Nat) {s s1 : UndoRedoController}
    {out : List Effect} (h : Invariant s) (e : Event)
    (he : handle resolve e s = .ok (s1, out)) : Invariant s1 := by
  have hwf : s.WF := h.1
  have hwf' : s.m_iterator ≤ s.m_list.length := h.1
  cases e with
  | message m =>
    simp only [UndoRedo.handle, Except.ok.injEq] at he
    rw [← (Prod.mk.inj he).1]
    exact Invariant.handleMessage h m
  | deactivateEdge =>
    simp only [UndoRedo.handle] at he
    obtain ⟨h0, hpos⟩ := handleMessageDeactivateEdge_post s hwf
    by_cases hz : s.m_iterator = 0
    · rw [h0 hz] at he
      simp only [Except.ok.injEq, Prod.mk.injEq] at he
      rw [← he.1]
      exact h
    · obtain ⟨it, c, m, ctrl, _, _, _, _, h5, _, _, _, _, h10, _, h12, _⟩ :=
        hpos (Nat.pos_of_ne_zero hz)
      rw [h5] at he
      simp only [Except.ok.injEq, Prod.mk.injEq] at he
      rw [← he.1]
      exact Invariant.of_sameCommands h h12 (by omega) (Or.inr h10)
  | finishedParsing =>
    simp only [UndoRedo.handle, Except.ok.injEq] at he
    rw [← (Prod.mk.inj he).1]
    exact Invariant.finishedParsing s
  | redo =>
    simp only [UndoRedo.handle] at he
    by_cases hend : s.m_iterator = s.m_list.length
    · rw [handleMessageRedo_at_end resolve s hend] at he
      simp only [Except.ok.injEq, Prod.mk.injEq] at he
      rw [← he.1]
      exact h
    · obtain ⟨j, ctrl, out', h1, h2, _, _, h5, _, h7, h8, _⟩ :=
        handleMessageRedo_post resolve s hwf hend
      rw [h5] at he
      simp only [Except.ok.injEq, Prod.mk.injEq] at he
      rw [← he.1]
      exact Invariant.of_sameCommands h h8 (by omega) (Or.inl (by omega))
  | refresh uiOnly =>
    simp only [UndoRedo.handle, handleMessageRefresh] at he
    by_cases hu : uiOnly = true
    · simp only [hu, Bool.not_true, Bool.false_eq_true, if_false] at he
      by_cases hz : s.m_iterator = 0
      · simp only [hz, if_true, Except.ok.injEq, Prod.mk.injEq] at he
        rw [← he.1]
        exact h
      · simp only [hz, if_false] at he
        obtain ⟨start, ctrl, out', h1, _, _, _, _, h6, h7⟩ :=
          replayCommands_post resolve s (Nat.pos_of_ne_zero hz) hwf
        rw [h1] at he
        simp only [Except.ok.injEq, Prod.mk.injEq] at he
        rw [← he.1]
        exact Invariant.of_sameCommands h h6 (by omega) (Or.inr h7)
    · have hu' : uiOnly = false := by simpa using hu
      subst hu'
      simp only [Bool.not_false, if_true, Except.ok.injEq, Prod.mk.injEq] at he
      rw [← he.1]
      exact h
  | undo =>
    simp only [UndoRedo.handle] at he
    rcases handleMessageUndo_ok resolve s s1 out hwf he with ⟨h1, _, _⟩ | ⟨h1, h2, _, _, h5, _⟩
    · rw [h1]
      exact h
    · exact Invariant.of_sameCommands h h5 (by omega) (Or.inl h1)
  | clear =>
    simp only [UndoRedo.handle, Except.ok.injEq] at he
    rw [← (Prod.mk.inj he).1]
    exact Invariant.clear s

/-- The invariant holds after every run of events that returns. -/
theorem Invariant.run (resolve : List Nat → List Nat) :
    ∀ (events : List Event) (s s1 : UndoRedoController),
      Invariant s → run resolve events s = .ok s1 → Invariant s1 := by
  intro events
  induction events with
  | nil =>
    intro s s1 h hr
    simp only [UndoRedo.run, Except.ok.injEq] at hr
    rw [← hr]
    exact h
  | cons e rest ih =>
    intro s s1 h hr
    simp only [UndoRedo.run, bind, Except.bind] at hr
    cases he : UndoRedo.handle resolve e s with
    | error f => rw [he] at hr; simp at hr
    | ok r =>
      obtain ⟨s2, out⟩ := r
      rw [he] at hr
      exact ih s2 s1 (Invariant.handle resolve h e he) hr

/-- C20: in every state reached from the empty log by handling events, a list
that has commands starts with a command that is not a view command, and the
cursor is not at its start. -/
theorem reachable_first_not_view (resolve : List Nat → List Nat) (s : UndoRedoController)
    (hreach : Reachable resolve s) (hne : s.m_list ≠ []) :
    (∃ c, s.m_list[0]? = some c ∧ c.order ≠ .ORDER_VIEW) ∧ 0 < s.m_iterator := by
  obtain ⟨events, hrun⟩ := hreach
  obtain ⟨_, h2, h3⟩ := Invariant.run resolve events init s Invariant.init hrun
  refine ⟨?_, h3 hne⟩
  cases hl : s.m_list with
  | nil => exact absurd hl hne
  | cons c rest =>
    rw [hl] at h2
    refine ⟨c, by simp, ?_⟩
    intro hv
    apply h2
    simp [orderAt, hv]

/-- C20 on the state reached by a scroll event, an activate all event, a scroll
event, a show errors event, undo and the end of parsing. -/
theorem reachable_first_not_view_witness :
    ∃ s,
      run sampleResolve
          [Event.message (sampleMessage (.ScrollCode 1) false),
            Event.message (sampleMessage .ActivateAll false),
            Event.message (sampleMessage (.ScrollCode 2) false),
            Event.message (sampleMessage (.ShowErrors 1) false),
            Event.undo, Event.finishedParsing] init = .ok s ∧
      0 < s.m_iterator := by
  have hrun : run sampleResolve
      [Event.message (sampleMessage (.ScrollCode 1) false),
        Event.message (sampleMessage .ActivateAll false),
        Event.message (sampleMessage (.ScrollCode 2) false),
        Event.message (sampleMessage (.ShowErrors 1) false),
        Event.undo, Event.finishedParsing] init =
      .ok { m_list :=
              [ { message := ⟨.ActivateAll, true, false, true, false⟩,
                  order := .ORDER_ACTIVATE, replayLastOnly := false },
                { message := ⟨.ShowErrors 1, false, false, true, false⟩,
                  order := .ORDER_ACTIVATE, replayLastOnly := false } ],
            m_iterator := 2 } := rfl
  exact ⟨_, hrun, (reachable_first_not_view sampleResolve _ ⟨_, hrun⟩ (by simp)).2⟩

/-- C11 on a list of two activate commands with the cursor after the first:
scroll events with values 1 and 2 leave one scroll command with value 2 at the
cursor. -/
theorem handleMessage_scrollCode_twice_witness :
    (handleMessage (sampleMessage (.ScrollCode 2) false)
        (handleMessage (sampleMessage (.ScrollCode 1) false)
          { m_list := [sampleActivate 1, sampleActivate 2], m_iterator := 1 }).1).1 =
      { m_list := [sampleActivate 1, sampleScroll 2, sampleActivate 2], m_iterator := 2 } :=
  (handleMessage_scrollCode_twice (sampleMessage (.ScrollCode 1) false)
    (sampleMessage (.ScrollCode 2) false) 1 2
    { m_list := [sampleActivate 1, sampleActivate 2], m_iterator := 1 }
    (by decide) (by decide)
    (by intro m h; simp only [lastMessage, List.getElem?_cons_zero, Option.map_some',
          Option.some.injEq] at h; subst h; decide)
    rfl rfl rfl rfl).trans rfl

/-! ## The cursor never rests before a view command -/

theorem orderAt_append_cons (pre : List Command) (c : Command) (rest : List Command) :
    orderAt (pre ++ c :: rest) (pre.length + 1) = orderAt rest 0 := by
  unfold orderAt
  rw [List.getElem?_append_right (by omega)]
  simp

theorem orderAt_drop (l : List Command) (n : Nat) : orderAt (l.drop n) 0 = orderAt l n := by
  simp [orderAt, List.getElem?_drop]

theorem orderAt_dropWhile (t : List Command) :
    orderAt (t.dropWhile (fun c => decide (c.order ≠ .ORDER_ACTIVATE))) 0 ≠
      some .ORDER_VIEW := by
  induction t with
  | nil => simp [orderAt]
  | cons c rest ih =>
    by_cases h : c.order = .ORDER_ACTIVATE
    · simp [List.dropWhile, h, orderAt]
    · simpa [List.dropWhile, h] using ih

/-- The cursor invariant holds in the state after construction. -/
theorem cursorInvariant_init : CursorInvariant init := by
  simp [CursorInvariant, UndoRedo.init, orderAt]

/-- The cursor invariant goes over to a state with the same commands whose
cursor is at a position that is not directly before a view command. -/
theorem cursorInvariant_of_sameCommands {s s1 : UndoRedoController}
    (hs : sameCommands s.m_list s1.m_list)
    (hord : orderAt s.m_list s1.m_iterator ≠ some .ORDER_VIEW) : CursorInvariant s1 := by
  show orderAt s1.m_list s1.m_iterator ≠ _
  rw [sameCommands_orderAt hs]
  exact hord

theorem cursorInvariant_updateMessage {s : UndoRedoController} (h : CursorInvariant s)
    (it : Nat) (f : Message → Message) :
    CursorInvariant { s with m_list := updateMessage s.m_list it f } := by
  show orderAt (UndoRedo.updateMessage s.m_list it f) s.m_iterator ≠ _
  rw [updateMessage_orderAt]
  exact h

/-- The function `processCommand` leaves the cursor invariant in place: the
command goes in left of the cursor, and what is erased right of the cursor ends
at a command with `ORDER_ACTIVATE` or at the end of the list. -/
theorem cursorInvariant_processCommand {s : UndoRedoController}
    (hwf : s.m_iterator ≤ s.m_list.length) (h : CursorInvariant s) (command : Command) :
    CursorInvariant (processCommand command s).1 := by
  have hlen : (s.m_list.take s.m_iterator).length = s.m_iterator := by simp [hwf]
  have key : ∀ (c : Command) (rest : List Command), orderAt rest 0 ≠ some .ORDER_VIEW →
      CursorInvariant ⟨s.m_list.take s.m_iterator ++ c :: rest, s.m_iterator + 1⟩ := by
    intro c rest hr
    show orderAt (s.m_list.take s.m_iterator ++ c :: rest) (s.m_iterator + 1) ≠ _
    have hthis := orderAt_append_cons (s.m_list.take s.m_iterator) c rest
    rw [hlen] at hthis
    rw [hthis]
    exact hr
  by_cases hrep : command.message.isReplayed = true
  · simp only [UndoRedo.processCommand, hrep, if_true]
    exact h
  · have hrep' : command.message.isReplayed = false := by simpa using hrep
    by_cases hgo : command.order ≠ .ORDER_ACTIVATE ∧ s.m_iterator = 0
    · have hp : UndoRedo.processCommand command s = (s, []) := by
        unfold UndoRedo.processCommand
        rw [if_neg hrep, if_pos hgo]
      rw [hp]
      exact h
    · obtain ⟨message, order, replayLastOnly⟩ := command
      simp only at hrep' hgo
      cases order with
      | ORDER_ACTIVATE =>
        by_cases hk : message.keepContent = true
        · rw [processCommand_final_adapt message _ replayLastOnly s hwf hrep'
            (Or.inr ⟨rfl, hk⟩)]
          exact key _ _ (orderAt_dropWhile _)
        · rw [processCommand_final_activate message replayLastOnly s hwf hrep'
            (by simpa using hk)]
          exact key _ _ (by simp [orderAt])
      | ORDER_ADAPT =>
        have hne : s.m_iterator ≠ 0 := by
          intro h0
          exact hgo ⟨by simp, h0⟩
        rw [processCommand_final_adapt message _ replayLastOnly s hwf hrep'
          (Or.inl ⟨rfl, hne⟩)]
        exact key _ _ (orderAt_dropWhile _)
      | ORDER_VIEW =>
        have hne : s.m_iterator ≠ 0 := by
          intro h0
          exact hgo ⟨by simp, h0⟩
        have hp : (UndoRedo.processCommand ⟨message, .ORDER_VIEW, replayLastOnly⟩ s).1 =
            ⟨s.m_list.take s.m_iterator ++
              ⟨message, .ORDER_VIEW, replayLastOnly⟩ :: s.m_list.drop s.m_iterator,
              s.m_iterator + 1⟩ := by
          simp [UndoRedo.processCommand, hrep', hne, insert]
        rw [hp]
        refine key _ _ ?_
        rw [orderAt_drop]
        exact h

/-- The handlers of the logged messages leave the cursor invariant in place. -/
theorem cursorInvariant_handleMessage {s : UndoRedoController}
    (hwf : s.m_iterator ≤ s.m_list.length) (h : CursorInvariant s) (m : Message) :
    CursorInvariant (handleMessage m s).1 := by
  obtain ⟨p, a, b, d, e⟩ := m
  cases p <;> simp only [UndoRedo.handleMessage] <;> (try split_ifs) <;>
    first
      | exact h
      | exact cursorInvariant_processCommand hwf h _
      | exact cursorInvariant_updateMessage h _ _

/-- Every handler that returns leaves the cursor invariant in place. -/
theorem cursorInvariant_handle (resolve : List Nat → List Nat) {s s1 : UndoRedoController}
    {out : List Effect} (hwf : s.WF) (h : CursorInvariant s) (e : Event)
    (he : handle resolve e s = .ok (s1, out)) : CursorInvariant s1 := by
  have hwf' : s.m_iterator ≤ s.m_list.length := hwf
  cases e with
  | message m =>
    simp only [UndoRedo.handle, Except.ok.injEq] at he
    rw [← (Prod.mk.inj he).1]
    exact cursorInvariant_handleMessage hwf' h m
  | deactivateEdge =>
    simp only [UndoRedo.handle] at he
    obtain ⟨h0, hpos⟩ := handleMessageDeactivateEdge_post s hwf
    by_cases hz : s.m_iterator = 0
    · rw [h0 hz] at he
      simp only [Except.ok.injEq, Prod.mk.injEq] at he
      rw [← he.1]
      exact h
    · obtain ⟨it, c, m, ctrl, _, _, _, _, h5, _, _, _, _, h10, _, h12, _⟩ :=
        hpos (Nat.pos_of_ne_zero hz)
      rw [h5] at he
      simp only [Except.ok.injEq, Prod.mk.injEq] at he
      rw [← he.1]
      exact cursorInvariant_of_sameCommands h12 (by rw [h10]; exact h)
  | finishedParsing =>
    simp only [UndoRedo.handle, Except.ok.injEq] at he
    rw [← (Prod.mk.inj he).1]
    simp [CursorInvariant, handleMessageFinishedParsing, orderAt]
  | redo =>
    simp only [UndoRedo.handle] at he
    by_cases hend : s.m_iterator = s.m_list.length
    · rw [handleMessageRedo_at_end resolve s hend] at he
      simp only [Except.ok.injEq, Prod.mk.injEq] at he
      rw [← he.1]
      exact h
    · obtain ⟨j, ctrl, out', _, _, _, h4, h5, _, h7, h8, _⟩ :=
        handleMessageRedo_post resolve s hwf hend
      rw [h5] at he
      simp only [Except.ok.injEq, Prod.mk.injEq] at he
      rw [← he.1]
      refine cursorInvariant_of_sameCommands h8 ?_
      rw [h7]
      rcases h4 with h4 | h4
      · rw [h4]
        simp [orderAt]
      · exact h4.2
  | refresh uiOnly =>
    simp only [UndoRedo.handle, handleMessageRefresh] at he
    by_cases hu : uiOnly = true
    · simp only [hu, Bool.not_true, Bool.false_eq_true, if_false] at he
      by_cases hz : s.m_iterator = 0
      · simp only [hz, if_true, Except.ok.injEq, Prod.mk.injEq] at he
        rw [← he.1]
        exact h
      · simp only [hz, if_false] at he
        obtain ⟨start, ctrl, out', h1, _, _, _, _, h6, h7⟩ :=
          replayCommands_post resolve s (Nat.pos_of_ne_zero hz) hwf
        rw [h1] at he
        simp only [Except.ok.injEq, Prod.mk.injEq] at he
        rw [← he.1]
        exact cursorInvariant_of_sameCommands h6 (by rw [h7]; exact h)
    · have hu' : uiOnly = false := by simpa using hu
      subst hu'
      simp only [Bool.not_false, if_true, Except.ok.injEq, Prod.mk.injEq] at he
      rw [← he.1]
      exact h
  | undo =>
    simp only [UndoRedo.handle] at he
    rcases handleMessageUndo_ok resolve s s1 out hwf he with ⟨h1, _, _⟩ | ⟨_, _, h3, _, h5, _⟩
    · rw [h1]
      exact h
    · exact cursorInvariant_of_sameCommands h5 h3
  | clear =>
    simp only [UndoRedo.handle, Except.ok.injEq] at he
    rw [← (Prod.mk.inj he).1]
    simp [CursorInvariant, UndoRedo.clear, orderAt]

/-- Both invariants hold after every run of events that returns. -/
theorem cursorInvariant_run (resolve : List Nat → List Nat) :
    ∀ (events : List Event) (s s1 : UndoRedoController),
      Invariant s → CursorInvariant s → run resolve events s = .ok s1 →
      Invariant s1 ∧ CursorInvariant s1 := by
  intro events
  induction events with
  | nil =>
    intro s s1 h hc hr
    simp only [UndoRedo.run, Except.ok.injEq] at hr
    rw [← hr]
    exact ⟨h, hc⟩
  | cons e rest ih =>
    intro s s1 h hc hr
    simp only [UndoRedo.run, bind, Except.bind] at hr
    cases he : UndoRedo.handle resolve e s with
    | error f => rw [he] at hr; simp at hr
    | ok r =>
      obtain ⟨s2, out⟩ := r
      rw [he] at hr
      exact ih s2 s1 (Invariant.handle resolve h e he)
        (cursorInvariant_handle resolve h.1 hc e he) hr

/-- C21: in every state reached from the empty log by handling events the
cursor is at the end of the list or directly before a command that is not a
view command. With the cursor not at the end, `handleMessage(MessageRedo*)`
returns, keeps the commands and moves the cursor over that command and over
the view commands that follow it, up to the next command that is not a view
command or to the end of the list. -/
theorem reachable_cursor_before_non_view (resolve : List Nat → List Nat)
    (s : UndoRedoController) (hreach : Reachable resolve s) :
    (s.m_iterator = s.m_list.length ∨
      ∃ c, s.m_list[s.m_iterator]? = some c ∧ c.order ≠ .ORDER_VIEW) ∧
    (s.m_iterator ≠ s.m_list.length →
      ∃ (c : Command) (s1 : UndoRedoController) (out : List Effect),
        handleMessageRedo resolve s = .ok (s1, out) ∧
        s.m_list[s.m_iterator]? = some c ∧ c.order ≠ .ORDER_VIEW ∧
        s.m_iterator < s1.m_iterator ∧ s1.m_iterator ≤ s.m_list.length ∧
        (∀ k, s.m_iterator < k → k < s1.m_iterator →
          orderAt s.m_list k = some .ORDER_VIEW) ∧
        orderAt s.m_list s1.m_iterator ≠ some .ORDER_VIEW ∧
        sameCommands s.m_list s1.m_list) := by
  obtain ⟨events, hrun⟩ := hreach
  obtain ⟨hinv, hcur⟩ :=
    cursorInvariant_run resolve events init s Invariant.init cursorInvariant_init hrun
  have hwf : s.m_iterator ≤ s.m_list.length := hinv.1
  have hat : s.m_iterator ≠ s.m_list.length →
      ∃ c, s.m_list[s.m_iterator]? = some c ∧ c.order ≠ .ORDER_VIEW := by
    intro hne
    have hlt : s.m_iterator < s.m_list.length := by omega
    have hc : s.m_list[s.m_iterator]? = some (s.m_list[s.m_iterator]) :=
      List.getElem?_eq_getElem hlt
    refine ⟨_, hc, ?_⟩
    intro hv
    apply hcur
    rw [orderAt_of_getElem? hc, hv]
  constructor
  · by_cases hend : s.m_iterator = s.m_list.length
    · exact Or.inl hend
    · exact Or.inr (hat hend)
  · intro hne
    obtain ⟨c, hc1, hc2⟩ := hat hne
    obtain ⟨j, ctrl, out', h1, h2, h3, h4, h5, _, h7, h8, _⟩ :=
      handleMessageRedo_post resolve s hinv.1 hne
    refine ⟨c, ctrl, _, h5, hc1, hc2, by omega, by omega, ?_, ?_, h8⟩
    · intro k hk1 hk2
      exact h3 k hk1 (by omega)
    · rw [h7]
      rcases h4 with h4 | h4
      · rw [h4]
        simp [orderAt]
      · exact h4.2

/-- C21 on the state reached by an activate all event, two show errors events
each followed by a scroll event, and undo: the cursor is before the second show
errors command, and redo steps over it and the scroll command after it. -/
theorem reachable_cursor_before_non_view_witness :
    ∃ s,
      run sampleResolve
          [Event.message (sampleMessage .ActivateAll false),
            Event.message (sampleMessage (.ShowErrors 1) false),
            Event.message (sampleMessage (.ScrollCode 1) false),
            Event.message (sampleMessage (.ShowErrors 2) false),
            Event.message (sampleMessage (.ScrollCode 2) false),
            Event.undo] init = .ok s ∧
      s.m_iterator = 3 ∧ s.m_list.length = 5 ∧
      ∃ (c : Command) (s1 : UndoRedoController) (out : List Effect),
        handleMessageRedo sampleResolve s = .ok (s1, out) ∧
        s.m_list[s.m_iterator]? = some c ∧ c.order ≠ .ORDER_VIEW ∧
        s.m_iterator < s1.m_iterator ∧ s1.m_iterator ≤ s.m_list.length ∧
        (∀ k, s.m_iterator < k → k < s1.m_iterator →
          orderAt s.m_list k = some .ORDER_VIEW) ∧
        orderAt s.m_list s1.m_iterator ≠ some .ORDER_VIEW ∧
        sameCommands s.m_list s1.m_list := by
  have hrun : run sampleResolve
      [Event.message (sampleMessage .ActivateAll false),
        Event.message (sampleMessage (.ShowErrors 1) false),
        Event.message (sampleMessage (.ScrollCode 1) false),
        Event.message (sampleMessage (.ShowErrors 2) false),
        Event.message (sampleMessage (.ScrollCode 2) false),
        Event.undo] init =
      .ok { m_list :=
              [ { message := ⟨.ActivateAll, false, false, false, false⟩,
                  order := .ORDER_ACTIVATE, replayLastOnly := false },
                { message := ⟨.ShowErrors 1, true, false, false, false⟩,
                  order := .ORDER_ACTIVATE, replayLastOnly := false },
                { message := ⟨.ScrollCode 1, true, true, false, false⟩,
                  order := .ORDER_VIEW, replayLastOnly := true },
                { message := ⟨.ShowErrors 2, false, false, false, false⟩,
                  order := .ORDER_ACTIVATE, replayLastOnly := false },
                { message := ⟨.ScrollCode 2, false, false, false, false⟩,
                  order := .ORDER_VIEW, replayLastOnly := true } ],
            m_iterator := 3 } := rfl
  exact ⟨_, hrun, rfl, rfl,
    (reachable_cursor_before_non_view sampleResolve _ ⟨_, hrun⟩).2 (by decide)⟩

/-! ## Undo at the first command -/

/-- Where `handleMessage(MessageUndo*)` returns without a read outside the list,
the handler with these reads let through returns the same. -/
theorem handleMessageUndoStray_of_ok (strayAtBegin : Bool) (resolve : List Nat → List Nat)
    (s : UndoRedoController) (r : UndoRedoController × List Effect)
    (h : handleMessageUndo resolve s = .ok r) :
    handleMessageUndoStray strayAtBegin resolve s = .ok r := by
  unfold handleMessageUndo at h
  unfold handleMessageUndoStray
  by_cases hlen : s.m_list.length = 0
  · simpa [hlen] using h
  · simp only [hlen, if_false, bind, Except.bind] at h ⊢
    cases ht : undoTarget s.m_list s.m_iterator with
    | error e => rw [ht] at h; simp at h
    | ok p =>
      rw [ht] at h
      simp only at h ⊢
      cases p with
      | zero => simp [prev] at h
      | succ p' =>
        simp only [prev] at h
        cases hr : undoSkipView s.m_list p' with
        | error e => rw [hr] at h; simp at h
        | ok r' =>
          rw [hr] at h
          simp only [undoScanAtBegin, prev, bind, Except.bind, hr, decide_eq_true_eq]
          exact h

/-- The handler with the reads before `begin()` let through, when the last
command left of the cursor that is not a view command is the first command of
the list: it returns on line 295 with list and cursor as they were; the only
call it may have made is `setUndoButtonEnabled(false)`. -/
theorem handleMessageUndoStray_at_first (strayAtBegin : Bool) (resolve : List Nat → List Nat)
    (s : UndoRedoController) (hwf : s.WF) (hpos : 0 < s.m_iterator)
    (hfirst : orderAt s.m_list 0 ≠ some .ORDER_VIEW)
    (hlast : ∀ k, 0 < k → k < s.m_iterator → orderAt s.m_list k = some .ORDER_VIEW) :
    handleMessageUndoStray strayAtBegin resolve s =
      .ok (s, if strayAtBegin then [Effect.setUndoButtonEnabled false] else []) := by
  have hwf' : s.m_iterator ≤ s.m_list.length := hwf
  have hlen : ¬ s.m_list.length = 0 := by omega
  have h1 := undoTarget_eq s.m_list 0 s.m_iterator hpos hwf' hfirst hlast
  simp only [handleMessageUndoStray, hlen, if_false, h1, bind, Except.bind, undoScanAtBegin,
    prev, if_true]

/-- C6: at a history boundary the handlers do nothing. With the cursor at the
end of the list `handleMessage(MessageRedo*)` returns the state as it was and
no output, and so does `handleMessage(MessageUndo*)` on the empty list. When the
last command left of the cursor that is not a view command is the first
command of the list, `handleMessage(MessageUndo*)` returns on line 295 with
list and cursor as they were, no message dispatched and no flush; what the
stray scan of lines 282-286 yields decides only whether it has called
`setUndoButtonEnabled(false)`. -/
theorem undo_redo_at_boundary (resolve : List Nat → List Nat) (s : UndoRedoController)
    (hwf : s.WF) :
    (s.m_iterator = s.m_list.length → handleMessageRedo resolve s = .ok (s, [])) ∧
    (s.m_list = [] → handleMessageUndo resolve s = .ok (s, [])) ∧
    (0 < s.m_iterator → orderAt s.m_list 0 ≠ some .ORDER_VIEW →
      (∀ k, 0 < k → k < s.m_iterator → orderAt s.m_list k = some .ORDER_VIEW) →
      ∀ strayAtBegin : Bool,
        handleMessageUndoStray strayAtBegin resolve s =
          .ok (s, if strayAtBegin then [Effect.setUndoButtonEnabled false] else [])) :=
  ⟨handleMessageRedo_at_end resolve s, handleMessageUndo_empty resolve s,
    fun hpos hfirst hlast strayAtBegin =>
      handleMessageUndoStray_at_first strayAtBegin resolve s hwf hpos hfirst hlast⟩

/-- C6 on three states: redo on an activate and a scroll command with the
cursor at the end, undo on the empty list, and undo on an activate and a
scroll command with the cursor at the end. -/
theorem undo_redo_at_boundary_witness :
    handleMessageRedo sampleResolve
        { m_list := [sampleActivate 1, sampleScroll 1], m_iterator := 2 } =
      .ok ({ m_list := [sampleActivate 1, sampleScroll 1], m_iterator := 2 }, []) ∧
    handleMessageUndo sampleResolve init = .ok (init, []) ∧
    ∀ strayAtBegin : Bool,
      handleMessageUndoStray strayAtBegin sampleResolve
          { m_list := [sampleActivate 1, sampleScroll 1], m_iterator := 2 } =
        .ok ({ m_list := [sampleActivate 1, sampleScroll 1], m_iterator := 2 },
          if strayAtBegin then [Effect.setUndoButtonEnabled false] else []) :=
  ⟨(undo_redo_at_boundary sampleResolve
      { m_list := [sampleActivate 1, sampleScroll 1], m_iterator := 2 } (by decide)).1 rfl,
    (undo_redo_at_boundary sampleResolve init (by decide)).2.1 rfl,
    (undo_redo_at_boundary sampleResolve
      { m_list := [sampleActivate 1, sampleScroll 1], m_iterator := 2 } (by decide)).2.2
      (by decide) (by decide) (by intro k h1 h2; interval_cases k; rfl)⟩

/-- C3: in every state reached from the empty log in which the last command
left of the cursor that is not a view command is at a position `p` that is not
the first, `handleMessage(MessageUndo*)` returns, keeps the commands, puts the
cursor at `p`, just before that command, and replays from the nearest command
left of the new cursor with `ORDER_ACTIVATE` (or from the start of the list) up
to the new cursor. -/
theorem handleMessageUndo_moves_reachable (resolve : List Nat → List Nat)
    (s : UndoRedoController) (p : Nat)
    (hreach : Reachable resolve s)
    (hp : p < s.m_iterator)
    (hpo : orderAt s.m_list p ≠ some .ORDER_VIEW)
    (hlast : ∀ k, p < k → k < s.m_iterator → orderAt s.m_list k = some .ORDER_VIEW)
    (hp0 : 0 < p) :
    ∃ (start : Nat) (ctrl : UndoRedoController) (buttons out : List Effect),
      handleMessageUndo resolve s =
        .ok (ctrl, buttons ++ [Effect.setRedoButtonEnabled true] ++ out) ∧
      (∀ e ∈ buttons, e = Effect.setUndoButtonEnabled false) ∧
      sameCommands s.m_list ctrl.m_list ∧
      ctrl.m_iterator = p ∧
      (∀ k, p < k → k < s.m_iterator → orderAt ctrl.m_list k = some .ORDER_VIEW) ∧
      start < p ∧
      (start = 0 ∨ orderAt s.m_list start = some .ORDER_ACTIVATE) ∧
      (∀ k, start < k → k < p → orderAt s.m_list k ≠ some .ORDER_ACTIVATE) ∧
      replayCommandsFrom resolve start { s with m_iterator := p } = .ok (ctrl, out) := by
  obtain ⟨events, hrun⟩ := hreach
  obtain ⟨hwf, hfirst, _⟩ := Invariant.run resolve events init s Invariant.init hrun
  obtain ⟨start, ctrl, buttons, out, h1, h2, h3, h4, h5, h6, h7, h8⟩ :=
    handleMessageUndo_moves resolve s p 0 hwf hp hpo hlast hp0 hfirst
  refine ⟨start, ctrl, buttons, out, h1, h2, h3, h4, ?_, h5, h6, h7, h8⟩
  intro k hk1 hk2
  rw [sameCommands_orderAt h3]
  exact hlast k hk1 hk2

/-- C3 on the state reached by an activate all event, a show errors event and
a scroll event: undo puts the cursor just before the show errors command. -/
theorem handleMessageUndo_moves_reachable_witness :
    ∃ s ctrl out,
      run sampleResolve
          [Event.message (sampleMessage .ActivateAll false),
            Event.message (sampleMessage (.ShowErrors 1) false),
            Event.message (sampleMessage (.ScrollCode 1) false)] init = .ok s ∧
      s.m_iterator = 3 ∧
      handleMessageUndo sampleResolve s = .ok (ctrl, out) ∧
      ctrl.m_iterator = 1 := by
  have hrun : run sampleResolve
      [Event.message (sampleMessage .ActivateAll false),
        Event.message (sampleMessage (.ShowErrors 1) false),
        Event.message (sampleMessage (.ScrollCode 1) false)] init =
      .ok { m_list :=
              [ { message := sampleMessage .ActivateAll false,
                  order := .ORDER_ACTIVATE, replayLastOnly := false },
                { message := sampleMessage (.ShowErrors 1) false,
                  order := .ORDER_ACTIVATE, replayLastOnly := false },
                { message := sampleMessage (.ScrollCode 1) false,
                  order := .ORDER_VIEW, replayLastOnly := true } ],
            m_iterator := 3 } := rfl
  obtain ⟨_, ctrl, buttons, out, h1, _, _, h4, _⟩ :=
    handleMessageUndo_moves_reachable sampleResolve _ 1 ⟨_, hrun⟩ (by decide) (by decide)
      (by intro k h1 h2; interval_cases k; rfl) (by decide)
  exact ⟨_, ctrl, _, hrun, rfl, h1, h4⟩

/-- C18: when the first command is not a view command and
`handleMessage(MessageUndo*)` returns with the cursor moved, it has called
`setUndoButtonEnabled(false)` exactly when every command left of the new
cursor but the first is a view command, which is exactly when the handler,
run again on the resulting state, returns that state with no message
dispatched; and it has called `setRedoButtonEnabled(true)`. -/
theorem handleMessageUndo_buttons (resolve : List Nat → List Nat)
    (s s1 : UndoRedoController) (out1 : List Effect) (hwf : s.WF)
    (hfirst : orderAt s.m_list 0 ≠ some .ORDER_VIEW)
    (hundo : handleMessageUndo resolve s = .ok (s1, out1))
    (hmoved : s1.m_iterator ≠ s.m_iterator) :
    (Effect.setUndoButtonEnabled false ∈ out1 ↔
      ∀ k, 0 < k → k < s1.m_iterator → orderAt s1.m_list k = some .ORDER_VIEW) ∧
    (∀ strayAtBegin : Bool, ∃ (s2 : UndoRedoController) (out2 : List Effect),
      handleMessageUndoStray strayAtBegin resolve s1 = .ok (s2, out2) ∧
      (Effect.setUndoButtonEnabled false ∈ out1 ↔
        (s2 = s1 ∧ ∀ e ∈ out2, e = Effect.setUndoButtonEnabled false))) ∧
    Effect.setRedoButtonEnabled true ∈ out1 := by
  have hwf' : s.m_iterator ≤ s.m_list.length := hwf
  rcases handleMessageUndo_ok resolve s s1 out1 hwf hundo with
    ⟨h1, _, _⟩ | ⟨hp0, hp1, _, _, hsame, r, ps, b, hr1, hr2, hr3, hout⟩
  · exact absurd (by rw [h1]) hmoved
  · have hord : ∀ k, orderAt s1.m_list k = orderAt s.m_list k := sameCommands_orderAt hsame
    have hlen : s1.m_list.length = s.m_list.length := sameCommands_length hsame
    have hwf1 : s1.WF := by
      show s1.m_iterator ≤ s1.m_list.length
      omega
    have hmem : Effect.setUndoButtonEnabled false ∈ out1 ↔ r = 0 := by
      rw [hout]
      by_cases hr0 : r = 0
      · simp [hr0]
      · simp [hr0, replayedAt]
    have hview : r = 0 ↔
        ∀ k, 0 < k → k < s1.m_iterator → orderAt s1.m_list k = some .ORDER_VIEW := by
      constructor
      · intro hr0 k hk1 hk2
        rw [hord]
        exact hr3 k (by omega) hk2
      · intro hall
        by_contra hr0
        exact hr2 ((hord r).symm.trans (hall r (Nat.pos_of_ne_zero hr0) hr1))
    refine ⟨hmem.trans hview, ?_, ?_⟩
    · intro strayAtBegin
      by_cases hr0 : r = 0
      · refine ⟨s1, _, handleMessageUndoStray_at_first strayAtBegin resolve s1 hwf1 hp0
          (by rw [hord]; exact hfirst) (hview.1 hr0), ?_⟩
        constructor
        · intro _
          refine ⟨rfl, ?_⟩
          intro e he
          split_ifs at he
          · simpa using he
          · simp at he
        · intro _
          exact hmem.2 hr0
      · obtain ⟨start, ctrl, buttons, out, h1, _, _, h4, _⟩ :=
          handleMessageUndo_moves resolve s1 r 0 hwf1 hr1 (by rw [hord]; exact hr2)
            (by intro k hk1 hk2; rw [hord]; exact hr3 k hk1 hk2)
            (Nat.pos_of_ne_zero hr0) (by rw [hord]; exact hfirst)
        refine ⟨ctrl, _, handleMessageUndoStray_of_ok strayAtBegin resolve s1 _ h1, ?_⟩
        constructor
        · intro hin
          exact absurd (hmem.1 hin) hr0
        · intro hs2
          have hcur : ctrl.m_iterator = s1.m_iterator := by rw [hs2.1]
          omega
    · rw [hout]
      simp

/-- C18 on two activate commands with the cursor at the end: undo moves the
cursor after the first command, disables the undo button and enables the redo
button; undo on the resulting state returns it as it is. -/
theorem handleMessageUndo_buttons_witness :
    ∃ s1 out1,
      handleMessageUndo sampleResolve
          { m_list := [sampleActivate 1, sampleActivate 2], m_iterator := 2 } = .ok (s1, out1) ∧
      s1.m_iterator = 1 ∧
      Effect.setUndoButtonEnabled false ∈ out1 ∧
      Effect.setRedoButtonEnabled true ∈ out1 ∧
      ∀ strayAtBegin : Bool, ∃ out2,
        handleMessageUndoStray strayAtBegin sampleResolve s1 = .ok (s1, out2) := by
  have hundo : handleMessageUndo sampleResolve
      { m_list := [sampleActivate 1, sampleActivate 2], m_iterator := 2 } =
      .ok ({ m_list :=
              [ { message := ⟨.ShowErrors 1, true, true, false, false⟩,
                  order := .ORDER_ACTIVATE, replayLastOnly := false },
                sampleActivate 2 ],
             m_iterator := 1 },
        [ Effect.setUndoButtonEnabled false, Effect.setRedoButtonEnabled true,
          Effect.dispatch ⟨.ShowErrors 1, true, true, false, false⟩,
          Effect.flushUpdates false ]) := rfl
  obtain ⟨h1, h2, h3⟩ :=
    handleMessageUndo_buttons sampleResolve _ _ _ (by decide) (by decide) hundo (by decide)
  have hin : Effect.setUndoButtonEnabled false ∈
      [ Effect.setUndoButtonEnabled false, Effect.setRedoButtonEnabled true,
        Effect.dispatch ⟨.ShowErrors 1, true, true, false, false⟩,
        Effect.flushUpdates false ] := by decide
  refine ⟨_, _, hundo, rfl, hin, h3, ?_⟩
  intro strayAtBegin
  obtain ⟨s2, out2, h4, h5⟩ := h2 strayAtBegin
  have h6 := (h5.1 hin).1
  rw [h6] at h4
  exact ⟨out2, h4⟩

end UndoRedo
